import Mathlib

/-!
# Alicloud RAM policy documents

A shallow embedding of `alicloud/service_alicloud_ram.go`: the policy data
model, the two parsers, the two assemblers, the trust validator
`JudgeRolePolicyPrincipal` and the helper `GetIntersection`.

Go strings are byte sequences, so they are lists of byte values here. The
functions of the Go standard library that the source calls (`encoding/json`,
`unicode/utf8`, `strings.Trim`, `fmt.Errorf`) are embedded as far as the source
uses them, for the field types that occur in the model.
-/

namespace Alicloud

/-! ## Strings and UTF-8 (`unicode/utf8`) -/

/-- A Go `string`: a sequence of bytes, each a value below 256. -/
abbrev GoString := List Nat

/-- The constant `utf8.RuneError`, U+FFFD. -/
def RuneError : Nat := 0xFFFD

/-- The function `utf8.EncodeRune` on a non-negative rune: surrogates and values past
U+10FFFF are written as U+FFFD. -/
def encodeRune (r : Nat) : GoString :=
  if r ≤ 0x7F then [r]
  else if r ≤ 0x7FF then [0xC0 + r / 64, 0x80 + r % 64]
  else if 0x10FFFF < r ∨ (0xD800 ≤ r ∧ r ≤ 0xDFFF) then [0xEF, 0xBF, 0xBD]
  else if r ≤ 0xFFFF then [0xE0 + r / 4096, 0x80 + r / 64 % 64, 0x80 + r % 64]
  else [0xF0 + r / 262144, 0x80 + r / 4096 % 64, 0x80 + r / 64 % 64, 0x80 + r % 64]

/-- The function `utf8.DecodeRune`: the first rune of `p` and its width in bytes;
`(RuneError, 0)` on empty input and `(RuneError, 1)` on an invalid encoding. -/
def decodeRune : GoString → Nat × Nat
  | [] => (RuneError, 0)
  | p0 :: rest =>
    if p0 < 0x80 then (p0, 1)
    else if p0 < 0xC2 ∨ 0xF4 < p0 then (RuneError, 1)
    else
      let sz := if p0 < 0xE0 then 2 else if p0 < 0xF0 then 3 else 4
      let lo := if p0 = 0xE0 then 0xA0 else if p0 = 0xF0 then 0x90 else 0x80
      let hi := if p0 = 0xED then 0x9F else if p0 = 0xF4 then 0x8F else 0xBF
      let b1 := rest.getD 0 0
      let b2 := rest.getD 1 0
      let b3 := rest.getD 2 0
      if rest.length + 1 < sz then (RuneError, 1)
      else if b1 < lo ∨ hi < b1 then (RuneError, 1)
      else if sz = 2 then (p0 % 32 * 64 + b1 % 64, 2)
      else if b2 < 0x80 ∨ 0xBF < b2 then (RuneError, 1)
      else if sz = 3 then (p0 % 16 * 4096 + b1 % 64 * 64 + b2 % 64, 3)
      else if b3 < 0x80 ∨ 0xBF < b3 then (RuneError, 1)
      else (p0 % 8 * 262144 + b1 % 64 * 4096 + b2 % 64 * 64 + b3 % 64, 4)

/-- The bytes of a text: its UTF-8 encoding. Every Go string that is valid UTF-8 is
`utf8 s` for exactly one `s`. -/
def utf8 (s : String) : GoString :=
  s.data.flatMap fun c => encodeRune c.toNat

/-- The function `strings.Trim(s, " ")`: `s` without its leading and trailing bytes
0x20. -/
def trimSpaces (s : GoString) : GoString :=
  ((s.dropWhile (· == 0x20)).reverse.dropWhile (· == 0x20)).reverse

/-! ## JSON text: the encoder of `encoding/json`

The source was written for the Go releases of 2017; `encoding/json` is embedded as
of those releases (control characters other than tab, line feed and carriage
return are written as `\u00XX`). `json.Marshal` escapes for HTML. -/

/-- The table `htmlSafeSet`: the ASCII bytes written to a JSON string as they are. -/
def htmlSafe (b : Nat) : Bool :=
  0x20 ≤ b && b < 0x80 && b != 0x22 && b != 0x26 && b != 0x3C && b != 0x3E && b != 0x5C

/-- One digit of `"0123456789abcdef"`. -/
def hexDigit (n : Nat) : Nat :=
  if n < 10 then 0x30 + n else 0x57 + n

/-- What `encodeState.string` writes for one ASCII byte. -/
def escapeByte (b : Nat) : GoString :=
  if htmlSafe b then [b]
  else if b = 0x5C ∨ b = 0x22 then [0x5C, b]
  else if b = 0x0A then [0x5C, 0x6E]
  else if b = 0x0D then [0x5C, 0x72]
  else if b = 0x09 then [0x5C, 0x74]
  else [0x5C, 0x75, 0x30, 0x30, hexDigit (b / 16), hexDigit (b % 16)]

/-- The loop of `encodeState.string` over the rest `s` of the string; each round
consumes at least one byte, so `s.length` rounds are enough. -/
def encodeStringAux : Nat → GoString → GoString
  | 0, _ => []
  | _, [] => []
  | fuel + 1, b :: rest =>
    if b < 0x80 then escapeByte b ++ encodeStringAux fuel rest
    else
      let (c, size) := decodeRune (b :: rest)
      if c = RuneError ∧ size = 1 then
        [0x5C, 0x75, 0x66, 0x66, 0x66, 0x64] ++ encodeStringAux fuel rest
      else if c = 0x2028 ∨ c = 0x2029 then
        [0x5C, 0x75, 0x32, 0x30, 0x32, hexDigit (c % 16)]
          ++ encodeStringAux fuel (rest.drop (size - 1))
      else (b :: rest).take size ++ encodeStringAux fuel (rest.drop (size - 1))

/-- A Go string as a JSON string literal. -/
def encodeString (s : GoString) : GoString :=
  [0x22] ++ encodeStringAux s.length s ++ [0x22]

/-- The texts `xs` separated by commas. -/
def joinComma : List GoString → GoString
  | [] => []
  | [x] => x
  | x :: y :: rest => x ++ 0x2C :: joinComma (y :: rest)

/-! ## JSON text: the scanner of `encoding/json` -/

/-- A JSON value as the scanner delimits it; strings and member names are held
unquoted (`unquoteBytes`), the digits of a number are not kept. -/
inductive JVal where
  | null
  | bool (b : Bool)
  | num
  | str (s : GoString)
  | arr (items : List JVal)
  | obj (members : List (GoString × JVal))

/-- The function `isSpace` of the scanner. -/
def isSpace (c : Nat) : Bool :=
  c == 0x20 || c == 0x09 || c == 0x0D || c == 0x0A

/-- The input past its leading white space. -/
def skipSpace (s : GoString) : GoString :=
  s.dropWhile isSpace

/-- The value of a hexadecimal digit. -/
def hexValue (c : Nat) : Option Nat :=
  if 0x30 ≤ c ∧ c ≤ 0x39 then some (c - 0x30)
  else if 0x61 ≤ c ∧ c ≤ 0x66 then some (c - 0x57)
  else if 0x41 ≤ c ∧ c ≤ 0x46 then some (c - 0x37)
  else none

/-- Four hexadecimal digits and the input after them. -/
def hex4 : GoString → Option (Nat × GoString)
  | a :: b :: c :: d :: rest =>
    match hexValue a, hexValue b, hexValue c, hexValue d with
    | some a, some b, some c, some d => some (((a * 16 + b) * 16 + c) * 16 + d, rest)
    | _, _, _, _ => none
  | _ => none

/-- The function `getu4`: the rune of a `\uXXXX` escape at the head of the input. -/
def getu4 : GoString → Option (Nat × GoString)
  | a :: b :: rest => if a = 0x5C ∧ b = 0x75 then hex4 rest else none
  | _ => none

/-- The byte a one-letter escape stands for. -/
def unescape (e : Nat) : Option Nat :=
  if e = 0x22 ∨ e = 0x5C ∨ e = 0x2F then some e
  else if e = 0x62 then some 0x08
  else if e = 0x66 then some 0x0C
  else if e = 0x6E then some 0x0A
  else if e = 0x72 then some 0x0D
  else if e = 0x74 then some 0x09
  else none

/-- Puts `pre` in front of the text a parser returned. -/
def consText (pre : GoString) (r : Option (GoString × GoString)) :
    Option (GoString × GoString) :=
  r.map fun p => (pre ++ p.1, p.2)

/-- A string literal after its opening quote: the unquoted text (`unquoteBytes`:
escapes resolved, surrogate pairs joined, invalid UTF-8 replaced by U+FFFD) and the
input after the closing quote. Control characters and unknown escapes are refused.
Each round consumes at least one byte. -/
def parseStringAux : Nat → GoString → Option (GoString × GoString)
  | 0, _ => none
  | _, [] => none
  | fuel + 1, c :: s =>
    if c = 0x22 then some ([], s)
    else if c = 0x5C then
      match s with
      | [] => none
      | e :: s1 =>
        if e = 0x75 then
          match hex4 s1 with
          | none => none
          | some (rr, s2) =>
            if 0xD800 ≤ rr ∧ rr < 0xE000 then
              match getu4 s2 with
              | some (rr1, s3) =>
                if rr < 0xDC00 ∧ 0xDC00 ≤ rr1 ∧ rr1 < 0xE000 then
                  consText (encodeRune ((rr - 0xD800) * 1024 + (rr1 - 0xDC00) + 0x10000))
                    (parseStringAux fuel s3)
                else consText (encodeRune RuneError) (parseStringAux fuel s2)
              | none => consText (encodeRune RuneError) (parseStringAux fuel s2)
            else consText (encodeRune rr) (parseStringAux fuel s2)
        else
          match unescape e with
          | some b => consText [b] (parseStringAux fuel s1)
          | none => none
    else if c < 0x20 then none
    else if c < 0x80 then consText [c] (parseStringAux fuel s)
    else
      let (rr, size) := decodeRune (c :: s)
      consText (encodeRune rr) (parseStringAux fuel (s.drop (size - 1)))

/-- A string literal after its opening quote. -/
def parseString (s : GoString) : Option (GoString × GoString) :=
  parseStringAux s.length s

/-- The function `isDigit`. -/
def isDigit (c : Nat) : Bool :=
  0x30 ≤ c && c ≤ 0x39

/-- One or more digits at the head of the input: the input after them. -/
def parseDigits : GoString → Option GoString
  | [] => none
  | d :: r => if isDigit d then some (r.dropWhile isDigit) else none

/-- The exponent of a number, if there is one, and the input after it. -/
def parseExp : GoString → Option GoString
  | [] => some []
  | e :: r =>
    if e = 0x65 ∨ e = 0x45 then
      match r with
      | [] => none
      | sign :: r0 => if sign = 0x2B ∨ sign = 0x2D then parseDigits r0 else parseDigits r
    else some (e :: r)

/-- The fraction and exponent of a number, if any, and the input after them. -/
def parseFrac : GoString → Option GoString
  | [] => some []
  | c :: r =>
    if c = 0x2E then
      match parseDigits r with
      | none => none
      | some r1 => parseExp r1
    else parseExp (c :: r)

/-- A JSON number without its sign: the input after it. -/
def parseUnsigned : GoString → Option GoString
  | [] => none
  | d :: r =>
    if d = 0x30 then parseFrac r
    else if 0x31 ≤ d ∧ d ≤ 0x39 then parseFrac (r.dropWhile isDigit)
    else none

/-- A JSON number at the head of the input: the input after it. -/
def parseNumber : GoString → Option GoString
  | [] => none
  | c :: r => if c = 0x2D then parseUnsigned r else parseUnsigned (c :: r)

/-- The input after the word `w`, if the input starts with it. -/
def parseWord (w : GoString) (s : GoString) : Option GoString :=
  if w.isPrefixOf s then some (s.drop w.length) else none

/-- The elements of an array after the first white space inside `[ `, up to and
including the closing bracket; `pv` reads one value. -/
def parseElems (pv : GoString → Option (JVal × GoString)) :
    Nat → GoString → Option (List JVal × GoString)
  | 0, _ => none
  | fuel + 1, s =>
    match pv s with
    | none => none
    | some (v, r) =>
      match skipSpace r with
      | [] => none
      | c :: r1 =>
        if c = 0x2C then
          (parseElems pv fuel (skipSpace r1)).map fun p => (v :: p.1, p.2)
        else if c = 0x5D then some ([v], r1)
        else none

/-- The members of an object from the first member name on, up to and including the
closing brace; `pv` reads one value. -/
def parseMembers (pv : GoString → Option (JVal × GoString)) :
    Nat → GoString → Option (List (GoString × JVal) × GoString)
  | 0, _ => none
  | fuel + 1, s =>
    match s with
    | [] => none
    | q :: s1 =>
      if q = 0x22 then
        match parseString s1 with
        | none => none
        | some (key, r) =>
          match skipSpace r with
          | [] => none
          | colon :: r1 =>
            if colon = 0x3A then
              match pv (skipSpace r1) with
              | none => none
              | some (v, r2) =>
                match skipSpace r2 with
                | [] => none
                | c :: r3 =>
                  if c = 0x2C then
                    (parseMembers pv fuel (skipSpace r3)).map fun p => ((key, v) :: p.1, p.2)
                  else if c = 0x7D then some ([(key, v)], r3)
                  else none
            else none
      else none

/-- One JSON value at the head of the input (no white space before it) and the input
after it. A value nested `d` levels deep starts after at least `d` bytes, so fuel
equal to the length of the input is enough. The limit on the nesting depth is applied
by `parseJSON`, on the value that was scanned. -/
def parseValue : Nat → GoString → Option (JVal × GoString)
  | 0, _ => none
  | _, [] => none
  | fuel + 1, c :: rest =>
    if c = 0x22 then (parseString rest).map fun p => (JVal.str p.1, p.2)
    else if c = 0x5B then
      match skipSpace rest with
      | [] => none
      | d :: r =>
        if d = 0x5D then some (JVal.arr [], r)
        else (parseElems (parseValue fuel) rest.length (d :: r)).map fun p => (JVal.arr p.1, p.2)
    else if c = 0x7B then
      match skipSpace rest with
      | [] => none
      | d :: r =>
        if d = 0x7D then some (JVal.obj [], r)
        else (parseMembers (parseValue fuel) rest.length (d :: r)).map fun p => (JVal.obj p.1, p.2)
    else if c = 0x74 then (parseWord [0x72, 0x75, 0x65] rest).map fun r => (JVal.bool true, r)
    else if c = 0x66 then
      (parseWord [0x61, 0x6C, 0x73, 0x65] rest).map fun r => (JVal.bool false, r)
    else if c = 0x6E then (parseWord [0x75, 0x6C, 0x6C] rest).map fun r => (JVal.null, r)
    else (parseNumber (c :: rest)).map fun r => (JVal.num, r)

/-- The constant `maxNestingDepth` of the scanner (Go 1.15 and later). -/
def maxNestingDepth : Nat := 10000

mutual
/-- How deep the arrays and objects of a value are nested: the largest number of entries
the scanner's `parseState` stack holds while it scans the value (`pushParseState` adds
one for each `[` and each `\x7b`). -/
def JVal.nesting : JVal → Nat
  | .arr items => nestingOfItems items + 1
  | .obj members => nestingOfMembers members + 1
  | _ => 0
/-- The deepest nesting among the elements of an array. -/
def nestingOfItems : List JVal → Nat
  | [] => 0
  | x :: xs => max x.nesting (nestingOfItems xs)
/-- The deepest nesting among the values of the members of an object. -/
def nestingOfMembers : List (GoString × JVal) → Nat
  | [] => 0
  | m :: ms => max m.2.nesting (nestingOfMembers ms)
end

/-- The function `checkValid` together with the delimiting of values: the one JSON
value that makes up `data`, white space allowed around it; `none` is a
`*json.SyntaxError`. Text nested more than `maxNestingDepth` levels deep is refused
("exceeded max depth"): every error of the scanner is a syntax error, so the limit is
checked once the value is scanned. -/
def parseJSON (data : GoString) : Option JVal :=
  let s := skipSpace data
  match parseValue s.length s with
  | none => none
  | some (v, r) =>
    if skipSpace r = [] then
      if v.nesting ≤ maxNestingDepth then some v else none
    else none

/-! ## The policy data model -/

/-- A Go slice. `elems` is `none` for the nil slice and holds the `len` elements
otherwise; `spare` is what the backing array holds between `len` and `cap`, as far as
it is not the zero value (`encoding/json` re-uses it when a repeated member makes a
slice grow again). -/
structure Slice (α : Type) where
  elems : Option (List α)
  spare : List α
deriving DecidableEq, Repr

/-- The nil slice. -/
def Slice.nil {α : Type} : Slice α := ⟨none, []⟩

/-- A slice that holds exactly `xs`, nothing beyond its length. -/
def Slice.ofList {α : Type} (xs : List α) : Slice α := ⟨some xs, []⟩

/-- The elements of a slice, `s[0]` to `s[len(s)-1]`. -/
def Slice.toList {α : Type} (s : Slice α) : List α := s.elems.getD []

/-- The builtin `append(s, x)`; past the length the new element takes the place of
the first spare one. -/
def Slice.append {α : Type} (s : Slice α) (x : α) : Slice α :=
  ⟨some (s.toList ++ [x]), s.spare.tail⟩

/-- The type `Effect`, a string. -/
abbrev Effect := GoString

/-- The constant `Allow`. -/
def Allow : Effect := utf8 "Allow"

/-- The constant `Deny`. -/
def Deny : Effect := utf8 "Deny"

/-- The struct `Principal`. -/
structure Principal where
  Service : Slice GoString
  RAM : Slice GoString
deriving DecidableEq, Repr

/-- The struct `RolePolicyStatement`. -/
structure RolePolicyStatement where
  Effect : Effect
  Action : GoString
  Principal : Principal
deriving DecidableEq, Repr

/-- The struct `RolePolicy`. -/
structure RolePolicy where
  Statement : Slice RolePolicyStatement
  Version : GoString
deriving DecidableEq, Repr

/-- The struct `PolicyStatement`. -/
structure PolicyStatement where
  Effect : Effect
  Action : Slice GoString
  Resource : Slice GoString
deriving DecidableEq, Repr

/-- The struct `Policy`. -/
structure Policy where
  Statement : Slice PolicyStatement
  Version : GoString
deriving DecidableEq, Repr

/-- The zero value `Principal{}`. -/
def Principal.zero : Principal := ⟨Slice.nil, Slice.nil⟩

/-- The zero value `RolePolicyStatement{}`. -/
def RolePolicyStatement.zero : RolePolicyStatement := ⟨[], [], Principal.zero⟩

/-- The zero value `RolePolicy{}`. -/
def RolePolicy.zero : RolePolicy := ⟨Slice.nil, []⟩

/-- The zero value `PolicyStatement{}`. -/
def PolicyStatement.zero : PolicyStatement := ⟨[], Slice.nil, Slice.nil⟩

/-- The zero value `Policy{}`. -/
def Policy.zero : Policy := ⟨Slice.nil, []⟩

/-- The errors of `encoding/json` the source can meet, without their offsets. -/
inductive JsonError where
  | syntaxError
  | unmarshalTypeError (value : String)
deriving DecidableEq, Repr

/-- A Go `error` value of this package: one that `encoding/json` returned, or one
made by `fmt.Errorf` with the given message. -/
inductive GoError where
  | json (e : JsonError)
  | errorf (msg : GoString)
deriving DecidableEq, Repr

/-! ## `json.Marshal` on the model -/

/-- A slice as JSON: `null` when nil, else the array of its elements. -/
def encodeSlice {α : Type} (enc : α → GoString) (s : Slice α) : GoString :=
  match s.elems with
  | none => utf8 "null"
  | some xs => 0x5B :: joinComma (xs.map enc) ++ [0x5D]

/-- A `Principal` as JSON, fields in declaration order. -/
def encodePrincipal (p : Principal) : GoString :=
  utf8 "\x7b\"Service\":" ++ encodeSlice encodeString p.Service
    ++ utf8 ",\"RAM\":" ++ encodeSlice encodeString p.RAM ++ utf8 "\x7d"

/-- A `RolePolicyStatement` as JSON. -/
def encodeRolePolicyStatement (st : RolePolicyStatement) : GoString :=
  utf8 "\x7b\"Effect\":" ++ encodeString st.Effect
    ++ utf8 ",\"Action\":" ++ encodeString st.Action
    ++ utf8 ",\"Principal\":" ++ encodePrincipal st.Principal ++ utf8 "\x7d"

/-- A `RolePolicy` as JSON. -/
def encodeRolePolicy (p : RolePolicy) : GoString :=
  utf8 "\x7b\"Statement\":" ++ encodeSlice encodeRolePolicyStatement p.Statement
    ++ utf8 ",\"Version\":" ++ encodeString p.Version ++ utf8 "\x7d"

/-- A `PolicyStatement` as JSON. -/
def encodePolicyStatement (st : PolicyStatement) : GoString :=
  utf8 "\x7b\"Effect\":" ++ encodeString st.Effect
    ++ utf8 ",\"Action\":" ++ encodeSlice encodeString st.Action
    ++ utf8 ",\"Resource\":" ++ encodeSlice encodeString st.Resource ++ utf8 "\x7d"

/-- A `Policy` as JSON. -/
def encodePolicy (p : Policy) : GoString :=
  utf8 "\x7b\"Statement\":" ++ encodeSlice encodePolicyStatement p.Statement
    ++ utf8 ",\"Version\":" ++ encodeString p.Version ++ utf8 "\x7d"

/-- The call `json.Marshal(policy)` for a `RolePolicy`: the model holds strings,
slices and structs only, for which the encoder has no failing case. -/
def marshalRolePolicy (p : RolePolicy) : GoString × Option GoError :=
  (encodeRolePolicy p, none)

/-- The call `json.Marshal(policy)` for a `Policy`. -/
def marshalPolicy (p : Policy) : GoString × Option GoError :=
  (encodePolicy p, none)

/-! ## `json.Unmarshal` into the model

Values are stored into what the target already holds: a member that does not
name a field is skipped, `null` leaves strings and structs as they are, a value of
the wrong kind is recorded as an `UnmarshalTypeError` and decoding goes on; the
first recorded error is returned at the end. -/

/-- A rune `r` of a member name matches the byte `c` of an ASCII field name under
simple case folding: equal, the other case of the same letter, or the long s
(U+017F) for `s` and the Kelvin sign (U+212A) for `k`. -/
def foldsTo (c r : Nat) : Bool :=
  r == c
    || (0x41 ≤ c && c ≤ 0x5A && r == c + 0x20)
    || (0x61 ≤ c && c ≤ 0x7A && r + 0x20 == c)
    || ((c == 0x53 || c == 0x73) && r == 0x17F)
    || ((c == 0x4B || c == 0x6B) && r == 0x212A)

/-- The function `bytes.EqualFold(name, key)` for an ASCII field name. -/
def equalFold : GoString → GoString → Bool
  | [], [] => true
  | [], _ :: _ => false
  | _ :: _, [] => false
  | c :: cs, k :: ks =>
    let d := decodeRune (k :: ks)
    foldsTo c d.1 && equalFold cs (ks.drop (d.2 - 1))

/-- The field a member name selects: the field of exactly that name if there is one,
else the first field that matches it under case folding. Fields are numbered in
declaration order from `i`. -/
def findFieldFrom (key : GoString) : Nat → List GoString → Option Nat → Option Nat
  | _, [], f => f
  | i, name :: names, f =>
    if name = key then some i
    else if f.isNone && equalFold name key then findFieldFrom key (i + 1) names (some i)
    else findFieldFrom key (i + 1) names f

/-- The index of the field of a struct with fields `names` that `key` selects. -/
def findField (names : List GoString) (key : GoString) : Option Nat :=
  findFieldFrom key 0 names none

/-- The first of two recorded errors (`decodeState.saveError`). -/
def firstError (a b : Option JsonError) : Option JsonError :=
  match a with
  | some e => some e
  | none => b

/-- The error recorded when a JSON value cannot be stored into a string, a slice
(`intoSlice`) or a struct; `none` when it can, or when it is `null`. -/
def kindError (intoSlice intoStruct : Bool) : JVal → Option JsonError
  | .null => none
  | .bool _ => some (.unmarshalTypeError "bool")
  | .num => some (.unmarshalTypeError "number")
  | .str _ => if intoSlice || intoStruct then some (.unmarshalTypeError "string") else none
  | .arr _ => if intoSlice then none else some (.unmarshalTypeError "array")
  | .obj _ => if intoStruct then none else some (.unmarshalTypeError "object")

/-- Stores a JSON value into a string. -/
def decodeString (j : JVal) (cur : GoString) : GoString × Option JsonError :=
  match j with
  | .str s => (s, none)
  | other => (cur, kindError false false other)

/-- The loop of `decodeState.array`: element `i` of the array is stored into what the
backing array `buf` holds at index `i` (a zero value past its end). Returns the
stored elements, the rest of the backing array, and the first error. -/
def decodeElems {α : Type} (dec : JVal → α → α × Option JsonError) (zero : α) :
    List JVal → List α → List α × List α × Option JsonError
  | [], buf => ([], buf, none)
  | x :: xs, buf =>
    let r := dec x (buf.headD zero)
    let rs := decodeElems dec zero xs buf.tail
    (r.1 :: rs.1, rs.2.1, firstError r.2 rs.2.2)

/-- Stores a JSON value into a slice: an array element by element (the empty array
gives a fresh empty slice), `null` gives the nil slice. -/
def decodeSlice {α : Type} (dec : JVal → α → α × Option JsonError) (zero : α)
    (j : JVal) (cur : Slice α) : Slice α × Option JsonError :=
  match j with
  | .arr [] => (Slice.ofList [], none)
  | .arr (x :: xs) =>
    let r := decodeElems dec zero (x :: xs) (cur.toList ++ cur.spare)
    (⟨some r.1, r.2.1⟩, r.2.2)
  | .null => (Slice.nil, none)
  | other => (cur, kindError true false other)

/-- The loop of `decodeState.object` for a struct with fields `names`: each member
that selects a field is stored into it by `store`, the others are skipped. -/
def decodeMembers {σ : Type} (names : List GoString)
    (store : Nat → JVal → σ → σ × Option JsonError) :
    List (GoString × JVal) → σ → σ × Option JsonError
  | [], cur => (cur, none)
  | (key, v) :: rest, cur =>
    match findField names key with
    | none => decodeMembers names store rest cur
    | some i =>
      let r := store i v cur
      let rs := decodeMembers names store rest r.1
      (rs.1, firstError r.2 rs.2)

/-- Stores a JSON value into a struct with fields `names`. -/
def decodeStruct {σ : Type} (names : List GoString)
    (store : Nat → JVal → σ → σ × Option JsonError) (j : JVal) (cur : σ) :
    σ × Option JsonError :=
  match j with
  | .obj members => decodeMembers names store members cur
  | other => (cur, kindError false true other)

/-- Stores a JSON value into a `Principal`. -/
def decodePrincipal : JVal → Principal → Principal × Option JsonError :=
  decodeStruct [utf8 "Service", utf8 "RAM"] fun i v cur =>
    if i = 0 then
      let r := decodeSlice decodeString [] v cur.Service
      ({ cur with Service := r.1 }, r.2)
    else
      let r := decodeSlice decodeString [] v cur.RAM
      ({ cur with RAM := r.1 }, r.2)

/-- Stores a JSON value into a `RolePolicyStatement`. -/
def decodeRolePolicyStatement :
    JVal → RolePolicyStatement → RolePolicyStatement × Option JsonError :=
  decodeStruct [utf8 "Effect", utf8 "Action", utf8 "Principal"] fun i v cur =>
    if i = 0 then
      let r := decodeString v cur.Effect
      ({ cur with Effect := r.1 }, r.2)
    else if i = 1 then
      let r := decodeString v cur.Action
      ({ cur with Action := r.1 }, r.2)
    else
      let r := decodePrincipal v cur.Principal
      ({ cur with Principal := r.1 }, r.2)

/-- Stores a JSON value into a `RolePolicy`. -/
def decodeRolePolicy : JVal → RolePolicy → RolePolicy × Option JsonError :=
  decodeStruct [utf8 "Statement", utf8 "Version"] fun i v cur =>
    if i = 0 then
      let r := decodeSlice decodeRolePolicyStatement RolePolicyStatement.zero v cur.Statement
      ({ cur with Statement := r.1 }, r.2)
    else
      let r := decodeString v cur.Version
      ({ cur with Version := r.1 }, r.2)

/-- Stores a JSON value into a `PolicyStatement`. -/
def decodePolicyStatement : JVal → PolicyStatement → PolicyStatement × Option JsonError :=
  decodeStruct [utf8 "Effect", utf8 "Action", utf8 "Resource"] fun i v cur =>
    if i = 0 then
      let r := decodeString v cur.Effect
      ({ cur with Effect := r.1 }, r.2)
    else if i = 1 then
      let r := decodeSlice decodeString [] v cur.Action
      ({ cur with Action := r.1 }, r.2)
    else
      let r := decodeSlice decodeString [] v cur.Resource
      ({ cur with Resource := r.1 }, r.2)

/-- Stores a JSON value into a `Policy`. -/
def decodePolicy : JVal → Policy → Policy × Option JsonError :=
  decodeStruct [utf8 "Statement", utf8 "Version"] fun i v cur =>
    if i = 0 then
      let r := decodeSlice decodePolicyStatement PolicyStatement.zero v cur.Statement
      ({ cur with Statement := r.1 }, r.2)
    else
      let r := decodeString v cur.Version
      ({ cur with Version := r.1 }, r.2)

/-- The call `json.Unmarshal(data, &policy)` for a `RolePolicy`: the value `policy`
holds afterwards, and the error. Invalid JSON leaves `policy` untouched. -/
def unmarshalRolePolicy (data : GoString) (policy : RolePolicy) :
    RolePolicy × Option GoError :=
  match parseJSON data with
  | none => (policy, some (.json .syntaxError))
  | some j =>
    let r := decodeRolePolicy j policy
    (r.1, r.2.map GoError.json)

/-- The call `json.Unmarshal(data, &policy)` for a `Policy`. -/
def unmarshalPolicy (data : GoString) (policy : Policy) : Policy × Option GoError :=
  match parseJSON data with
  | none => (policy, some (.json .syntaxError))
  | some j =>
    let r := decodePolicy j policy
    (r.1, r.2.map GoError.json)

/-! ### The expected shape

The shape a JSON value must have for `json.Unmarshal` to store it without a type
error, stated on the value alone. -/

/-- A string or `null`. -/
def fitsString : JVal → Bool
  | .str _ => true
  | .null => true
  | _ => false

/-- An array whose elements all fit, or `null`. -/
def fitsSlice (elem : JVal → Bool) : JVal → Bool
  | .arr items => items.all elem
  | .null => true
  | _ => false

/-- An object in which every member that selects a field of `names` holds a value that
fits the field, or `null`. -/
def fitsStruct (names : List GoString) (field : Nat → JVal → Bool) : JVal → Bool
  | .obj members =>
    members.all fun m =>
      match findField names m.1 with
      | none => true
      | some i => field i m.2
  | .null => true
  | _ => false

/-- The shape of a `Principal`. -/
def fitsPrincipal : JVal → Bool :=
  fitsStruct [utf8 "Service", utf8 "RAM"] fun _ v => fitsSlice fitsString v

/-- The shape of a `RolePolicyStatement`. -/
def fitsRolePolicyStatement : JVal → Bool :=
  fitsStruct [utf8 "Effect", utf8 "Action", utf8 "Principal"] fun i v =>
    if i = 0 then fitsString v else if i = 1 then fitsString v else fitsPrincipal v

/-- The shape of a `RolePolicy`. -/
def fitsRolePolicy : JVal → Bool :=
  fitsStruct [utf8 "Statement", utf8 "Version"] fun i v =>
    if i = 0 then fitsSlice fitsRolePolicyStatement v else fitsString v

/-- The shape of a `PolicyStatement`. -/
def fitsPolicyStatement : JVal → Bool :=
  fitsStruct [utf8 "Effect", utf8 "Action", utf8 "Resource"] fun i v =>
    if i = 0 then fitsString v else fitsSlice fitsString v

/-- The shape of a `Policy`. -/
def fitsPolicy : JVal → Bool :=
  fitsStruct [utf8 "Statement", utf8 "Version"] fun i v =>
    if i = 0 then fitsSlice fitsPolicyStatement v else fitsString v

/-! ## The parsers -/

/-- The function `ParseRolePolicyDocument`. -/
def ParseRolePolicyDocument (policyDocument : GoString) : RolePolicy × Option GoError :=
  let policy := RolePolicy.zero
  let r := unmarshalRolePolicy policyDocument policy
  match r.2 with
  | some err => (RolePolicy.zero, some err)
  | none => (r.1, none)

/-- The function `ParsePolicyDocument`. -/
def ParsePolicyDocument (policyDocument : GoString) : Policy × Option GoError :=
  let policy := Policy.zero
  let r := unmarshalPolicy policyDocument policy
  match r.2 with
  | some err => (Policy.zero, some err)
  | none => (r.1, none)

/-! ## The assemblers -/

/-- A value of type `interface{}` as far as the source tells values apart: the nil
interface, a string, a non-nil `*schema.Set` (given by the sequence its `List()`
returns), a `map[string]interface{}` (given by its entries, read by first match on
the key), or a value of any other dynamic type. -/
inductive Value where
  | nil
  | str (s : GoString)
  | set (list : List Value)
  | map (entries : List (GoString × Value))
  | other (tag : Nat)

/-- The run-time panics the source can raise. -/
inductive Panic where
  | typeAssertion
  | assignToNilMap
deriving DecidableEq, Repr

/-- The type assertion `v.(string)`. -/
def assertString : Value → Except Panic GoString
  | .str s => .ok s
  | _ => .error .typeAssertion

/-- The type assertion `v.(map[string]interface{})`. -/
def assertMap : Value → Except Panic (List (GoString × Value))
  | .map entries => .ok entries
  | _ => .error .typeAssertion

/-- The expression `v.(*schema.Set).List()`. -/
def assertSetList : Value → Except Panic (List Value)
  | .set list => .ok list
  | _ => .error .typeAssertion

/-- The index expression `doc[key]` on a `map[string]interface{}`: the nil interface
when the key is absent. -/
def mapIndex (doc : List (GoString × Value)) (key : GoString) : Value :=
  match doc.find? (fun e => e.1 == key) with
  | some e => e.2
  | none => .nil

/-- The loop `for _, v := range vs { acc = append(acc, v.(string)) }`. -/
def appendStrings : Slice GoString → List Value → Except Panic (Slice GoString)
  | acc, [] => .ok acc
  | acc, v :: vs =>
    match assertString v with
    | .error e => .error e
    | .ok s => appendStrings (acc.append s) vs

/-- The function `AssembleRolePolicyDocument`: a panic, or the returned text and
error. -/
def AssembleRolePolicyDocument (ramUser service : List Value) (version : GoString) :
    Except Panic (GoString × Option GoError) :=
  match appendStrings (Slice.ofList []) service with
  | .error e => .error e
  | .ok services =>
    match appendStrings (Slice.ofList []) ramUser with
    | .error e => .error e
    | .ok users =>
      let statement : RolePolicyStatement :=
        { Effect := Allow
          Action := utf8 "sts:AssumeRole"
          Principal := { RAM := users, Service := services } }
      let policy : RolePolicy :=
        { Version := version
          Statement := Slice.ofList [statement] }
      let r := marshalRolePolicy policy
      match r.2 with
      | some err => .ok ([], some err)
      | none => .ok (r.1, none)

/-- The body of the loop of `AssemblePolicyDocument` for one descriptor `v`. -/
def assembleStatement (v : Value) : Except Panic PolicyStatement :=
  match assertMap v with
  | .error e => .error e
  | .ok doc =>
    match assertSetList (mapIndex doc (utf8 "action")) with
    | .error e => .error e
    | .ok actionList =>
      match appendStrings Slice.nil actionList with
      | .error e => .error e
      | .ok actions =>
        match assertSetList (mapIndex doc (utf8 "resource")) with
        | .error e => .error e
        | .ok resourceList =>
          match appendStrings Slice.nil resourceList with
          | .error e => .error e
          | .ok resources =>
            match assertString (mapIndex doc (utf8 "effect")) with
            | .error e => .error e
            | .ok effect => .ok { Effect := effect, Action := actions, Resource := resources }

/-- The loop of `AssemblePolicyDocument` over the descriptors. -/
def assembleStatements : Slice PolicyStatement → List Value → Except Panic (Slice PolicyStatement)
  | acc, [] => .ok acc
  | acc, v :: vs =>
    match assembleStatement v with
    | .error e => .error e
    | .ok statement => assembleStatements (acc.append statement) vs

/-- The function `AssemblePolicyDocument`: a panic, or the returned text and error. -/
def AssemblePolicyDocument (document : List Value) (version : GoString) :
    Except Panic (GoString × Option GoError) :=
  match assembleStatements Slice.nil document with
  | .error e => .error e
  | .ok statements =>
    let policy : Policy :=
      { Version := version
        Statement := statements }
    let r := marshalPolicy policy
    match r.2 with
    | some err => .ok ([], some err)
    | none => .ok (r.1, none)

/-! ## The trust validator -/

/-- The service a role policy has to name. -/
def ecsService : GoString := utf8 "ecs.aliyuncs.com"

/-- The two nested loops of `JudgeRolePolicyPrincipal`: some statement names the
service among its `Principal.Service`, spaces around an entry aside. -/
def hasEcsService (policy : RolePolicy) : Bool :=
  policy.Statement.toList.any fun v =>
    v.Principal.Service.toList.any fun val => trimSpaces val == ecsService

/-- The method `JudgeRolePolicyPrincipal`; `none` is the nil error. The connection
`client.ramconn` is the parameter `getRole`, which returns the field
`Role.AssumeRolePolicyDocument` of the response or the error of the call;
`goSyntax` is how `%#v` renders that error. -/
def JudgeRolePolicyPrincipal {ε : Type} (getRole : GoString → Except ε GoString)
    (goSyntax : ε → GoString) (roleName : GoString) : Option GoError :=
  match getRole roleName with
  | .error err =>
    some (.errorf (utf8 "GetRole " ++ roleName ++ utf8 " got an error: " ++ goSyntax err))
  | .ok document =>
    let r := ParseRolePolicyDocument document
    match r.2 with
    | some err => some err
    | none =>
      if hasEcsService r.1 then none
      else
        some (.errorf (utf8 "Role policy services must contains 'ecs.aliyuncs.com', Now is \n"
          ++ document ++ utf8 "."))

/-! ## `GetIntersection` -/

/-- A `map[string]interface{}`: `none` is the nil map, otherwise the entries, in the
order in which this run iterates over them. Keys are distinct (`GoMap.WF`). -/
abbrev GoMap := Option (List (GoString × Value))

/-- The entries of a map; a nil map has none. -/
def GoMap.entries (m : GoMap) : List (GoString × Value) := m.getD []

/-- The keys of a map. -/
def GoMap.keys (m : GoMap) : List GoString := m.entries.map Prod.fst

/-- A map holds each key once. -/
def GoMap.WF (m : GoMap) : Prop := m.keys.Nodup

instance (m : GoMap) : Decidable m.WF := inferInstanceAs (Decidable m.keys.Nodup)

/-- The index expression `m[key]`: the nil interface when the key is absent. -/
def GoMap.get (m : GoMap) (key : GoString) : Value := mapIndex m.entries key

/-- The test `_, ok := m[key]`. -/
def GoMap.has (m : GoMap) (key : GoString) : Bool := decide (key ∈ m.keys)

/-- The entries after `m[key] = v`: the entry of `key` replaced where it stands, a
new entry at the end when there was none. -/
def setEntry (key : GoString) (v : Value) :
    List (GoString × Value) → List (GoString × Value)
  | [] => [(key, v)]
  | e :: es => if e.1 = key then (key, v) :: es else e :: setEntry key v es

/-- The assignment `m[key] = v`, a panic on the nil map. -/
def GoMap.assign (m : GoMap) (key : GoString) (v : Value) : Except Panic GoMap :=
  match m with
  | none => .error .assignToNilMap
  | some es => .ok (some (setEntry key v es))

/-- The loop `for key := range allDataMap` of `GetIntersection` for one input map
`v`, over the keys still to visit. -/
def markKeys (v : GoMap) : List GoString → GoMap → Except Panic GoMap
  | [], allDataMap => .ok allDataMap
  | key :: keys, allDataMap =>
    if v.has key then markKeys v keys allDataMap
    else
      match allDataMap.assign key .nil with
      | .error e => .error e
      | .ok m => markKeys v keys m

/-- The loop `for _, v := range dataMap` of `GetIntersection`. -/
def markAll : List GoMap → GoMap → Except Panic GoMap
  | [], allDataMap => .ok allDataMap
  | v :: rest, allDataMap =>
    if v.entries.length > 0 then
      match markKeys v allDataMap.keys allDataMap with
      | .error e => .error e
      | .ok m => markAll rest m
    else markAll rest allDataMap

/-- The test `v != nil` on an interface value. -/
def Value.isNil : Value → Bool
  | .nil => true
  | _ => false

/-- The final loop of `GetIntersection`: the non-nil values appended to `allData`. -/
def collect : Slice Value → List (GoString × Value) → Slice Value
  | allData, [] => allData
  | allData, e :: es => if e.2.isNil then collect allData es else collect (allData.append e.2) es

/-- The function `GetIntersection`: a panic, or the returned slice together with the
map the caller passed as `allDataMap` as the call leaves it. With one input map the
local variable is rebound and the caller's map is not touched. Maps are passed by
value here: the marking changes values only and tests keys only, so it makes no
difference whether an input map is the accumulator itself. -/
def GetIntersection (dataMap : List GoMap) (allDataMap : GoMap) :
    Except Panic (Slice Value × GoMap) :=
  match dataMap with
  | [only] => .ok (collect Slice.nil only.entries, allDataMap)
  | _ =>
    match markAll dataMap allDataMap with
    | .error e => .error e
    | .ok marked => .ok (collect Slice.nil marked.entries, marked)

/-- The key `k` is a key of every non-empty map of `dataMap`. -/
def inAllNonEmpty (dataMap : List GoMap) (k : GoString) : Bool :=
  dataMap.all fun v => v.entries.isEmpty || v.has k

/-- The non-nil ones among `vs`. -/
def nonNil (vs : List Value) : List Value :=
  vs.filter fun v => !v.isNil

/-- What `encodeState.string` writes for one rune of a valid string: an ASCII byte
escaped or not, U+2028 and U+2029 as `\u2028` and `\u2029`, any other rune as its
UTF-8 bytes. -/
def escapeRune (n : Nat) : GoString :=
  if n < 0x80 then escapeByte n
  else if n = 0x2028 ∨ n = 0x2029 then [0x5C, 0x75, 0x32, 0x30, 0x32, hexDigit (n % 16)]
  else encodeRune n

/-- The scanner, given fuel `fuel` or more, reads the value `v` off the front of any
input that starts with the text `e`. -/
def Reads (fuel : Nat) (e : GoString) (v : JVal) : Prop :=
  ∀ f rest, fuel ≤ f → parseValue f (e ++ rest) = some (v, rest)

/-- The text `e` starts with a byte that is neither white space nor a closing
bracket or brace. -/
def StartsValue (e : GoString) : Prop :=
  ∃ b t, e = b :: t ∧ isSpace b = false ∧ b ≠ 0x5D ∧ b ≠ 0x7D

/-- A member of an object as the encoder writes it: the quoted name `k`, a colon,
the text `v` of the value. -/
def memberText (k : String) (v : GoString) : GoString :=
  0x22 :: ((k.data.flatMap fun c => escapeRune c.toNat) ++ 0x22 :: 0x3A :: v)

/-- The value holds a string. -/
def Value.isStr : Value → Bool
  | .str _ => true
  | _ => false

/-- What a variable declared `var s []T` holds after the elements `xs` have been
appended to it one by one: nil when there were none. -/
def sliceOf {α : Type} (xs : List α) : Slice α :=
  if xs.isEmpty then Slice.nil else Slice.ofList xs

/-- The JSON array of the strings `xs`. -/
def jStrings (xs : List String) : JVal :=
  .arr (xs.map fun s => .str (utf8 s))

/-- The JSON value of a slice that was filled by appending the strings `xs` to a nil
slice: `null` when there were none. -/
def jAppended (xs : List String) : JVal :=
  if xs.isEmpty then .null else jStrings xs

/-- A statement descriptor with valid UTF-8 in all its strings: the effect, and the
sequences that `List()` returns for the sets under `action` and `resource`. -/
structure Descriptor where
  effect : String
  action : List String
  resource : List String

/-- The `PolicyStatement` a descriptor stands for. -/
def Descriptor.statement (d : Descriptor) : PolicyStatement :=
  { Effect := utf8 d.effect
    Action := sliceOf (d.action.map utf8)
    Resource := sliceOf (d.resource.map utf8) }

/-- The value `v` is a mapping that holds the descriptor `d` under the keys `effect`,
`action` and `resource`; it may hold other keys too. -/
def Descriptor.Describes (d : Descriptor) (v : Value) : Prop :=
  ∃ entries, v = .map entries
    ∧ mapIndex entries (utf8 "effect") = .str (utf8 d.effect)
    ∧ mapIndex entries (utf8 "action") = .set (d.action.map fun s => .str (utf8 s))
    ∧ mapIndex entries (utf8 "resource") = .set (d.resource.map fun s => .str (utf8 s))

/-- The JSON object `json.Marshal` writes for the statement of a descriptor. -/
def Descriptor.json (d : Descriptor) : JVal :=
  .obj [(utf8 "Effect", .str (utf8 d.effect)), (utf8 "Action", jAppended d.action),
    (utf8 "Resource", jAppended d.resource)]

/-! ## Documents used as examples -/

/-- A trust document whose only service entry is `" ecs.aliyuncs.com "`. -/
def paddedDocument : GoString :=
  utf8 ("\x7b\"Statement\":[\x7b\"Action\":\"sts:AssumeRole\",\"Effect\":\"Allow\","
    ++ "\"Principal\":\x7b\"Service\":[\" ecs.aliyuncs.com \"]\x7d\x7d],\"Version\":\"1\"\x7d")

/-- The model `paddedDocument` decodes to. -/
def paddedPolicy : RolePolicy :=
  { Statement := Slice.ofList
      [{ Effect := Allow
         Action := utf8 "sts:AssumeRole"
         Principal := { Service := Slice.ofList [utf8 " ecs.aliyuncs.com "], RAM := Slice.nil } }]
    Version := utf8 "1" }

/-- A trust document whose only service entry is `"ecs.other.com"`. -/
def otherDocument : GoString :=
  utf8 ("\x7b\"Statement\":[\x7b\"Action\":\"sts:AssumeRole\",\"Effect\":\"Allow\","
    ++ "\"Principal\":\x7b\"Service\":[\"ecs.other.com\"]\x7d\x7d],\"Version\":\"1\"\x7d")

/-- The model `otherDocument` decodes to. -/
def otherPolicy : RolePolicy :=
  { Statement := Slice.ofList
      [{ Effect := Allow
         Action := utf8 "sts:AssumeRole"
         Principal := { Service := Slice.ofList [utf8 "ecs.other.com"], RAM := Slice.nil } }]
    Version := utf8 "1" }

/-- The text `AssembleRolePolicyDocument` returns for the one RAM principal `"\xff"`
(a byte that is not valid UTF-8), no service and version `"1"`. -/
def invalidRoleText : GoString :=
  utf8 ("\x7b\"Statement\":[\x7b\"Effect\":\"Allow\",\"Action\":\"sts:AssumeRole\","
    ++ "\"Principal\":\x7b\"Service\":[],\"RAM\":[\"\\ufffd\"]\x7d\x7d],\"Version\":\"1\"\x7d")

/-- The descriptor of the specification's example: effect `Allow`, action `oss:Get`,
resource `acme:*`. -/
def exampleDescriptor : Descriptor :=
  { effect := "Allow", action := ["oss:Get"], resource := ["acme:*"] }

/-- The descriptor `exampleDescriptor` as the configuration layer hands it over. -/
def exampleDescriptorValue : Value :=
  .map [(utf8 "effect", .str (utf8 "Allow")), (utf8 "action", .set [.str (utf8 "oss:Get")]),
    (utf8 "resource", .set [.str (utf8 "acme:*")])]

/-- A descriptor with the actions `x`, `y`, `x` in this order. -/
def orderedDescriptor : Descriptor :=
  { effect := "Deny", action := ["x", "y", "x"], resource := ["b", "a"] }

/-- The descriptor `orderedDescriptor` as the configuration layer hands it over. -/
def orderedDescriptorValue : Value :=
  .map [(utf8 "action", .set [.str (utf8 "x"), .str (utf8 "y"), .str (utf8 "x")]),
    (utf8 "resource", .set [.str (utf8 "b"), .str (utf8 "a")]),
    (utf8 "effect", .str (utf8 "Deny"))]

/-- A descriptor whose one action is the byte 0xFF, which is not valid UTF-8. -/
def invalidActionValue : Value :=
  .map [(utf8 "effect", .str (utf8 "Allow")), (utf8 "action", .set [.str [0xFF]]),
    (utf8 "resource", .set [.str (utf8 "acme:*")])]

/-- A connection whose `GetRole` returns `document` for every role. -/
def fetches (document : GoString) : GoString → Except GoString GoString :=
  fun _ => .ok document

/-- A connection whose `GetRole` fails with `cause` for every role. -/
def fetchFails (cause : GoString) : GoString → Except GoString GoString :=
  fun _ => .error cause

/-- A trust document whose one statement names the service but has effect `Deny` and
an action other than `sts:AssumeRole`. -/
def denyDocument : GoString :=
  utf8 ("\x7b\"Statement\":[\x7b\"Action\":\"oss:Get\",\"Effect\":\"Deny\","
    ++ "\"Principal\":\x7b\"Service\":[\" ecs.aliyuncs.com \"],\"RAM\":[\"acct:1\"]\x7d\x7d],"
    ++ "\"Version\":\"2\"\x7d")

/-- The model `denyDocument` decodes to. -/
def denyPolicy : RolePolicy :=
  { Statement := Slice.ofList
      [{ Effect := Deny
         Action := utf8 "oss:Get"
         Principal := { Service := Slice.ofList [utf8 " ecs.aliyuncs.com "]
                        RAM := Slice.ofList [utf8 "acct:1"] } }]
    Version := utf8 "2" }


/-- The value is a non-nil `*schema.Set` whose `List()` holds strings only. -/
def Value.isStringSet : Value → Bool
  | .set list => list.all Value.isStr
  | _ => false

/-- The value is a well-typed statement descriptor: a mapping that holds a string
under `effect` and sets of strings under `action` and `resource`. -/
def Value.isDescriptor : Value → Bool
  | .map entries =>
    (mapIndex entries (utf8 "effect")).isStr
      && (mapIndex entries (utf8 "action")).isStringSet
      && (mapIndex entries (utf8 "resource")).isStringSet
  | _ => false


/-! ### The model a JSON value stands for

What a document means when every field is named at most once: a member that is
absent, `null` or of the wrong kind leaves the zero value, a member that is present
gives its value. -/

/-- The members of an object that select a field of a struct with fields `names`, each
with the index of its field. -/
def selected (names : List GoString) (members : List (GoString × JVal)) : List (Nat × JVal) :=
  members.filterMap fun m => (findField names m.1).map fun i => (i, m.2)

/-- The value of the first member of the object `j` that selects field `i`. -/
def fieldValue (names : List GoString) (i : Nat) : JVal → Option JVal
  | .obj members => ((selected names members).find? fun p => p.1 == i).map Prod.snd
  | _ => none

/-- No field of `names` is selected by two members of the object `j`. -/
def namesOnce (names : List GoString) : JVal → Bool
  | .obj members => decide ((selected names members).map Prod.fst).Nodup
  | _ => true

/-- The string a member stands for. -/
def stringOf : Option JVal → GoString
  | some (.str s) => s
  | _ => []

/-- The slice an array member stands for, its elements read by `elem`: nil when the
member is absent. -/
def sliceFrom {α : Type} (elem : JVal → α) : Option JVal → Slice α
  | some (.arr items) => Slice.ofList (items.map elem)
  | _ => Slice.nil

/-- The `Principal` a member stands for. -/
def principalOf : Option JVal → Principal
  | some j =>
    { Service := sliceFrom (fun x => stringOf (some x))
        (fieldValue [utf8 "Service", utf8 "RAM"] 0 j)
      RAM := sliceFrom (fun x => stringOf (some x))
        (fieldValue [utf8 "Service", utf8 "RAM"] 1 j) }
  | none => Principal.zero

/-- The `RolePolicyStatement` a JSON value stands for. -/
def roleStatementOf (j : JVal) : RolePolicyStatement :=
  { Effect := stringOf (fieldValue [utf8 "Effect", utf8 "Action", utf8 "Principal"] 0 j)
    Action := stringOf (fieldValue [utf8 "Effect", utf8 "Action", utf8 "Principal"] 1 j)
    Principal := principalOf (fieldValue [utf8 "Effect", utf8 "Action", utf8 "Principal"] 2 j) }

/-- The `RolePolicy` a JSON value stands for. -/
def rolePolicyOf (j : JVal) : RolePolicy :=
  { Statement := sliceFrom roleStatementOf (fieldValue [utf8 "Statement", utf8 "Version"] 0 j)
    Version := stringOf (fieldValue [utf8 "Statement", utf8 "Version"] 1 j) }

/-- The `PolicyStatement` a JSON value stands for. -/
def policyStatementOf (j : JVal) : PolicyStatement :=
  { Effect := stringOf (fieldValue [utf8 "Effect", utf8 "Action", utf8 "Resource"] 0 j)
    Action := sliceFrom (fun x => stringOf (some x))
      (fieldValue [utf8 "Effect", utf8 "Action", utf8 "Resource"] 1 j)
    Resource := sliceFrom (fun x => stringOf (some x))
      (fieldValue [utf8 "Effect", utf8 "Action", utf8 "Resource"] 2 j) }

/-- The `Policy` a JSON value stands for. -/
def policyOf (j : JVal) : Policy :=
  { Statement := sliceFrom policyStatementOf (fieldValue [utf8 "Statement", utf8 "Version"] 0 j)
    Version := stringOf (fieldValue [utf8 "Statement", utf8 "Version"] 1 j) }

/-- In a trust statement and in its principal every field is named at most once. -/
def onceRoleStatement (j : JVal) : Bool :=
  namesOnce [utf8 "Effect", utf8 "Action", utf8 "Principal"] j
    && match fieldValue [utf8 "Effect", utf8 "Action", utf8 "Principal"] 2 j with
      | some p => namesOnce [utf8 "Service", utf8 "RAM"] p
      | none => true

/-- In a trust document, in its statements and in their principals every field is named
at most once. -/
def onceRolePolicy (j : JVal) : Bool :=
  namesOnce [utf8 "Statement", utf8 "Version"] j
    && match fieldValue [utf8 "Statement", utf8 "Version"] 0 j with
      | some (.arr items) => items.all onceRoleStatement
      | _ => true

/-- In a resource policy document and in its statements every field is named at most
once. -/
def oncePolicy (j : JVal) : Bool :=
  namesOnce [utf8 "Statement", utf8 "Version"] j
    && match fieldValue [utf8 "Statement", utf8 "Version"] 0 j with
      | some (.arr items) =>
        items.all (namesOnce [utf8 "Effect", utf8 "Action", utf8 "Resource"])
      | _ => true


/-- A resource policy document whose statements leave out `Action`, `Resource` or
both, and whose first statement has a member that is no field. -/
def sparsePolicyText : GoString :=
  utf8 ("\x7b\"Version\":\"1\",\"Statement\":[\x7b\"Effect\":\"Allow\",\"Note\":7\x7d,"
    ++ "\x7b\"Resource\":[\"acs:oss:*\"]\x7d,\x7b\x7d]\x7d")

/-- A trust policy document whose statements leave out `Principal`, `Service` or
`RAM`. -/
def sparseRoleText : GoString :=
  utf8 ("\x7b\"Statement\":[\x7b\"Action\":\"sts:AssumeRole\"\x7d,"
    ++ "\x7b\"Principal\":\x7b\"RAM\":[\"acct:1\"]\x7d\x7d,\x7b\"Principal\":\x7b\x7d\x7d]\x7d")

/-! ### Documents nested deeply, and documents that repeat a member -/

/-- The text of `n + 1` arrays, each inside the one before: `n + 1` opening brackets and
as many closing ones. -/
def nestedText : Nat → GoString
  | 0 => [0x5B, 0x5D]
  | n + 1 => 0x5B :: (nestedText n ++ [0x5D])

/-- The JSON value of `nestedText n`. -/
def nestedArray : Nat → JVal
  | 0 => .arr []
  | n + 1 => .arr [nestedArray n]

/-- A JSON object whose one member, `x`, is no field of the model and holds `n + 1`
nested arrays: the text is nested `n + 2` levels deep. -/
def deepDocument (n : Nat) : GoString :=
  utf8 "\x7b\"x\":" ++ nestedText n ++ utf8 "\x7d"

/-- A resource policy document that has the member `Statement` twice. -/
def repeatedText : GoString :=
  utf8 ("\x7b\"Statement\":[\x7b\"Effect\":\"Allow\",\"Action\":[\"a\"]\x7d],"
    ++ "\"Statement\":[\x7b\"Effect\":\"Deny\"\x7d]\x7d")

/-- The statements a document holds: the elements of the array under `Statement`. -/
def statementItems (j : JVal) : List JVal :=
  match fieldValue [utf8 "Statement", utf8 "Version"] 0 j with
  | some (.arr items) => items
  | _ => []


/-! ## The fuel of the encoder and of the scanner is enough

Each loop is given as much fuel as its input has bytes and consumes a byte in
every round: with more fuel the result is the same. -/

theorem encodeStringAux_succ :
    ∀ (f : Nat) (s : GoString), s.length ≤ f →
      encodeStringAux (f + 1) s = encodeStringAux f s := by
  intro f
  induction f with
  | zero =>
    intro s h
    have : s = [] := List.length_eq_zero.1 (by omega)
    subst this
    rfl
  | succ f ih =>
    intro s h
    cases s with
    | nil => rfl
    | cons b rest =>
      have hr : rest.length ≤ f := by simp at h; omega
      have h1 := ih rest hr
      have h2 : ∀ k, encodeStringAux (f + 1) (rest.drop k) = encodeStringAux f (rest.drop k) :=
        fun k => ih _ (by simp; omega)
      simp only [encodeStringAux, h1, h2]

/-- More fuel than the length of the string does not change what the encoder writes. -/
theorem encodeStringAux_fuel (s : GoString) :
    ∀ f, s.length ≤ f → encodeStringAux f s = encodeStringAux s.length s := by
  intro f h
  induction f with
  | zero =>
    have : s.length = 0 := by omega
    rw [this]
  | succ f ih =>
    by_cases hf : s.length ≤ f
    · rw [encodeStringAux_succ f s hf]
      exact ih hf
    · have : s.length = f + 1 := by omega
      rw [this]

theorem hex4_length {s r : GoString} {rr : Nat} (h : hex4 s = some (rr, r)) :
    r.length + 4 = s.length := by
  match s, h with
  | a :: b :: c :: d :: rest, h =>
    simp only [hex4] at h
    split at h
    · simp only [Option.some.injEq, Prod.mk.injEq] at h
      rw [← h.2]
      simp
    · simp at h

theorem getu4_length {s r : GoString} {rr : Nat} (h : getu4 s = some (rr, r)) :
    r.length + 6 = s.length := by
  match s, h with
  | a :: b :: rest, h =>
    simp only [getu4] at h
    split at h
    · have := hex4_length h
      simp only [List.length_cons]
      omega
    · simp at h


theorem consText_congr (pre : GoString) {a b : Option (GoString × GoString)} (h : a = b) :
    consText pre a = consText pre b := by rw [h]

theorem parseStringAux_succ :
    ∀ (f : Nat) (s : GoString), s.length ≤ f →
      parseStringAux (f + 1) s = parseStringAux f s := by
  intro f
  induction f with
  | zero =>
    intro s h
    have : s = [] := List.length_eq_zero.1 (by omega)
    subst this
    rfl
  | succ f ih =>
    intro s h
    cases s with
    | nil => rfl
    | cons c s =>
      have hs : s.length ≤ f := by simp at h; omega
      have h1 := ih s hs
      have h2 : ∀ k, parseStringAux (f + 1) (s.drop k) = parseStringAux f (s.drop k) :=
        fun k => ih _ (by simp; omega)
      simp only [parseStringAux, h1, h2]
      split_ifs with hq hb
      · rfl
      · cases s with
        | nil => rfl
        | cons e s1 =>
          have hs1 : s1.length ≤ f := by simp at hs; omega
          simp only []
          split_ifs with hu
          · cases hh : hex4 s1 with
            | none => rfl
            | some p =>
              obtain ⟨rr, s2⟩ := p
              have l2 := hex4_length hh
              have e2 := ih s2 (by omega)
              simp only [e2]
              split_ifs with hsur
              · cases hg : getu4 s2 with
                | none => rfl
                | some q =>
                  obtain ⟨rr1, s3⟩ := q
                  have l3 := getu4_length hg
                  have e3 := ih s3 (by omega)
                  simp only [e3]
              · rfl
          · rw [ih s1 hs1]
      · rfl
      · rfl
      · rfl

/-- More fuel than the length of the input does not change what the scanner makes of
a string literal. -/
theorem parseStringAux_fuel (s : GoString) :
    ∀ f, s.length ≤ f → parseStringAux f s = parseString s := by
  intro f h
  rw [parseString]
  induction f with
  | zero =>
    have : s.length = 0 := by omega
    rw [this]
  | succ f ih =>
    by_cases hf : s.length ≤ f
    · rw [parseStringAux_succ f s hf]
      exact ih hf
    · have : s.length = f + 1 := by omega
      rw [this]

theorem consText_some {pre t r : GoString} {a : Option (GoString × GoString)}
    (h : consText pre a = some (t, r)) : ∃ t', a = some (t', r) := by
  cases a with
  | none => simp [consText] at h
  | some p =>
    obtain ⟨t', r'⟩ := p
    simp only [consText, Option.map_some', Option.some.injEq, Prod.mk.injEq] at h
    exact ⟨t', by rw [h.2]⟩

theorem parseStringAux_length :
    ∀ (f : Nat) (s t r : GoString), parseStringAux f s = some (t, r) → r.length < s.length := by
  intro f
  induction f with
  | zero => intro s t r h; simp [parseStringAux] at h
  | succ f ih =>
    intro s t r h
    cases s with
    | nil => simp [parseStringAux] at h
    | cons c s =>
      simp only [parseStringAux] at h
      simp only [List.length_cons]
      split_ifs at h with hq hb hc ha
      · simp only [Option.some.injEq, Prod.mk.injEq] at h
        rw [← h.2]
        omega
      · cases s with
        | nil => simp at h
        | cons e s1 =>
          simp only [] at h
          simp only [List.length_cons]
          split_ifs at h with hu
          · cases hh : hex4 s1 with
            | none => simp [hh] at h
            | some p =>
              obtain ⟨rr, s2⟩ := p
              have l2 := hex4_length hh
              simp only [hh] at h
              split_ifs at h with hsur
              · cases hg : getu4 s2 with
                | none =>
                  simp only [hg] at h
                  obtain ⟨t', ht⟩ := consText_some h
                  have := ih _ _ _ ht
                  omega
                | some q =>
                  obtain ⟨rr1, s3⟩ := q
                  have l3 := getu4_length hg
                  simp only [hg] at h
                  split_ifs at h
                  · obtain ⟨t', ht⟩ := consText_some h
                    have := ih _ _ _ ht
                    omega
                  · obtain ⟨t', ht⟩ := consText_some h
                    have := ih _ _ _ ht
                    omega
              · obtain ⟨t', ht⟩ := consText_some h
                have := ih _ _ _ ht
                omega
          · cases hun : unescape e with
            | none => simp [hun] at h
            | some b =>
              simp only [hun] at h
              obtain ⟨t', ht⟩ := consText_some h
              have := ih _ _ _ ht
              omega
      · obtain ⟨t', ht⟩ := consText_some h
        have := ih _ _ _ ht
        omega
      · obtain ⟨t', ht⟩ := consText_some h
        have := ih _ _ _ ht
        simp only [List.length_drop] at this
        omega

theorem parseString_length {s t r : GoString} (h : parseString s = some (t, r)) :
    r.length < s.length :=
  parseStringAux_length _ s t r h


theorem skipSpace_length (s : GoString) : (skipSpace s).length ≤ s.length := by
  rw [skipSpace]
  exact (List.dropWhile_suffix _).length_le

theorem dropWhile_length_le (p : Nat → Bool) (s : GoString) :
    (s.dropWhile p).length ≤ s.length :=
  (List.dropWhile_suffix p).length_le

theorem parseDigits_length {s r : GoString} (h : parseDigits s = some r) :
    r.length < s.length := by
  cases s with
  | nil => simp [parseDigits] at h
  | cons d r2 =>
    simp only [parseDigits] at h
    split_ifs at h
    simp only [Option.some.injEq] at h
    have := dropWhile_length_le isDigit r2
    rw [h] at this
    simp only [List.length_cons]
    omega

theorem parseExp_length {s r : GoString} (h : parseExp s = some r) : r.length ≤ s.length := by
  cases s with
  | nil =>
    simp only [parseExp, Option.some.injEq] at h
    rw [← h]
  | cons e t =>
    simp only [parseExp] at h
    split_ifs at h with he
    · cases t with
      | nil => simp at h
      | cons sign r0 =>
        simp only at h
        split_ifs at h with hs
        · have := parseDigits_length h
          simp only [List.length_cons]
          omega
        · have := parseDigits_length h
          simp only [List.length_cons] at this ⊢
          omega
    · simp only [Option.some.injEq] at h
      rw [← h]

theorem parseFrac_length {s r : GoString} (h : parseFrac s = some r) : r.length ≤ s.length := by
  cases s with
  | nil =>
    simp only [parseFrac, Option.some.injEq] at h
    rw [← h]
  | cons c t =>
    simp only [parseFrac] at h
    split_ifs at h with hc
    · cases hd : parseDigits t with
      | none => simp [hd] at h
      | some r1 =>
        simp only [hd] at h
        have h1 := parseExp_length h
        have h2 := parseDigits_length hd
        simp only [List.length_cons]
        omega
    · exact parseExp_length h

theorem parseUnsigned_length {s r : GoString} (h : parseUnsigned s = some r) :
    r.length < s.length := by
  cases s with
  | nil => simp [parseUnsigned] at h
  | cons d r0 =>
    simp only [parseUnsigned] at h
    simp only [List.length_cons]
    split_ifs at h
    · have := parseFrac_length h
      omega
    · have := parseFrac_length h
      have := dropWhile_length_le isDigit r0
      omega

theorem parseNumber_length {s r : GoString} (h : parseNumber s = some r) :
    r.length < s.length := by
  cases s with
  | nil => simp [parseNumber] at h
  | cons c t =>
    simp only [parseNumber] at h
    split_ifs at h
    · have := parseUnsigned_length h
      simp only [List.length_cons]
      omega
    · exact parseUnsigned_length h

theorem parseWord_length {w s r : GoString} (h : parseWord w s = some r) :
    r.length ≤ s.length := by
  simp only [parseWord] at h
  split_ifs at h
  simp only [Option.some.injEq] at h
  rw [← h]
  simp

theorem parseElems_length (pv : GoString → Option (JVal × GoString))
    (hpv : ∀ s v r, pv s = some (v, r) → r.length < s.length) :
    ∀ (n : Nat) (s : GoString) (vs : List JVal) (r : GoString),
      parseElems pv n s = some (vs, r) → r.length < s.length := by
  intro n
  induction n with
  | zero => intro s vs r h; simp [parseElems] at h
  | succ n ih =>
    intro s vs r h
    simp only [parseElems] at h
    cases hp : pv s with
    | none => simp [hp] at h
    | some p =>
      obtain ⟨v, r0⟩ := p
      have l0 := hpv s v r0 hp
      have l1 := skipSpace_length r0
      simp only [hp] at h
      cases hk : skipSpace r0 with
      | nil => simp [hk] at h
      | cons c r1 =>
        rw [hk] at l1
        simp only [hk] at h
        simp only [List.length_cons] at l1
        split_ifs at h with hc hb
        · cases hrec : parseElems pv n (skipSpace r1) with
          | none => simp [hrec] at h
          | some q =>
            obtain ⟨vs', r'⟩ := q
            simp only [hrec, Option.map_some', Option.some.injEq, Prod.mk.injEq] at h
            have l2 := ih _ _ _ hrec
            have l3 := skipSpace_length r1
            rw [← h.2]
            omega
        · simp only [Option.some.injEq, Prod.mk.injEq] at h
          rw [← h.2]
          omega

theorem parseMembers_length (pv : GoString → Option (JVal × GoString))
    (hpv : ∀ s v r, pv s = some (v, r) → r.length < s.length) :
    ∀ (n : Nat) (s : GoString) (ms : List (GoString × JVal)) (r : GoString),
      parseMembers pv n s = some (ms, r) → r.length < s.length := by
  intro n
  induction n with
  | zero => intro s ms r h; simp [parseMembers] at h
  | succ n ih =>
    intro s ms r h
    cases s with
    | nil => simp [parseMembers] at h
    | cons q s1 =>
      simp only [parseMembers] at h
      simp only [List.length_cons]
      split_ifs at h with hq
      cases hps : parseString s1 with
      | none => simp [hps] at h
      | some p =>
        obtain ⟨key, r0⟩ := p
        have l0 := parseString_length hps
        simp only [hps] at h
        cases hk : skipSpace r0 with
        | nil => simp [hk] at h
        | cons colon r1 =>
          have l1 := skipSpace_length r0
          rw [hk] at l1
          simp only [List.length_cons] at l1
          simp only [hk] at h
          split_ifs at h with hcol
          cases hv : pv (skipSpace r1) with
          | none => simp [hv] at h
          | some p2 =>
            obtain ⟨v, r2⟩ := p2
            have l2 := hpv _ _ _ hv
            have l2' := skipSpace_length r1
            simp only [hv] at h
            cases hk2 : skipSpace r2 with
            | nil => simp [hk2] at h
            | cons c r3 =>
              have l3 := skipSpace_length r2
              rw [hk2] at l3
              simp only [List.length_cons] at l3
              simp only [hk2] at h
              split_ifs at h with hc hb
              · cases hrec : parseMembers pv n (skipSpace r3) with
                | none => simp [hrec] at h
                | some q2 =>
                  obtain ⟨ms', r'⟩ := q2
                  simp only [hrec, Option.map_some', Option.some.injEq, Prod.mk.injEq] at h
                  have l4 := ih _ _ _ hrec
                  have l5 := skipSpace_length r3
                  rw [← h.2]
                  omega
              · simp only [Option.some.injEq, Prod.mk.injEq] at h
                rw [← h.2]
                omega


theorem parseValue_length :
    ∀ (f : Nat) (s : GoString) (v : JVal) (r : GoString),
      parseValue f s = some (v, r) → r.length < s.length := by
  intro f
  induction f with
  | zero => intro s v r h; simp [parseValue] at h
  | succ f ih =>
    intro s v r h
    cases s with
    | nil => simp [parseValue] at h
    | cons c rest =>
      simp only [parseValue] at h
      simp only [List.length_cons]
      split_ifs at h with h1 h2 h3 h4 h5 h6
      · cases hp : parseString rest with
        | none => simp [hp] at h
        | some p =>
          simp only [hp, Option.map_some', Option.some.injEq, Prod.mk.injEq] at h
          have := parseString_length hp
          rw [← h.2]
          omega
      · have l0 := skipSpace_length rest
        cases hk : skipSpace rest with
        | nil => simp [hk] at h
        | cons d r0 =>
          rw [hk] at l0
          simp only [List.length_cons] at l0
          simp only [hk] at h
          split_ifs at h with hd
          · simp only [Option.some.injEq, Prod.mk.injEq] at h
            rw [← h.2]
            omega
          · cases he : parseElems (parseValue f) rest.length (d :: r0) with
            | none => simp [he] at h
            | some p =>
              simp only [he, Option.map_some', Option.some.injEq, Prod.mk.injEq] at h
              have := parseElems_length (parseValue f) ih _ _ _ _ he
              rw [← h.2]
              simp only [List.length_cons] at this
              omega
      · have l0 := skipSpace_length rest
        cases hk : skipSpace rest with
        | nil => simp [hk] at h
        | cons d r0 =>
          rw [hk] at l0
          simp only [List.length_cons] at l0
          simp only [hk] at h
          split_ifs at h with hd
          · simp only [Option.some.injEq, Prod.mk.injEq] at h
            rw [← h.2]
            omega
          · cases he : parseMembers (parseValue f) rest.length (d :: r0) with
            | none => simp [he] at h
            | some p =>
              simp only [he, Option.map_some', Option.some.injEq, Prod.mk.injEq] at h
              have := parseMembers_length (parseValue f) ih _ _ _ _ he
              rw [← h.2]
              simp only [List.length_cons] at this
              omega
      · cases hw : parseWord [0x72, 0x75, 0x65] rest with
        | none => simp [hw] at h
        | some r1 =>
          simp only [hw, Option.map_some', Option.some.injEq, Prod.mk.injEq] at h
          have := parseWord_length hw
          rw [← h.2]
          omega
      · cases hw : parseWord [0x61, 0x6C, 0x73, 0x65] rest with
        | none => simp [hw] at h
        | some r1 =>
          simp only [hw, Option.map_some', Option.some.injEq, Prod.mk.injEq] at h
          have := parseWord_length hw
          rw [← h.2]
          omega
      · cases hw : parseWord [0x75, 0x6C, 0x6C] rest with
        | none => simp [hw] at h
        | some r1 =>
          simp only [hw, Option.map_some', Option.some.injEq, Prod.mk.injEq] at h
          have := parseWord_length hw
          rw [← h.2]
          omega
      · cases hn : parseNumber (c :: rest) with
        | none => simp [hn] at h
        | some r1 =>
          simp only [hn, Option.map_some', Option.some.injEq, Prod.mk.injEq] at h
          have := parseNumber_length hn
          rw [← h.2]
          simp only [List.length_cons] at this
          omega

theorem parseElems_congr (pv pv' : GoString → Option (JVal × GoString)) (L : Nat)
    (hpv : ∀ s v r, pv s = some (v, r) → r.length < s.length)
    (heq : ∀ s, s.length ≤ L → pv s = pv' s) :
    ∀ (n : Nat) (s : GoString), s.length ≤ L → parseElems pv n s = parseElems pv' n s := by
  intro n
  induction n with
  | zero => intro s _; rfl
  | succ n ih =>
    intro s hs
    simp only [parseElems, ← heq s hs]
    cases hp : pv s with
    | none => rfl
    | some p =>
      obtain ⟨v, r0⟩ := p
      have l0 := hpv s v r0 hp
      have l1 := skipSpace_length r0
      simp only []
      cases hk : skipSpace r0 with
      | nil => rfl
      | cons c r1 =>
        rw [hk] at l1
        simp only [List.length_cons] at l1
        have l2 := skipSpace_length r1
        simp only []
        rw [ih (skipSpace r1) (by omega)]

theorem parseMembers_congr (pv pv' : GoString → Option (JVal × GoString)) (L : Nat)
    (hpv : ∀ s v r, pv s = some (v, r) → r.length < s.length)
    (heq : ∀ s, s.length ≤ L → pv s = pv' s) :
    ∀ (n : Nat) (s : GoString), s.length ≤ L → parseMembers pv n s = parseMembers pv' n s := by
  intro n
  induction n with
  | zero => intro s _; rfl
  | succ n ih =>
    intro s hs
    cases s with
    | nil => rfl
    | cons q s1 =>
      simp only [parseMembers]
      simp only [List.length_cons] at hs
      split_ifs with hq
      · cases hps : parseString s1 with
        | none => rfl
        | some p =>
          obtain ⟨key, r0⟩ := p
          have l0 := parseString_length hps
          simp only []
          cases hk : skipSpace r0 with
          | nil => rfl
          | cons colon r1 =>
            have l1 := skipSpace_length r0
            rw [hk] at l1
            simp only [List.length_cons] at l1
            have l1' := skipSpace_length r1
            simp only []
            split_ifs with hcol
            · rw [← heq (skipSpace r1) (by omega)]
              cases hv : pv (skipSpace r1) with
              | none => rfl
              | some p2 =>
                obtain ⟨v, r2⟩ := p2
                have l2 := hpv _ _ _ hv
                simp only []
                cases hk2 : skipSpace r2 with
                | nil => rfl
                | cons c r3 =>
                  have l3 := skipSpace_length r2
                  rw [hk2] at l3
                  simp only [List.length_cons] at l3
                  have l4 := skipSpace_length r3
                  simp only []
                  rw [ih (skipSpace r3) (by omega)]
            · rfl
      · rfl

theorem parseElems_succ (pv : GoString → Option (JVal × GoString))
    (hpv : ∀ s v r, pv s = some (v, r) → r.length < s.length) :
    ∀ (n : Nat) (s : GoString), s.length ≤ n → parseElems pv (n + 1) s = parseElems pv n s := by
  intro n
  induction n with
  | zero =>
    intro s hs
    have : s = [] := List.length_eq_zero.1 (by omega)
    subst this
    simp only [parseElems]
    cases hp : pv [] with
    | none => rfl
    | some p =>
      have := hpv [] p.1 p.2 hp
      simp at this
  | succ n ih =>
    intro s hs
    rw [parseElems, parseElems.eq_def pv (n + 1) s]
    simp only []
    cases hp : pv s with
    | none => rfl
    | some p =>
      obtain ⟨v, r0⟩ := p
      have l0 := hpv s v r0 hp
      have l1 := skipSpace_length r0
      simp only []
      cases hk : skipSpace r0 with
      | nil => rfl
      | cons c r1 =>
        rw [hk] at l1
        simp only [List.length_cons] at l1
        have l2 := skipSpace_length r1
        simp only []
        rw [ih (skipSpace r1) (by omega)]


theorem parseMembers_succ (pv : GoString → Option (JVal × GoString))
    (hpv : ∀ s v r, pv s = some (v, r) → r.length < s.length) :
    ∀ (n : Nat) (s : GoString), s.length ≤ n →
      parseMembers pv (n + 1) s = parseMembers pv n s := by
  intro n
  induction n with
  | zero =>
    intro s hs
    have : s = [] := List.length_eq_zero.1 (by omega)
    subst this
    rfl
  | succ n ih =>
    intro s hs
    cases s with
    | nil => rfl
    | cons q s1 =>
      rw [parseMembers, parseMembers.eq_def pv (n + 1) (q :: s1)]
      simp only [List.length_cons] at hs
      simp only []
      split_ifs with hq
      · cases hps : parseString s1 with
        | none => rfl
        | some p =>
          obtain ⟨key, r0⟩ := p
          have l0 := parseString_length hps
          simp only []
          cases hk : skipSpace r0 with
          | nil => rfl
          | cons colon r1 =>
            have l1 := skipSpace_length r0
            rw [hk] at l1
            simp only [List.length_cons] at l1
            have l1' := skipSpace_length r1
            simp only []
            split_ifs with hcol
            · cases hv : pv (skipSpace r1) with
              | none => rfl
              | some p2 =>
                obtain ⟨v, r2⟩ := p2
                have l2 := hpv _ _ _ hv
                simp only []
                cases hk2 : skipSpace r2 with
                | nil => rfl
                | cons c r3 =>
                  have l3 := skipSpace_length r2
                  rw [hk2] at l3
                  simp only [List.length_cons] at l3
                  have l4 := skipSpace_length r3
                  simp only []
                  rw [ih (skipSpace r3) (by omega)]
            · rfl
      · rfl

theorem parseValue_succ :
    ∀ (f : Nat) (s : GoString), s.length ≤ f → parseValue (f + 1) s = parseValue f s := by
  intro f
  induction f with
  | zero =>
    intro s hs
    have : s = [] := List.length_eq_zero.1 (by omega)
    subst this
    rfl
  | succ f ih =>
    intro s hs
    cases s with
    | nil => rfl
    | cons c rest =>
      simp only [List.length_cons] at hs
      have l0 := skipSpace_length rest
      have he : ∀ t : GoString, t.length ≤ f →
          parseElems (parseValue (f + 1)) rest.length t
            = parseElems (parseValue f) rest.length t :=
        fun t ht => parseElems_congr _ _ f (parseValue_length (f + 1)) ih _ t ht
      have hm : ∀ t : GoString, t.length ≤ f →
          parseMembers (parseValue (f + 1)) rest.length t
            = parseMembers (parseValue f) rest.length t :=
        fun t ht => parseMembers_congr _ _ f (parseValue_length (f + 1)) ih _ t ht
      rw [parseValue, parseValue.eq_def (f + 1) (c :: rest)]
      simp only []
      cases hk : skipSpace rest with
      | nil => rfl
      | cons d r0 =>
        rw [hk] at l0
        simp only []
        rw [he (d :: r0) (by omega), hm (d :: r0) (by omega)]

/-- More fuel than the length of the input does not change what the scanner makes of
a value. -/
theorem parseValue_fuel (s : GoString) :
    ∀ f, s.length ≤ f → parseValue f s = parseValue s.length s := by
  intro f h
  induction f with
  | zero =>
    have : s.length = 0 := by omega
    rw [this]
  | succ f ih =>
    by_cases hf : s.length ≤ f
    · rw [parseValue_succ f s hf]
      exact ih hf
    · have : s.length = f + 1 := by omega
      rw [this]

/-- More rounds than the input has bytes do not change what the scanner makes of the
elements of an array. -/
theorem parseElems_fuel (f : Nat) (s : GoString) :
    ∀ n, s.length ≤ n →
      parseElems (parseValue f) n s = parseElems (parseValue f) s.length s := by
  intro n h
  induction n with
  | zero =>
    have : s.length = 0 := by omega
    rw [this]
  | succ n ih =>
    by_cases hn : s.length ≤ n
    · rw [parseElems_succ _ (parseValue_length f) n s hn]
      exact ih hn
    · have : s.length = n + 1 := by omega
      rw [this]

/-- More rounds than the input has bytes do not change what the scanner makes of the
members of an object. -/
theorem parseMembers_fuel (f : Nat) (s : GoString) :
    ∀ n, s.length ≤ n →
      parseMembers (parseValue f) n s = parseMembers (parseValue f) s.length s := by
  intro n h
  induction n with
  | zero =>
    have : s.length = 0 := by omega
    rw [this]
  | succ n ih =>
    by_cases hn : s.length ≤ n
    · rw [parseMembers_succ _ (parseValue_length f) n s hn]
      exact ih hn
    · have : s.length = n + 1 := by omega
      rw [this]


/-! ## Facts about `GetIntersection` -/

theorem collect_toList (es : List (GoString × Value)) :
    ∀ s : Slice Value,
      (collect s es).toList = s.toList ++ (es.filter fun e => !e.2.isNil).map Prod.snd := by
  induction es with
  | nil => intro s; simp [collect]
  | cons e es ih =>
    intro s
    by_cases h : e.2.isNil
    · simp [collect, h, ih]
    · have h2 : e.2.isNil = false := by simpa using h
      simp only [collect, h2, Bool.false_eq_true, if_false]
      rw [ih]
      simp [Slice.append, Slice.toList, List.filter, h2]

theorem mapIndex_of_mem {es : List (GoString × Value)} (hnd : (es.map Prod.fst).Nodup)
    {e : GoString × Value} (he : e ∈ es) : mapIndex es e.1 = e.2 := by
  induction es with
  | nil => simp at he
  | cons a es ih =>
    rw [List.map_cons, List.nodup_cons] at hnd
    rcases List.mem_cons.1 he with rfl | h
    · simp [mapIndex, List.find?]
    · have hne : a.1 ≠ e.1 := by
        intro heq
        exact hnd.1 (heq ▸ List.mem_map_of_mem Prod.fst h)
      have hb : (a.1 == e.1) = false := by simpa using hne
      have := ih hnd.2 h
      simpa [mapIndex, List.find?, hb] using this

theorem map_get_keys {es : List (GoString × Value)} (hnd : (es.map Prod.fst).Nodup) :
    ∀ l : List (GoString × Value), (∀ e ∈ l, e ∈ es) →
      (l.map Prod.fst).map (mapIndex es) = l.map Prod.snd := by
  intro l hl
  induction l with
  | nil => rfl
  | cons a l ih =>
    simp only [List.map_cons, List.cons.injEq]
    exact ⟨mapIndex_of_mem hnd (hl a (List.mem_cons_self _ _)),
      ih fun e he => hl e (List.mem_cons_of_mem _ he)⟩


theorem setEntry_eq_map (key : GoString) (v : Value) :
    ∀ es : List (GoString × Value), (es.map Prod.fst).Nodup → key ∈ es.map Prod.fst →
      setEntry key v es = es.map fun e => if e.1 = key then (key, v) else e := by
  intro es
  induction es with
  | nil => intro _ h; simp at h
  | cons e es ih =>
    intro hnd hk
    rw [List.map_cons, List.nodup_cons] at hnd
    by_cases he : e.1 = key
    · have hid : es.map (fun e => if e.1 = key then (key, v) else e) = es := by
        conv_rhs => rw [← List.map_id es]
        apply List.map_congr_left
        intro a ha
        have : a.1 ≠ key := by
          intro h
          exact hnd.1 (by rw [he, ← h]; exact List.mem_map_of_mem Prod.fst ha)
        simp [this]
      simp [setEntry, he, hid]
    · have hk2 : key ∈ es.map Prod.fst := by
        rw [List.map_cons] at hk
        rcases List.mem_cons.1 hk with h | h
        · exact absurd h.symm he
        · exact h
      simp only [setEntry, he, if_false, List.map_cons]
      rw [ih hnd.2 hk2]

theorem map_fst_mark (es : List (GoString × Value)) (p : GoString × Value → Bool) :
    (es.map fun e => if p e then (e.1, Value.nil) else e).map Prod.fst = es.map Prod.fst := by
  rw [List.map_map]
  apply List.map_congr_left
  intro a _
  by_cases h : p a <;> simp [h]

theorem markKeys_some (v : GoMap) :
    ∀ (ks : List GoString) (es : List (GoString × Value)), (es.map Prod.fst).Nodup →
      (∀ k ∈ ks, k ∈ es.map Prod.fst) →
      markKeys v ks (some es) = .ok (some (es.map fun e =>
        if decide (e.1 ∈ ks) && !v.has e.1 then (e.1, Value.nil) else e)) := by
  intro ks
  induction ks with
  | nil => intro es _ _; simp [markKeys]
  | cons k ks ih =>
    intro es hnd hks
    have hk : k ∈ es.map Prod.fst := hks k (List.mem_cons_self _ _)
    have hks2 : ∀ k ∈ ks, k ∈ es.map Prod.fst := fun a ha => hks a (List.mem_cons_of_mem _ ha)
    by_cases hv : v.has k = true
    · simp only [markKeys, hv, if_true]
      rw [ih es hnd hks2]
      congr 2
      apply List.map_congr_left
      intro a _
      by_cases hak : a.1 = k
      · simp [hak, hv]
      · simp [hak]
    · have hv2 : v.has k = false := by simpa using hv
      simp only [markKeys, hv2, Bool.false_eq_true, if_false, GoMap.assign]
      rw [setEntry_eq_map k Value.nil es hnd hk]
      have hfst : (es.map fun e => if e.1 = k then (k, Value.nil) else e).map Prod.fst
          = es.map Prod.fst := by
        rw [List.map_map]
        apply List.map_congr_left
        intro a _
        by_cases h : a.1 = k <;> simp [h]
      rw [ih _ (by rw [hfst]; exact hnd) (by rw [hfst]; exact hks2), List.map_map]
      congr 2
      apply List.map_congr_left
      intro a _
      by_cases hak : a.1 = k
      · subst hak
        by_cases hm : a.1 ∈ ks <;> simp [hm, hv2]
      · by_cases hm : a.1 ∈ ks <;> by_cases hva : v.has a.1 = true <;> simp [hak, hm, hva]

theorem markKeys_keys (v : GoMap) (es : List (GoString × Value))
    (hnd : (es.map Prod.fst).Nodup) :
    markKeys v (es.map Prod.fst) (some es) = .ok (some (es.map fun e =>
      if v.has e.1 then e else (e.1, Value.nil))) := by
  rw [markKeys_some v _ es hnd fun _ h => h]
  congr 2
  apply List.map_congr_left
  intro a ha
  have hm : a.1 ∈ es.map Prod.fst := List.mem_map_of_mem Prod.fst ha
  by_cases hva : v.has a.1 = true <;> simp [hm, hva]

theorem markAll_none : ∀ dataMap : List GoMap, markAll dataMap none = .ok none := by
  intro dataMap
  induction dataMap with
  | nil => rfl
  | cons v rest ih =>
    by_cases h : v.entries.length > 0
    · simp [markAll, h, GoMap.keys, GoMap.entries, markKeys, ih]
    · simp [markAll, h, ih]

theorem markAll_some :
    ∀ (dataMap : List GoMap) (es : List (GoString × Value)), (es.map Prod.fst).Nodup →
      markAll dataMap (some es) = .ok (some (es.map fun e =>
        if inAllNonEmpty dataMap e.1 then e else (e.1, Value.nil))) := by
  intro dataMap
  induction dataMap with
  | nil => intro es _; simp [markAll, inAllNonEmpty]
  | cons v rest ih =>
    intro es hnd
    by_cases h : v.entries.length > 0
    · have hne : v.entries.isEmpty = false := by
        cases hv : v.entries with
        | nil => simp [hv] at h
        | cons _ _ => rfl
      have hkeys : GoMap.keys (some es) = es.map Prod.fst := rfl
      simp only [markAll, h, if_true, hkeys]
      rw [markKeys_keys v es hnd]
      have hfst : (es.map fun e => if v.has e.1 then e else (e.1, Value.nil)).map Prod.fst
          = es.map Prod.fst := by
        rw [List.map_map]
        apply List.map_congr_left
        intro a _
        by_cases h : v.has a.1 = true <;> simp [h]
      simp only []
      rw [ih _ (by rw [hfst]; exact hnd), List.map_map]
      congr 2
      apply List.map_congr_left
      intro a _
      have e1 : ∀ k, inAllNonEmpty (v :: rest) k = (v.has k && inAllNonEmpty rest k) := by
        intro k
        simp [inAllNonEmpty, hne]
      simp only [Function.comp, e1]
      cases hva : v.has a.1 <;> cases hr : inAllNonEmpty rest a.1 <;> simp [hr]
    · have he : v.entries.isEmpty = true := by
        cases hv : v.entries with
        | nil => rfl
        | cons _ _ => simp [hv] at h
      simp only [markAll, h, if_false]
      rw [ih es hnd]
      congr 2
      apply List.map_congr_left
      intro a _
      have e1 : inAllNonEmpty (v :: rest) a.1 = inAllNonEmpty rest a.1 := by
        simp [inAllNonEmpty, he]
      rw [e1]


theorem collect_nil_toList (es : List (GoString × Value)) :
    (collect Slice.nil es).toList = nonNil (es.map Prod.snd) := by
  rw [collect_toList]
  simp [Slice.nil, Slice.toList, nonNil, List.filter_map, Function.comp_def]

theorem nonNil_get_keys (es : List (GoString × Value)) (hnd : (es.map Prod.fst).Nodup) :
    nonNil ((es.map Prod.fst).map (mapIndex es)) = nonNil (es.map Prod.snd) := by
  rw [map_get_keys hnd es fun _ h => h]

theorem nonNil_marked (p : GoString → Bool) :
    ∀ es : List (GoString × Value),
      nonNil ((es.map fun e => if p e.1 then e else (e.1, Value.nil)).map Prod.snd)
        = nonNil ((es.filter fun e => p e.1).map Prod.snd) := by
  intro es
  induction es with
  | nil => rfl
  | cons e es ih =>
    simp only [nonNil] at ih ⊢
    by_cases h : p e.1 = true
    · simp only [List.map_cons, h, if_true, List.filter_cons, ih]
    · have h2 : p e.1 = false := by simpa using h
      have h3 : Value.nil.isNil = true := rfl
      simp only [List.map_cons, h2, Bool.false_eq_true, if_false, List.filter_cons, ih, h3,
        Bool.not_true]

/-- C8. With exactly one input map `m`, `GetIntersection` returns, whatever the accumulator
holds, the non-nil values of `m`, one for each key of `m`, and leaves the
accumulator as it was. -/
theorem GetIntersection_single (m acc : GoMap) (hm : m.WF) :
    ∃ out, GetIntersection [m] acc = .ok (out, acc)
      ∧ (out.toList : Multiset Value) = (nonNil (m.keys.map m.get) : List Value) := by
  refine ⟨collect Slice.nil m.entries, rfl, ?_⟩
  rw [collect_nil_toList]
  have h := nonNil_get_keys m.entries hm
  have hget : m.get = mapIndex m.entries := rfl
  rw [GoMap.keys, hget, h]

theorem GetIntersection_single_witness :
    GoMap.WF (some [(utf8 "a", Value.other 1)]) ∧
    ∃ out, GetIntersection [some [(utf8 "a", Value.other 1)]]
        (some [(utf8 "b", Value.other 2), (utf8 "c", Value.nil)])
          = .ok (out, some [(utf8 "b", Value.other 2), (utf8 "c", Value.nil)])
      ∧ (out.toList : Multiset Value)
          = (nonNil ((GoMap.keys (some [(utf8 "a", Value.other 1)])).map
              (GoMap.get (some [(utf8 "a", Value.other 1)]))) : List Value) :=
  ⟨by decide, GetIntersection_single _ _ (by decide)⟩

/-- The example of the specification for one input map: `[{a:1}]` gives `[1]`. -/
theorem GetIntersection_single_example (acc : GoMap) :
    GetIntersection [some [(utf8 "a", Value.other 1)]] acc
      = .ok (Slice.ofList [Value.other 1], acc) := rfl

/-- C9. With no input map or with two or more, `GetIntersection` returns the values
`acc[k]` of exactly those keys `k` of the accumulator whose value is not nil and
that are keys of every non-empty input map. -/
theorem GetIntersection_marks (dataMap : List GoMap) (acc : GoMap)
    (hlen : dataMap.length ≠ 1) (hacc : acc.WF) :
    ∃ out acc', GetIntersection dataMap acc = .ok (out, acc')
      ∧ (out.toList : Multiset Value)
          = (nonNil ((acc.keys.filter (inAllNonEmpty dataMap)).map acc.get) : List Value) := by
  have hgi : GetIntersection dataMap acc
      = match markAll dataMap acc with
        | .error e => .error e
        | .ok marked => .ok (collect Slice.nil marked.entries, marked) := by
    match dataMap, hlen with
    | [], _ => rfl
    | [_], h => exact absurd rfl h
    | _ :: _ :: _, _ => rfl
  rw [hgi]
  cases acc with
  | none =>
    rw [markAll_none]
    exact ⟨_, _, rfl, rfl⟩
  | some es =>
    have hnd : (es.map Prod.fst).Nodup := hacc
    rw [markAll_some dataMap es hnd]
    refine ⟨_, _, rfl, ?_⟩
    have hget : GoMap.get (some es) = mapIndex es := rfl
    have hkeys : GoMap.keys (some es) = es.map Prod.fst := rfl
    have hent : GoMap.entries (some (es.map fun e =>
        if inAllNonEmpty dataMap e.1 = true then e else (e.1, Value.nil)))
          = es.map fun e => if inAllNonEmpty dataMap e.1 = true then e else (e.1, Value.nil) :=
      rfl
    have h1 := map_get_keys hnd (es.filter (inAllNonEmpty dataMap ∘ Prod.fst))
      fun e he => (List.mem_filter.1 he).1
    rw [hent, hget, hkeys, collect_nil_toList, nonNil_marked (inAllNonEmpty dataMap) es,
      List.filter_map, h1]
    rfl

theorem GetIntersection_marks_witness :
    [some [(utf8 "a", Value.other 1), (utf8 "b", Value.other 2)],
        some [(utf8 "a", Value.other 1)]].length ≠ 1 ∧
    GoMap.WF (some [(utf8 "a", Value.other 1), (utf8 "b", Value.other 2)]) ∧
    ∃ out acc', GetIntersection
        [some [(utf8 "a", Value.other 1), (utf8 "b", Value.other 2)],
          some [(utf8 "a", Value.other 1)]]
        (some [(utf8 "a", Value.other 1), (utf8 "b", Value.other 2)]) = .ok (out, acc')
      ∧ (out.toList : Multiset Value)
          = (nonNil (((GoMap.keys (some [(utf8 "a", Value.other 1), (utf8 "b", Value.other 2)])).filter
              (inAllNonEmpty [some [(utf8 "a", Value.other 1), (utf8 "b", Value.other 2)],
                some [(utf8 "a", Value.other 1)]])).map
              (GoMap.get (some [(utf8 "a", Value.other 1), (utf8 "b", Value.other 2)]))) :
                List Value) :=
  ⟨by decide, by decide, GetIntersection_marks _ _ (by decide) (by decide)⟩

/-- The example of the specification for two input maps: `[{a:1,b:2},{a:1}]` against the
accumulator `{a:1,b:2}` gives `[1]`, and `b` stays in the accumulator with a nil value. -/
theorem GetIntersection_marks_example :
    GetIntersection
        [some [(utf8 "a", Value.other 1), (utf8 "b", Value.other 2)],
          some [(utf8 "a", Value.other 1)]]
        (some [(utf8 "a", Value.other 1), (utf8 "b", Value.other 2)])
      = .ok (Slice.ofList [Value.other 1],
          some [(utf8 "a", Value.other 1), (utf8 "b", Value.nil)]) := rfl


/-! ## Facts about `JudgeRolePolicyPrincipal` -/

theorem takeWhile_space (l : GoString) :
    l.takeWhile (· == 0x20) = List.replicate (l.takeWhile (· == 0x20)).length 0x20 := by
  apply List.eq_replicate_iff.2
  refine ⟨rfl, ?_⟩
  intro b hb
  have := List.mem_takeWhile_imp hb
  simpa using this

theorem trimSpaces_decomp (s : GoString) :
    ∃ n m, s = List.replicate n 0x20 ++ trimSpaces s ++ List.replicate m 0x20 := by
  refine ⟨(s.takeWhile (· == 0x20)).length,
    ((s.dropWhile (· == 0x20)).reverse.takeWhile (· == 0x20)).length, ?_⟩
  have h1 := (List.takeWhile_append_dropWhile (· == 0x20) s).symm
  have h2 := (List.takeWhile_append_dropWhile (· == 0x20)
    (s.dropWhile (· == 0x20)).reverse).symm
  have h3 : s.dropWhile (· == 0x20)
      = ((s.dropWhile (· == 0x20)).reverse.dropWhile (· == 0x20)).reverse
        ++ ((s.dropWhile (· == 0x20)).reverse.takeWhile (· == 0x20)).reverse := by
    rw [← List.reverse_append, ← h2, List.reverse_reverse]
  rw [takeWhile_space (s.dropWhile (· == 0x20)).reverse, List.reverse_replicate] at h3
  rw [takeWhile_space s] at h1
  simp only [trimSpaces, List.append_assoc]
  rw [← h3]
  exact h1

theorem dropWhile_space_replicate (n : Nat) (c : Nat) (t : GoString) (hc : c ≠ 0x20) :
    (List.replicate n 0x20 ++ c :: t).dropWhile (· == 0x20) = c :: t := by
  have hb : (c == 0x20) = false := by simpa using hc
  induction n with
  | zero => simp [List.dropWhile, hb]
  | succ n ih => simpa [List.replicate_succ, List.dropWhile] using ih

theorem trimSpaces_padded (n m : Nat) :
    trimSpaces (List.replicate n 0x20 ++ ecsService ++ List.replicate m 0x20) = ecsService := by
  have he : ecsService = 101 :: [99, 115, 46, 97, 108, 105, 121, 117, 110, 99, 115, 46, 99, 111,
      109] := by decide
  have hr : (101 :: [99, 115, 46, 97, 108, 105, 121, 117, 110, 99, 115, 46, 99, 111, 109]
      ++ List.replicate m 0x20).reverse
      = List.replicate m 0x20 ++ 109 :: [111, 99, 46, 115, 99, 110, 117, 121, 105, 108, 97, 46,
        115, 99, 101] := by
    rw [List.reverse_append, List.reverse_replicate]
    rfl
  rw [trimSpaces, he, List.append_assoc, List.cons_append,
    dropWhile_space_replicate n 101 _ (by decide), ← List.cons_append, hr,
    dropWhile_space_replicate m 109 _ (by decide)]
  rfl

theorem trimSpaces_eq_ecs_iff (val : GoString) :
    trimSpaces val = ecsService
      ↔ ∃ n m, val = List.replicate n 0x20 ++ ecsService ++ List.replicate m 0x20 := by
  constructor
  · intro h
    obtain ⟨n, m, hnm⟩ := trimSpaces_decomp val
    exact ⟨n, m, by rw [← h]; exact hnm⟩
  · rintro ⟨n, m, rfl⟩
    exact trimSpaces_padded n m

theorem hasEcsService_iff (policy : RolePolicy) :
    hasEcsService policy = true
      ↔ ∃ st ∈ policy.Statement.toList, ∃ val ∈ st.Principal.Service.toList,
          ∃ n m, val = List.replicate n 0x20 ++ ecsService ++ List.replicate m 0x20 := by
  simp only [hasEcsService, List.any_eq_true, beq_iff_eq, trimSpaces_eq_ecs_iff]

/-- The message of the error `JudgeRolePolicyPrincipal` returns when no statement names
the service. -/
theorem judge_of_parsed {ε : Type} (getRole : GoString → Except ε GoString)
    (goSyntax : ε → GoString) (roleName document : GoString) (policy : RolePolicy)
    (hfetch : getRole roleName = .ok document)
    (hparse : ParseRolePolicyDocument document = (policy, none)) :
    JudgeRolePolicyPrincipal getRole goSyntax roleName
      = if hasEcsService policy then none
        else some (.errorf
          (utf8 "Role policy services must contains 'ecs.aliyuncs.com', Now is \n"
            ++ document ++ utf8 ".")) := by
  simp only [JudgeRolePolicyPrincipal, hfetch, hparse]


set_option maxRecDepth 100000 in
theorem parse_paddedDocument :
    ParseRolePolicyDocument paddedDocument = (paddedPolicy, none) := by
  decide

set_option maxRecDepth 100000 in
theorem parse_otherDocument :
    ParseRolePolicyDocument otherDocument = (otherPolicy, none) := by
  decide

/-- C5. When the fetch succeeds and the document parses, `JudgeRolePolicyPrincipal` returns
the nil error exactly when some statement has, in `Principal.Service`, an entry that is
`"ecs.aliyuncs.com"` with any number of bytes 0x20 before and after it. -/
theorem JudgeRolePolicyPrincipal_accepts_iff {ε : Type}
    (getRole : GoString → Except ε GoString) (goSyntax : ε → GoString)
    (roleName document : GoString) (policy : RolePolicy)
    (hfetch : getRole roleName = .ok document)
    (hparse : ParseRolePolicyDocument document = (policy, none)) :
    JudgeRolePolicyPrincipal getRole goSyntax roleName = none
      ↔ ∃ st ∈ policy.Statement.toList, ∃ val ∈ st.Principal.Service.toList,
          ∃ n m, val = List.replicate n 0x20 ++ utf8 "ecs.aliyuncs.com"
            ++ List.replicate m 0x20 := by
  rw [judge_of_parsed getRole goSyntax roleName document policy hfetch hparse]
  have h := hasEcsService_iff policy
  rw [ecsService] at h
  rw [← h]
  by_cases hs : hasEcsService policy = true <;> simp [hs]

/-- The document with `[" ecs.aliyuncs.com "]` is accepted. -/
theorem JudgeRolePolicyPrincipal_accepts_iff_witness :
    JudgeRolePolicyPrincipal (fetches paddedDocument) id (utf8 "role") = none :=
  (JudgeRolePolicyPrincipal_accepts_iff (fetches paddedDocument) id (utf8 "role")
    paddedDocument paddedPolicy rfl parse_paddedDocument).2
    ⟨_, List.mem_singleton.2 rfl, _, List.mem_singleton.2 rfl, 1, 1, by decide⟩

set_option maxRecDepth 100000 in
/-- The document with `["ecs.other.com"]` is rejected. -/
theorem JudgeRolePolicyPrincipal_rejects_other :
    JudgeRolePolicyPrincipal (fetches otherDocument) id (utf8 "role") ≠ none := by
  decide

/-- C6. When the fetch succeeds, the document parses and no statement names the service,
`JudgeRolePolicyPrincipal` returns an error whose message is a fixed text, then the
fetched document byte for byte, then a full stop. -/
theorem JudgeRolePolicyPrincipal_quotes_document {ε : Type}
    (getRole : GoString → Except ε GoString) (goSyntax : ε → GoString)
    (roleName document : GoString) (policy : RolePolicy)
    (hfetch : getRole roleName = .ok document)
    (hparse : ParseRolePolicyDocument document = (policy, none))
    (hno : ¬ ∃ st ∈ policy.Statement.toList, ∃ val ∈ st.Principal.Service.toList,
      trimSpaces val = utf8 "ecs.aliyuncs.com") :
    ∃ msg, JudgeRolePolicyPrincipal getRole goSyntax roleName = some (.errorf msg)
      ∧ msg = utf8 "Role policy services must contains 'ecs.aliyuncs.com', Now is \n"
          ++ document ++ utf8 "."
      ∧ document <:+: msg := by
  rw [judge_of_parsed getRole goSyntax roleName document policy hfetch hparse]
  have hs : hasEcsService policy = false := by
    cases h : hasEcsService policy with
    | false => rfl
    | true =>
      exfalso
      apply hno
      simpa only [hasEcsService, List.any_eq_true, beq_iff_eq, ecsService] using h
  refine ⟨_, by simp [hs], rfl, ?_⟩
  exact ⟨_, _, rfl⟩

set_option maxRecDepth 100000 in
theorem JudgeRolePolicyPrincipal_quotes_document_witness :
    ∃ msg, JudgeRolePolicyPrincipal (fetches otherDocument) id (utf8 "role")
        = some (.errorf msg)
      ∧ msg = utf8 "Role policy services must contains 'ecs.aliyuncs.com', Now is \n"
          ++ otherDocument ++ utf8 "."
      ∧ otherDocument <:+: msg :=
  JudgeRolePolicyPrincipal_quotes_document (fetches otherDocument) id (utf8 "role")
    otherDocument otherPolicy rfl parse_otherDocument (by decide)

/-- C7. When the fetch fails, `JudgeRolePolicyPrincipal` returns an error whose message is
`GetRole `, the role name, ` got an error: ` and the rendering of the cause, whatever
any document would parse to; when the fetch succeeds and `ParseRolePolicyDocument`
fails on the document, it returns the error of `ParseRolePolicyDocument`. -/
theorem JudgeRolePolicyPrincipal_propagates {ε : Type}
    (getRole : GoString → Except ε GoString) (goSyntax : ε → GoString)
    (roleName : GoString) :
    (∀ cause, getRole roleName = .error cause →
      JudgeRolePolicyPrincipal getRole goSyntax roleName
          = some (.errorf (utf8 "GetRole " ++ roleName ++ utf8 " got an error: "
              ++ goSyntax cause))
        ∧ roleName <:+: utf8 "GetRole " ++ roleName ++ utf8 " got an error: " ++ goSyntax cause
        ∧ goSyntax cause <:+: utf8 "GetRole " ++ roleName ++ utf8 " got an error: "
            ++ goSyntax cause)
    ∧ (∀ document err, getRole roleName = .ok document →
        (ParseRolePolicyDocument document).2 = some err →
        JudgeRolePolicyPrincipal getRole goSyntax roleName = some err) := by
  refine ⟨fun cause h => ⟨?_, ?_, ?_⟩, fun document err h1 h2 => ?_⟩
  · simp only [JudgeRolePolicyPrincipal, h]
  · exact ⟨utf8 "GetRole ", utf8 " got an error: " ++ goSyntax cause, by simp⟩
  · exact ⟨utf8 "GetRole " ++ roleName ++ utf8 " got an error: ", [], by simp⟩
  · simp only [JudgeRolePolicyPrincipal, h1, h2]

set_option maxRecDepth 100000 in
theorem JudgeRolePolicyPrincipal_propagates_witness :
    JudgeRolePolicyPrincipal (fetchFails (utf8 "timeout")) id (utf8 "role")
        = some (.errorf (utf8 "GetRole role got an error: timeout"))
    ∧ JudgeRolePolicyPrincipal (fetches (utf8 "\x7bnot json")) id (utf8 "role")
        = some (.json .syntaxError) :=
  ⟨((JudgeRolePolicyPrincipal_propagates (fetchFails (utf8 "timeout")) id (utf8 "role")).1
      (utf8 "timeout") rfl).1,
    (JudgeRolePolicyPrincipal_propagates (fetches (utf8 "\x7bnot json")) id (utf8 "role")).2
      (utf8 "\x7bnot json") (.json .syntaxError) rfl (by decide)⟩


/-! ## Facts about the assemblers -/

theorem appendStrings_strs (xs : List GoString) :
    ∀ acc : Slice GoString, acc.spare = [] → acc.elems ≠ none →
      appendStrings acc (xs.map Value.str) = .ok (Slice.ofList (acc.toList ++ xs)) := by
  induction xs with
  | nil =>
    intro acc hs he
    cases acc with
    | mk elems spare =>
      cases elems with
      | none => exact absurd rfl he
      | some l =>
        simp only [Slice.toList] at *
        subst hs
        simp [appendStrings, Slice.ofList]
  | cons x xs ih =>
    intro acc hs _
    simp only [List.map_cons, appendStrings, assertString]
    rw [ih (acc.append x) (by simp [Slice.append, hs]) (by simp [Slice.append])]
    simp [Slice.append, Slice.toList]

theorem appendStrings_nil_strs (xs : List GoString) :
    appendStrings Slice.nil (xs.map Value.str) = .ok (sliceOf xs) := by
  cases xs with
  | nil => rfl
  | cons x xs =>
    simp only [List.map_cons, appendStrings, assertString]
    rw [appendStrings_strs xs (Slice.nil.append x) rfl (by simp [Slice.append])]
    rfl

theorem exists_strs_of_all_isStr :
    ∀ vs : List Value, vs.all Value.isStr = true → ∃ xs : List GoString, vs = xs.map Value.str := by
  intro vs
  induction vs with
  | nil => intro _; exact ⟨[], rfl⟩
  | cons v vs ih =>
    intro h
    rw [List.all_cons, Bool.and_eq_true] at h
    obtain ⟨xs, hxs⟩ := ih h.2
    cases v with
    | str s => exact ⟨s :: xs, by rw [hxs]; rfl⟩
    | nil => simp [Value.isStr] at h
    | set _ => simp [Value.isStr] at h
    | map _ => simp [Value.isStr] at h
    | other _ => simp [Value.isStr] at h

theorem appendStrings_error :
    ∀ (vs : List Value) (acc : Slice GoString), vs.all Value.isStr = false →
      appendStrings acc vs = .error .typeAssertion := by
  intro vs
  induction vs with
  | nil => intro _ h; simp at h
  | cons v vs ih =>
    intro acc h
    cases v with
    | str s =>
      simp only [List.all_cons, Value.isStr, Bool.true_and] at h
      simp only [appendStrings, assertString]
      exact ih _ h
    | nil => rfl
    | set _ => rfl
    | map _ => rfl
    | other _ => rfl

/-- The result of `AssembleRolePolicyDocument` on strings. -/
theorem assembleRole_strs (ram svc : List GoString) (v : GoString) :
    AssembleRolePolicyDocument (ram.map Value.str) (svc.map Value.str) v
      = .ok (encodeRolePolicy
          { Statement := Slice.ofList
              [{ Effect := Allow
                 Action := utf8 "sts:AssumeRole"
                 Principal := { Service := Slice.ofList svc, RAM := Slice.ofList ram } }]
            Version := v }, none) := by
  simp only [AssembleRolePolicyDocument]
  rw [appendStrings_strs svc (Slice.ofList []) rfl (by simp [Slice.ofList]),
    appendStrings_strs ram (Slice.ofList []) rfl (by simp [Slice.ofList])]
  simp [marshalRolePolicy, Slice.ofList, Slice.toList]

/-- C10. `AssembleRolePolicyDocument` panics on a failed type assertion exactly when some
element of `ramUser` or `service` does not hold a string; when all of them hold
strings it returns a text and the nil error, so the branch for an encoding error is
never taken. -/
theorem AssembleRolePolicyDocument_panics_iff (ramUser service : List Value)
    (version : GoString) :
    (AssembleRolePolicyDocument ramUser service version = .error .typeAssertion
        ↔ ∃ x ∈ ramUser ++ service, x.isStr = false)
      ∧ ((∀ x ∈ ramUser ++ service, x.isStr = true) →
          ∃ text, AssembleRolePolicyDocument ramUser service version = .ok (text, none)
            ∧ text ≠ []) := by
  by_cases hs : service.all Value.isStr = true
  · by_cases hr : ramUser.all Value.isStr = true
    · obtain ⟨svc, rfl⟩ := exists_strs_of_all_isStr service hs
      obtain ⟨ram, rfl⟩ := exists_strs_of_all_isStr ramUser hr
      rw [assembleRole_strs]
      refine ⟨⟨fun h => by simp at h, ?_⟩, fun _ => ⟨_, rfl, ?_⟩⟩
      · rintro ⟨x, hx, hxs⟩
        rw [List.mem_append] at hx
        rw [List.all_eq_true] at hs hr
        rcases hx with hx | hx
        · rw [hr x hx] at hxs; simp at hxs
        · rw [hs x hx] at hxs; simp at hxs
      · simp [encodeRolePolicy, utf8, encodeRune]
    · have hr2 : ramUser.all Value.isStr = false := by simpa using hr
      obtain ⟨svc, rfl⟩ := exists_strs_of_all_isStr service hs
      have he : AssembleRolePolicyDocument ramUser (svc.map Value.str) version
          = .error .typeAssertion := by
        simp only [AssembleRolePolicyDocument]
        rw [appendStrings_strs svc (Slice.ofList []) rfl (by simp [Slice.ofList]),
          appendStrings_error ramUser _ hr2]
      rw [he]
      have hex : ∃ x ∈ ramUser, x.isStr = false := by
        simpa [List.all_eq_false] using hr2
      obtain ⟨x, hx, hxs⟩ := hex
      refine ⟨⟨fun _ => ⟨x, List.mem_append_left _ hx, hxs⟩, fun _ => rfl⟩, fun h => ?_⟩
      rw [h x (List.mem_append_left _ hx)] at hxs
      simp at hxs
  · have hs2 : service.all Value.isStr = false := by simpa using hs
    have he : AssembleRolePolicyDocument ramUser service version = .error .typeAssertion := by
      simp only [AssembleRolePolicyDocument]
      rw [appendStrings_error service _ hs2]
    rw [he]
    have hex : ∃ x ∈ service, x.isStr = false := by
      simpa [List.all_eq_false] using hs2
    obtain ⟨x, hx, hxs⟩ := hex
    refine ⟨⟨fun _ => ⟨x, List.mem_append_right _ hx, hxs⟩, fun _ => rfl⟩, fun h => ?_⟩
    rw [h x (List.mem_append_right _ hx)] at hxs
    simp at hxs


/-! ## Facts about the parsers -/

theorem firstError_eq_none (a b : Option JsonError) :
    firstError a b = none ↔ a = none ∧ b = none := by
  cases a <;> simp [firstError]

theorem kindError_string (j : JVal) (cur : GoString) :
    (decodeString j cur).2 = none ↔ fitsString j = true := by
  cases j <;> simp [decodeString, kindError, fitsString]

theorem decodeElems_fits {α : Type} (dec : JVal → α → α × Option JsonError) (zero : α)
    (elem : JVal → Bool) :
    ∀ items : List JVal, (∀ x ∈ items, ∀ cur, (dec x cur).2 = none ↔ elem x = true) →
      ∀ buf, (decodeElems dec zero items buf).2.2 = none ↔ items.all elem = true := by
  intro items
  induction items with
  | nil => intro _ buf; simp [decodeElems]
  | cons x xs ih =>
    intro h buf
    simp only [decodeElems, firstError_eq_none, List.all_cons, Bool.and_eq_true]
    rw [h x (List.mem_cons_self _ _), ih (fun y hy => h y (List.mem_cons_of_mem _ hy))]

theorem decodeSlice_fits {α : Type} (dec : JVal → α → α × Option JsonError) (zero : α)
    (elem : JVal → Bool) (j : JVal)
    (h : ∀ x cur, (dec x cur).2 = none ↔ elem x = true) (cur : Slice α) :
    (decodeSlice dec zero j cur).2 = none ↔ fitsSlice elem j = true := by
  cases j with
  | arr items =>
    cases items with
    | nil => simp [decodeSlice, fitsSlice]
    | cons x xs =>
      simp only [decodeSlice, fitsSlice]
      exact decodeElems_fits dec zero elem (x :: xs) (fun y _ c => h y c) _
  | null => simp [decodeSlice, fitsSlice]
  | bool _ => simp [decodeSlice, fitsSlice, kindError]
  | num => simp [decodeSlice, fitsSlice, kindError]
  | str _ => simp [decodeSlice, fitsSlice, kindError]
  | obj _ => simp [decodeSlice, fitsSlice, kindError]

theorem decodeMembers_fits {σ : Type} (names : List GoString)
    (store : Nat → JVal → σ → σ × Option JsonError) (field : Nat → JVal → Bool)
    (h : ∀ i v cur, (store i v cur).2 = none ↔ field i v = true) :
    ∀ (members : List (GoString × JVal)) (cur : σ),
      (decodeMembers names store members cur).2 = none
        ↔ (members.all fun m =>
            match findField names m.1 with
            | none => true
            | some i => field i m.2) = true := by
  intro members
  induction members with
  | nil => intro cur; simp [decodeMembers]
  | cons m ms ih =>
    intro cur
    obtain ⟨key, v⟩ := m
    cases hf : findField names key with
    | none => simp only [decodeMembers, hf, List.all_cons, Bool.true_and, ih]
    | some i =>
      simp only [decodeMembers, hf, List.all_cons, Bool.and_eq_true, firstError_eq_none, ih,
        h i v cur]

theorem decodeStruct_fits {σ : Type} (names : List GoString)
    (store : Nat → JVal → σ → σ × Option JsonError) (field : Nat → JVal → Bool)
    (h : ∀ i v cur, (store i v cur).2 = none ↔ field i v = true) (j : JVal) (cur : σ) :
    (decodeStruct names store j cur).2 = none ↔ fitsStruct names field j = true := by
  cases j with
  | obj members =>
    simp only [decodeStruct, fitsStruct]
    exact decodeMembers_fits names store field h members cur
  | null => simp [decodeStruct, fitsStruct, kindError]
  | bool _ => simp [decodeStruct, fitsStruct, kindError]
  | num => simp [decodeStruct, fitsStruct, kindError]
  | str _ => simp [decodeStruct, fitsStruct, kindError]
  | arr _ => simp [decodeStruct, fitsStruct, kindError]

theorem decodePrincipal_fits (j : JVal) (cur : Principal) :
    (decodePrincipal j cur).2 = none ↔ fitsPrincipal j = true := by
  apply decodeStruct_fits
  intro i v c
  by_cases h0 : i = 0
  · simp only [h0, ↓reduceIte]
    exact decodeSlice_fits decodeString [] fitsString v kindError_string _
  · simp only [h0, ↓reduceIte]
    exact decodeSlice_fits decodeString [] fitsString v kindError_string _

theorem decodeRolePolicyStatement_fits (j : JVal) (cur : RolePolicyStatement) :
    (decodeRolePolicyStatement j cur).2 = none ↔ fitsRolePolicyStatement j = true := by
  apply decodeStruct_fits
  intro i v c
  by_cases h0 : i = 0
  · simp only [h0, ↓reduceIte]
    exact kindError_string v _
  · by_cases h1 : i = 1
    · simp only [h1, ↓reduceIte]
      exact kindError_string v _
    · simp only [h0, h1, ↓reduceIte]
      exact decodePrincipal_fits v _

theorem decodeRolePolicy_fits (j : JVal) (cur : RolePolicy) :
    (decodeRolePolicy j cur).2 = none ↔ fitsRolePolicy j = true := by
  apply decodeStruct_fits
  intro i v c
  by_cases h0 : i = 0
  · simp only [h0, ↓reduceIte]
    exact decodeSlice_fits _ _ fitsRolePolicyStatement v decodeRolePolicyStatement_fits _
  · simp only [h0, ↓reduceIte]
    exact kindError_string v _

theorem decodePolicyStatement_fits (j : JVal) (cur : PolicyStatement) :
    (decodePolicyStatement j cur).2 = none ↔ fitsPolicyStatement j = true := by
  apply decodeStruct_fits
  intro i v c
  by_cases h0 : i = 0
  · simp only [h0, ↓reduceIte]
    exact kindError_string v _
  · by_cases h1 : i = 1
    · simp only [h1, ↓reduceIte]
      exact decodeSlice_fits decodeString [] fitsString v kindError_string _
    · simp only [h0, h1, ↓reduceIte]
      exact decodeSlice_fits decodeString [] fitsString v kindError_string _

theorem decodePolicy_fits (j : JVal) (cur : Policy) :
    (decodePolicy j cur).2 = none ↔ fitsPolicy j = true := by
  apply decodeStruct_fits
  intro i v c
  by_cases h0 : i = 0
  · simp only [h0, ↓reduceIte]
    exact decodeSlice_fits _ _ fitsPolicyStatement v decodePolicyStatement_fits _
  · simp only [h0, ↓reduceIte]
    exact kindError_string v _

/-- C4. Decoding is all or nothing. A text that is not JSON makes both parsers return the
zero value and a syntax error; a JSON text in which some value has the wrong kind for
the field it is stored into makes them return the zero value and a type error; and
whenever `json.Unmarshal` reports an error the parser returns the zero value with that
error, whatever had been stored into the target by then. -/
theorem Parse_all_or_nothing (text : GoString) :
    (parseJSON text = none →
        ParseRolePolicyDocument text = (RolePolicy.zero, some (.json .syntaxError))
          ∧ ParsePolicyDocument text = (Policy.zero, some (.json .syntaxError)))
      ∧ (∀ j, parseJSON text = some j → fitsRolePolicy j = false →
          ∃ e, ParseRolePolicyDocument text = (RolePolicy.zero, some (.json e)))
      ∧ (∀ j, parseJSON text = some j → fitsPolicy j = false →
          ∃ e, ParsePolicyDocument text = (Policy.zero, some (.json e)))
      ∧ (∀ err, (unmarshalRolePolicy text RolePolicy.zero).2 = some err →
          ParseRolePolicyDocument text = (RolePolicy.zero, some err))
      ∧ (∀ err, (unmarshalPolicy text Policy.zero).2 = some err →
          ParsePolicyDocument text = (Policy.zero, some err)) := by
  refine ⟨fun h => ⟨?_, ?_⟩, fun j h hj => ?_, fun j h hj => ?_, fun err h => ?_,
    fun err h => ?_⟩
  · simp [ParseRolePolicyDocument, unmarshalRolePolicy, h]
  · simp [ParsePolicyDocument, unmarshalPolicy, h]
  · cases he : (decodeRolePolicy j RolePolicy.zero).2 with
    | none =>
      rw [(decodeRolePolicy_fits j RolePolicy.zero).1 he] at hj
      exact absurd hj (by simp)
    | some e => exact ⟨e, by simp [ParseRolePolicyDocument, unmarshalRolePolicy, h, he]⟩
  · cases he : (decodePolicy j Policy.zero).2 with
    | none =>
      rw [(decodePolicy_fits j Policy.zero).1 he] at hj
      exact absurd hj (by simp)
    | some e => exact ⟨e, by simp [ParsePolicyDocument, unmarshalPolicy, h, he]⟩
  · simp only [ParseRolePolicyDocument, h]
  · simp only [ParsePolicyDocument, h]

set_option maxRecDepth 100000 in
/-- The text `{not json` is refused by both parsers. -/
theorem Parse_all_or_nothing_witness :
    ParseRolePolicyDocument (utf8 "\x7bnot json")
        = (RolePolicy.zero, some (.json .syntaxError))
      ∧ ParsePolicyDocument (utf8 "\x7bnot json") = (Policy.zero, some (.json .syntaxError)) :=
  (Parse_all_or_nothing (utf8 "\x7bnot json")).1 (by rfl)

set_option maxRecDepth 100000 in
/-- A document whose `Version` is stored before the wrong kind of `Statement` is met:
`json.Unmarshal` leaves the version in its target, the parsers return the zero value. -/
theorem Parse_discards_partial :
    unmarshalRolePolicy (utf8 "\x7b\"Version\":\"1\",\"Statement\":5\x7d") RolePolicy.zero
        = ({ Statement := Slice.nil, Version := utf8 "1" },
            some (.json (.unmarshalTypeError "number")))
      ∧ ParseRolePolicyDocument (utf8 "\x7b\"Version\":\"1\",\"Statement\":5\x7d")
        = (RolePolicy.zero, some (.json (.unmarshalTypeError "number")))
      ∧ unmarshalPolicy (utf8 "\x7b\"Version\":\"1\",\"Statement\":5\x7d") Policy.zero
        = ({ Statement := Slice.nil, Version := utf8 "1" },
            some (.json (.unmarshalTypeError "number")))
      ∧ ParsePolicyDocument (utf8 "\x7b\"Version\":\"1\",\"Statement\":5\x7d")
        = (Policy.zero, some (.json (.unmarshalTypeError "number"))) := by
  decide


/-! ## UTF-8: decoding what `encodeRune` wrote -/

theorem decodeRune_ascii (n : Nat) (rest : GoString) (h : n < 0x80) :
    decodeRune (n :: rest) = (n, 1) := by
  simp [decodeRune, h]

theorem decodeRune_two (n : Nat) (rest : GoString) (h1 : 0x7F < n) (h2 : n ≤ 0x7FF) :
    decodeRune ((0xC0 + n / 64) :: (0x80 + n % 64) :: rest) = (n, 2) := by
  have a1 : ¬ (0xC0 + n / 64 < 0x80) := by omega
  have a2 : ¬ (0xC0 + n / 64 < 0xC2 ∨ 0xF4 < 0xC0 + n / 64) := by omega
  have a3 : 0xC0 + n / 64 < 0xE0 := by omega
  have a4 : ¬ (0xC0 + n / 64 = 0xE0) := by omega
  have a5 : ¬ (0xC0 + n / 64 = 0xF0) := by omega
  have a6 : ¬ (0xC0 + n / 64 = 0xED) := by omega
  have a7 : ¬ (0xC0 + n / 64 = 0xF4) := by omega
  have a8 : ¬ (0x80 + n % 64 < 0x80 ∨ 0xBF < 0x80 + n % 64) := by omega
  have a9 : (0xC0 + n / 64) % 32 * 64 + (0x80 + n % 64) % 64 = n := by omega
  have a10 : ¬ (rest.length + 1 + 1 < 2) := by omega
  simp only [decodeRune, List.getD_cons_zero, List.getD_cons_succ, List.length_cons,
    a1, a2, a3, a4, a5, a6, a7, a8, a9, a10, ↓reduceIte]

theorem decodeRune_three (n : Nat) (rest : GoString) (h1 : 0x7FF < n) (h2 : n ≤ 0xFFFF)
    (h3 : ¬ (0xD800 ≤ n ∧ n ≤ 0xDFFF)) :
    decodeRune ((0xE0 + n / 4096) :: (0x80 + n / 64 % 64) :: (0x80 + n % 64) :: rest)
      = (n, 3) := by
  have a1 : ¬ (0xE0 + n / 4096 < 0x80) := by omega
  have a2 : ¬ (0xE0 + n / 4096 < 0xC2 ∨ 0xF4 < 0xE0 + n / 4096) := by omega
  have a3 : ¬ (0xE0 + n / 4096 < 0xE0) := by omega
  have a4 : 0xE0 + n / 4096 < 0xF0 := by omega
  have a5 : ¬ (0xE0 + n / 4096 = 0xF0) := by omega
  have a7 : ¬ (0xE0 + n / 4096 = 0xF4) := by omega
  have a8 : ¬ (0x80 + n / 64 % 64 < (if 0xE0 + n / 4096 = 0xE0 then 0xA0 else 0x80)
      ∨ (if 0xE0 + n / 4096 = 0xED then 0x9F else 0xBF) < 0x80 + n / 64 % 64) := by
    split_ifs <;> omega
  have a9 : ¬ (0x80 + n % 64 < 0x80 ∨ 0xBF < 0x80 + n % 64) := by omega
  have a10 : (0xE0 + n / 4096) % 16 * 4096 + (0x80 + n / 64 % 64) % 64 * 64
      + (0x80 + n % 64) % 64 = n := by omega
  have a11 : ¬ (rest.length + 1 + 1 + 1 < 3) := by omega
  simp only [decodeRune, List.getD_cons_zero, List.getD_cons_succ, List.length_cons,
    a1, a2, a3, a4, a5, a7, a8, a9, a10, a11, ↓reduceIte]
  simp

theorem decodeRune_four (n : Nat) (rest : GoString) (h1 : 0xFFFF < n) (h2 : n ≤ 0x10FFFF) :
    decodeRune ((0xF0 + n / 262144) :: (0x80 + n / 4096 % 64) :: (0x80 + n / 64 % 64)
      :: (0x80 + n % 64) :: rest) = (n, 4) := by
  have a1 : ¬ (0xF0 + n / 262144 < 0x80) := by omega
  have a2 : ¬ (0xF0 + n / 262144 < 0xC2 ∨ 0xF4 < 0xF0 + n / 262144) := by omega
  have a3 : ¬ (0xF0 + n / 262144 < 0xE0) := by omega
  have a4 : ¬ (0xF0 + n / 262144 < 0xF0) := by omega
  have a5 : ¬ (0xF0 + n / 262144 = 0xE0) := by omega
  have a6 : ¬ (0xF0 + n / 262144 = 0xED) := by omega
  have a8 : ¬ (0x80 + n / 4096 % 64 < (if 0xF0 + n / 262144 = 0xF0 then 0x90 else 0x80)
      ∨ (if 0xF0 + n / 262144 = 0xF4 then 0x8F else 0xBF) < 0x80 + n / 4096 % 64) := by
    split_ifs <;> omega
  have a9 : ¬ (0x80 + n / 64 % 64 < 0x80 ∨ 0xBF < 0x80 + n / 64 % 64) := by omega
  have a10 : ¬ (0x80 + n % 64 < 0x80 ∨ 0xBF < 0x80 + n % 64) := by omega
  have a11 : (0xF0 + n / 262144) % 8 * 262144 + (0x80 + n / 4096 % 64) % 64 * 4096
      + (0x80 + n / 64 % 64) % 64 * 64 + (0x80 + n % 64) % 64 = n := by omega
  have a12 : ¬ (rest.length + 1 + 1 + 1 + 1 < 4) := by omega
  simp only [decodeRune, List.getD_cons_zero, List.getD_cons_succ, List.length_cons,
    a1, a2, a3, a4, a5, a6, a8, a9, a10, a11, a12, ↓reduceIte]
  simp


/-! ## Strings: reading back what the encoder wrote -/

theorem char_scalar (c : Char) :
    c.toNat < 0xD800 ∨ (0xDFFF < c.toNat ∧ c.toNat < 0x110000) := c.valid

set_option maxHeartbeats 1000000 in
theorem parseStringAux_escapeByte (n fuel : Nat) (s : GoString) (h : n < 0x80) :
    parseStringAux (fuel + 1) (escapeByte n ++ s) = consText [n] (parseStringAux fuel s) := by
  interval_cases n <;>
    simp [escapeByte, htmlSafe, hexDigit, parseStringAux, hex4, hexValue, unescape, encodeRune]

/-- The shape of `encodeRune n` for a scalar value past ASCII, with what `decodeRune`
makes of it. -/
theorem encodeRune_decode (n : Nat) (h : 0x7F < n)
    (hv : n < 0xD800 ∨ (0xDFFF < n ∧ n < 0x110000)) :
    ∃ p0 tail, encodeRune n = p0 :: tail ∧ 0xC2 ≤ p0 ∧
      ∀ rest, decodeRune (p0 :: (tail ++ rest)) = (n, tail.length + 1) := by
  have a0 : ¬ n ≤ 0x7F := by omega
  by_cases h2 : n ≤ 0x7FF
  · refine ⟨0xC0 + n / 64, [0x80 + n % 64], by simp [encodeRune, a0, h2], by omega, ?_⟩
    intro rest
    exact decodeRune_two n rest h h2
  · have a1 : ¬ (0x10FFFF < n ∨ (0xD800 ≤ n ∧ n ≤ 0xDFFF)) := by omega
    by_cases h3 : n ≤ 0xFFFF
    · refine ⟨0xE0 + n / 4096, [0x80 + n / 64 % 64, 0x80 + n % 64],
        by simp [encodeRune, a0, h2, a1, h3], by omega, ?_⟩
      intro rest
      exact decodeRune_three n rest (by omega) h3 (by omega)
    · refine ⟨0xF0 + n / 262144, [0x80 + n / 4096 % 64, 0x80 + n / 64 % 64, 0x80 + n % 64],
        by simp [encodeRune, a0, h2, a1, h3], by omega, ?_⟩
      intro rest
      exact decodeRune_four n rest (by omega) (by omega)

theorem parseStringAux_raw (p0 : Nat) (tail s : GoString) (n fuel : Nat) (h : 0xC2 ≤ p0)
    (hd : decodeRune (p0 :: (tail ++ s)) = (n, tail.length + 1)) :
    parseStringAux (fuel + 1) (p0 :: (tail ++ s))
      = consText (encodeRune n) (parseStringAux fuel s) := by
  have a1 : ¬ p0 = 0x22 := by omega
  have a2 : ¬ p0 = 0x5C := by omega
  have a3 : ¬ p0 < 0x20 := by omega
  have a4 : ¬ p0 < 0x80 := by omega
  simp only [parseStringAux, a1, a2, a3, a4, ↓reduceIte, hd, Nat.add_sub_cancel,
    List.drop_left]

theorem parseStringAux_escapeRune (n fuel : Nat) (s : GoString)
    (hv : n < 0xD800 ∨ (0xDFFF < n ∧ n < 0x110000)) :
    parseStringAux (fuel + 1) (escapeRune n ++ s)
      = consText (encodeRune n) (parseStringAux fuel s) := by
  by_cases h : n < 0x80
  · have he : encodeRune n = [n] := by
      have : n ≤ 0x7F := by omega
      simp [encodeRune, this]
    rw [escapeRune, if_pos h, he]
    exact parseStringAux_escapeByte n fuel s h
  · by_cases h2 : n = 0x2028 ∨ n = 0x2029
    · rcases h2 with rfl | rfl <;>
        simp [escapeRune, hexDigit, parseStringAux, hex4, hexValue, encodeRune]
    · rw [escapeRune, if_neg h, if_neg h2]
      obtain ⟨p0, tail, he, hp, hd⟩ := encodeRune_decode n (by omega) hv
      rw [he, List.cons_append]
      rw [parseStringAux_raw p0 tail s n fuel hp (hd s), he]

theorem encodeStringAux_encodeRune (n fuel : Nat) (s : GoString)
    (hv : n < 0xD800 ∨ (0xDFFF < n ∧ n < 0x110000)) :
    encodeStringAux (fuel + 1) (encodeRune n ++ s) = escapeRune n ++ encodeStringAux fuel s := by
  by_cases h : n < 0x80
  · have he : encodeRune n = [n] := by
      have : n ≤ 0x7F := by omega
      simp [encodeRune, this]
    rw [escapeRune, if_pos h, he]
    simp [encodeStringAux, h]
  · obtain ⟨p0, tail, he, hp, hd⟩ := encodeRune_decode n (by omega) hv
    have a4 : ¬ p0 < 0x80 := by omega
    have a5 : ¬ (n = RuneError ∧ tail.length + 1 = 1) := by
      rintro ⟨rfl, h1⟩
      have ht : tail = [] := List.length_eq_zero.1 (by omega)
      subst ht
      simp [encodeRune, RuneError] at he
    rw [escapeRune, if_neg h, he, List.cons_append]
    simp only [encodeStringAux, a4, ↓reduceIte, hd s, a5, Nat.add_sub_cancel, List.drop_left]
    by_cases h2 : n = 0x2028 ∨ n = 0x2029
    · simp only [h2, ↓reduceIte]
    · simp only [h2, ↓reduceIte]
      rw [← List.cons_append, List.take_left' (by simp)]


theorem encodeRune_ne_nil (n : Nat) : encodeRune n ≠ [] := by
  unfold encodeRune
  split_ifs <;> simp

theorem escapeByte_ne_nil (n : Nat) : escapeByte n ≠ [] := by
  unfold escapeByte
  split_ifs <;> simp

theorem escapeRune_ne_nil (n : Nat) : escapeRune n ≠ [] := by
  unfold escapeRune
  split_ifs
  · exact escapeByte_ne_nil n
  · simp
  · exact encodeRune_ne_nil n

theorem length_le_flatMap {α : Type} (f : α → GoString) (hf : ∀ a, f a ≠ []) :
    ∀ cs : List α, cs.length ≤ (cs.flatMap f).length := by
  intro cs
  induction cs with
  | nil => simp
  | cons c cs ih =>
    have : 0 < (f c).length := List.length_pos.2 (hf c)
    simp only [List.flatMap_cons, List.length_append, List.length_cons]
    omega

theorem encodeStringAux_chars :
    ∀ (cs : List Char) (fuel : Nat), cs.length ≤ fuel →
      encodeStringAux fuel (cs.flatMap fun c => encodeRune c.toNat)
        = cs.flatMap fun c => escapeRune c.toNat := by
  intro cs
  induction cs with
  | nil => intro fuel _; cases fuel <;> simp [encodeStringAux]
  | cons c cs ih =>
    intro fuel hf
    obtain ⟨f, rfl⟩ : ∃ f, fuel = f + 1 := ⟨fuel - 1, by simp at hf; omega⟩
    simp only [List.flatMap_cons]
    rw [encodeStringAux_encodeRune c.toNat f _ (char_scalar c), ih f (by simp at hf; omega)]

theorem parseStringAux_chars :
    ∀ (cs : List Char) (fuel : Nat) (rest : GoString), cs.length + 1 ≤ fuel →
      parseStringAux fuel ((cs.flatMap fun c => escapeRune c.toNat) ++ 0x22 :: rest)
        = some (cs.flatMap fun c => encodeRune c.toNat, rest) := by
  intro cs
  induction cs with
  | nil =>
    intro fuel rest hf
    obtain ⟨f, rfl⟩ : ∃ f, fuel = f + 1 := ⟨fuel - 1, by omega⟩
    simp [parseStringAux]
  | cons c cs ih =>
    intro fuel rest hf
    obtain ⟨f, rfl⟩ : ∃ f, fuel = f + 1 := ⟨fuel - 1, by omega⟩
    simp only [List.flatMap_cons, List.append_assoc]
    rw [parseStringAux_escapeRune c.toNat f _ (char_scalar c),
      ih f rest (by simp at hf; omega)]
    rfl

/-- The text `json.Marshal` writes for a valid string. -/
theorem encodeString_utf8 (s : String) :
    encodeString (utf8 s) = 0x22 :: ((s.data.flatMap fun c => escapeRune c.toNat) ++ [0x22]) := by
  rw [encodeString, utf8, encodeStringAux_chars s.data _
    (length_le_flatMap _ (fun c => encodeRune_ne_nil c.toNat) s.data)]
  rfl

/-- The scanner reads a valid string back from what the encoder wrote for it. -/
theorem parseString_escaped (s : String) (rest : GoString) :
    parseString ((s.data.flatMap fun c => escapeRune c.toNat) ++ 0x22 :: rest)
      = some (utf8 s, rest) := by
  rw [parseString, parseStringAux_chars s.data _ rest]
  · rfl
  · have := length_le_flatMap (fun c : Char => escapeRune c.toNat)
      (fun c => escapeRune_ne_nil c.toNat) s.data
    simp only [List.length_append, List.length_cons]
    omega

theorem parseValue_encodeString (s : String) (fuel : Nat) (rest : GoString) :
    parseValue (fuel + 1) (encodeString (utf8 s) ++ rest) = some (JVal.str (utf8 s), rest) := by
  have h : encodeString (utf8 s) ++ rest
      = 0x22 :: ((s.data.flatMap fun c => escapeRune c.toNat) ++ 0x22 :: rest) := by
    rw [encodeString_utf8]
    simp
  rw [h]
  simp only [parseValue, ↓reduceIte]
  rw [parseString_escaped]
  rfl


/-! ## Arrays and objects: reading back what the encoder wrote -/

theorem skipSpace_cons (b : Nat) (t : GoString) (h : isSpace b = false) :
    skipSpace (b :: t) = b :: t := by
  simp [skipSpace, List.dropWhile, h]

theorem StartsValue.skip {e : GoString} (h : StartsValue e) (rest : GoString) :
    skipSpace (e ++ rest) = e ++ rest := by
  obtain ⟨b, t, rfl, hb, _, _⟩ := h
  exact skipSpace_cons b _ hb

theorem joinComma_cons_append (x : GoString) (xs : List GoString) (hx : xs ≠ [])
    (rest : GoString) :
    joinComma (x :: xs) ++ rest = x ++ 0x2C :: (joinComma xs ++ rest) := by
  cases xs with
  | nil => exact absurd rfl hx
  | cons y ys => simp [joinComma]

theorem joinComma_starts (xs : List GoString) (hx : xs ≠ [])
    (h : ∀ x ∈ xs, StartsValue x) : StartsValue (joinComma xs) := by
  cases xs with
  | nil => exact absurd rfl hx
  | cons x ys =>
    obtain ⟨b, t, rfl, hb⟩ := h x (List.mem_cons_self _ _)
    cases ys with
    | nil => exact ⟨b, t, rfl, hb⟩
    | cons y zs => exact ⟨b, _, by simp [joinComma]; rfl, hb⟩

theorem parseElems_join (pv : GoString → Option (JVal × GoString)) :
    ∀ (items : List (GoString × JVal)) (fuel : Nat) (rest : GoString), items ≠ [] →
      (∀ it ∈ items, (∀ r, pv (it.1 ++ r) = some (it.2, r)) ∧ StartsValue it.1) →
      items.length ≤ fuel →
      parseElems pv fuel (joinComma (items.map Prod.fst) ++ 0x5D :: rest)
        = some (items.map Prod.snd, rest) := by
  intro items
  induction items with
  | nil => intro _ _ h; exact absurd rfl h
  | cons it items ih =>
    intro fuel rest _ hit hf
    obtain ⟨f, rfl⟩ : ∃ f, fuel = f + 1 := ⟨fuel - 1, by simp at hf; omega⟩
    have h1 := (hit it (List.mem_cons_self _ _)).1
    cases items with
    | nil =>
      simp only [List.map_cons, List.map_nil, joinComma, parseElems, h1]
      rw [skipSpace_cons _ _ (by decide)]
      simp
    | cons it2 items2 =>
      have hne : (it2 :: items2) ≠ [] := by simp
      have hit2 : ∀ x ∈ it2 :: items2, (∀ r, pv (x.1 ++ r) = some (x.2, r)) ∧ StartsValue x.1 :=
        fun x hx => hit x (List.mem_cons_of_mem _ hx)
      have hst : StartsValue (joinComma ((it2 :: items2).map Prod.fst)) :=
        joinComma_starts _ (by simp) (by
          intro x hx
          obtain ⟨y, hy, rfl⟩ := List.mem_map.1 hx
          exact (hit2 y hy).2)
      rw [List.map_cons, joinComma_cons_append _ _ (by simp)]
      simp only [parseElems, h1]
      rw [skipSpace_cons _ _ (by decide)]
      simp only [↓reduceIte]
      rw [hst.skip, ih f rest hne hit2 (by simp at hf ⊢; omega)]
      rfl


theorem length_le_joinComma :
    ∀ xs : List GoString, (∀ x ∈ xs, x ≠ []) → xs.length ≤ (joinComma xs).length + 1 := by
  intro xs
  induction xs with
  | nil => intro _; simp
  | cons x xs ih =>
    intro h
    cases xs with
    | nil => simp
    | cons y ys =>
      have h1 := ih fun a ha => h a (List.mem_cons_of_mem _ ha)
      simp only [joinComma, List.length_append, List.length_cons] at h1 ⊢
      omega

theorem StartsValue.ne_nil {e : GoString} (h : StartsValue e) : e ≠ [] := by
  obtain ⟨b, t, rfl, _⟩ := h
  simp

/-- An array of values the scanner reads is read as the array of what they are read as. -/
theorem reads_array (n : Nat) (items : List (GoString × JVal))
    (h : ∀ it ∈ items, Reads n it.1 it.2 ∧ StartsValue it.1) :
    Reads (n + 1) (0x5B :: (joinComma (items.map Prod.fst) ++ [0x5D]))
      (JVal.arr (items.map Prod.snd)) := by
  intro f rest hf
  obtain ⟨g, rfl⟩ : ∃ g, f = g + 1 := ⟨f - 1, by omega⟩
  have htxt : 0x5B :: (joinComma (items.map Prod.fst) ++ [0x5D]) ++ rest
      = 0x5B :: (joinComma (items.map Prod.fst) ++ 0x5D :: rest) := by simp
  rw [htxt]
  cases hi : items with
  | nil =>
    simp only [List.map_nil, joinComma, List.nil_append, parseValue]
    rw [skipSpace_cons _ _ (by decide)]
    simp
  | cons it its =>
    rw [← hi]
    have hne : items ≠ [] := by rw [hi]; simp
    have hst : StartsValue (joinComma (items.map Prod.fst)) :=
      joinComma_starts _ (by simpa using hne) (by
        intro x hx
        obtain ⟨y, hy, rfl⟩ := List.mem_map.1 hx
        exact (h y hy).2)
    obtain ⟨b, t, hj, hb, hb1, _⟩ := hst
    have hlen : items.length ≤ (joinComma (items.map Prod.fst) ++ 0x5D :: rest).length := by
      have := length_le_joinComma (items.map Prod.fst) (by
        intro x hx
        obtain ⟨y, hy, rfl⟩ := List.mem_map.1 hx
        exact (h y hy).2.ne_nil)
      simp only [List.length_map] at this
      simp only [List.length_append, List.length_cons]
      omega
    have hp := parseElems_join (parseValue g) items
      (joinComma (items.map Prod.fst) ++ 0x5D :: rest).length rest hne
      (fun it hit => ⟨fun r => (h it hit).1 g r (by omega), (h it hit).2⟩) hlen
    rw [hj] at hp ⊢
    simp only [List.cons_append] at hp ⊢
    simp only [parseValue]
    rw [skipSpace_cons _ _ hb]
    simp only [hb1, ↓reduceIte, hp]
    simp

theorem parseMembers_join (pv : GoString → Option (JVal × GoString)) :
    ∀ (ms : List (String × GoString × JVal)) (fuel : Nat) (rest : GoString), ms ≠ [] →
      (∀ m ∈ ms, (∀ r, pv (m.2.1 ++ r) = some (m.2.2, r)) ∧ StartsValue m.2.1) →
      ms.length ≤ fuel →
      parseMembers pv fuel
          (joinComma (ms.map fun m => memberText m.1 m.2.1) ++ 0x7D :: rest)
        = some (ms.map fun m => (utf8 m.1, m.2.2), rest) := by
  intro ms
  induction ms with
  | nil => intro _ _ h; exact absurd rfl h
  | cons m ms ih =>
    intro fuel rest _ hm hf
    obtain ⟨f, rfl⟩ : ∃ f, fuel = f + 1 := ⟨fuel - 1, by simp at hf; omega⟩
    obtain ⟨h1, h2⟩ := hm m (List.mem_cons_self _ _)
    have hstep : ∀ X : GoString, memberText m.1 m.2.1 ++ X
        = 0x22 :: ((m.1.data.flatMap fun c => escapeRune c.toNat)
            ++ 0x22 :: (0x3A :: (m.2.1 ++ X))) := by
      intro X
      simp [memberText]
    cases ms with
    | nil =>
      simp only [List.map_cons, List.map_nil, joinComma]
      rw [hstep]
      simp only [parseMembers, ↓reduceIte, parseString_escaped]
      rw [skipSpace_cons _ _ (by decide)]
      simp only [↓reduceIte]
      rw [h2.skip, h1]
      simp only []
      rw [skipSpace_cons _ _ (by decide)]
      simp
    | cons m2 ms2 =>
      have hne : (m2 :: ms2) ≠ [] := by simp
      have hm2 : ∀ x ∈ m2 :: ms2, (∀ r, pv (x.2.1 ++ r) = some (x.2.2, r)) ∧ StartsValue x.2.1 :=
        fun x hx => hm x (List.mem_cons_of_mem _ hx)
      have hst : StartsValue (joinComma ((m2 :: ms2).map fun m => memberText m.1 m.2.1)) :=
        joinComma_starts _ (by simp) (by
          intro x hx
          obtain ⟨y, _, rfl⟩ := List.mem_map.1 hx
          exact ⟨0x22, _, rfl, by decide, by decide, by decide⟩)
      rw [List.map_cons, joinComma_cons_append _ _ (by simp), hstep]
      simp only [parseMembers, ↓reduceIte, parseString_escaped]
      rw [skipSpace_cons _ _ (by decide)]
      simp only [↓reduceIte]
      rw [h2.skip, h1]
      simp only []
      rw [skipSpace_cons _ _ (by decide)]
      simp only [↓reduceIte]
      rw [hst.skip, ih f rest hne hm2 (by simp at hf ⊢; omega)]
      rfl

/-- An object whose member values the scanner reads is read as the object of its member
names and what the values are read as. -/
theorem reads_object (n : Nat) (ms : List (String × GoString × JVal)) (hne : ms ≠ [])
    (h : ∀ m ∈ ms, Reads n m.2.1 m.2.2 ∧ StartsValue m.2.1) :
    Reads (n + 1) (0x7B :: (joinComma (ms.map fun m => memberText m.1 m.2.1) ++ [0x7D]))
      (JVal.obj (ms.map fun m => (utf8 m.1, m.2.2))) := by
  intro f rest hf
  obtain ⟨g, rfl⟩ : ∃ g, f = g + 1 := ⟨f - 1, by omega⟩
  have htxt : 0x7B :: (joinComma (ms.map fun m => memberText m.1 m.2.1) ++ [0x7D]) ++ rest
      = 0x7B :: (joinComma (ms.map fun m => memberText m.1 m.2.1) ++ 0x7D :: rest) := by simp
  rw [htxt]
  have hst : StartsValue (joinComma (ms.map fun m => memberText m.1 m.2.1)) :=
    joinComma_starts _ (by simpa using hne) (by
      intro x hx
      obtain ⟨y, _, rfl⟩ := List.mem_map.1 hx
      exact ⟨0x22, _, rfl, by decide, by decide, by decide⟩)
  obtain ⟨b, t, hj, hb, _, hb2⟩ := hst
  have hlen : ms.length
      ≤ (joinComma (ms.map fun m => memberText m.1 m.2.1) ++ 0x7D :: rest).length := by
    have := length_le_joinComma (ms.map fun m => memberText m.1 m.2.1) (by
      intro x hx
      obtain ⟨y, _, rfl⟩ := List.mem_map.1 hx
      simp [memberText])
    simp only [List.length_map] at this
    simp only [List.length_append, List.length_cons]
    omega
  have hp := parseMembers_join (parseValue g) ms
    (joinComma (ms.map fun m => memberText m.1 m.2.1) ++ 0x7D :: rest).length rest hne
    (fun m hm => ⟨fun r => (h m hm).1 g r (by omega), (h m hm).2⟩) hlen
  rw [hj] at hp ⊢
  simp only [List.cons_append] at hp ⊢
  simp only [parseValue]
  rw [skipSpace_cons _ _ hb]
  simp only [hb2, ↓reduceIte, hp]
  simp

theorem reads_string (s : String) : Reads 1 (encodeString (utf8 s)) (JVal.str (utf8 s)) := by
  intro f rest hf
  obtain ⟨g, rfl⟩ : ∃ g, f = g + 1 := ⟨f - 1, by omega⟩
  exact parseValue_encodeString s g rest

theorem reads_null : Reads 1 [0x6E, 0x75, 0x6C, 0x6C] JVal.null := by
  intro f rest hf
  obtain ⟨g, rfl⟩ : ∃ g, f = g + 1 := ⟨f - 1, by omega⟩
  simp [parseValue, parseWord]

theorem Reads.mono {n m : Nat} {e : GoString} {v : JVal} (h : Reads n e v) (hnm : n ≤ m) :
    Reads m e v :=
  fun f rest hf => h f rest (by omega)

theorem starts_encodeString (s : GoString) : StartsValue (encodeString s) :=
  ⟨0x22, _, rfl, by decide, by decide, by decide⟩


/-! ## The model: reading back what `json.Marshal` wrote -/

theorem memberText_append (k : String) (v : GoString) : memberText k v = memberText k [] ++ v := by
  simp [memberText]

theorem starts_encodeSlice {α : Type} (enc : α → GoString) (s : Slice α) :
    StartsValue (encodeSlice enc s) := by
  cases s with
  | mk elems spare =>
    cases elems with
    | none => exact ⟨0x6E, _, rfl, by decide, by decide, by decide⟩
    | some xs => exact ⟨0x5B, _, rfl, by decide, by decide, by decide⟩

theorem reads_object2 (n : Nat) (k1 k2 : String) (t1 t2 : GoString) (v1 v2 : JVal)
    (h1 : Reads n t1 v1) (s1 : StartsValue t1) (h2 : Reads n t2 v2) (s2 : StartsValue t2) :
    Reads (n + 1)
      (0x7B :: (memberText k1 [] ++ t1 ++ 0x2C :: (memberText k2 [] ++ t2) ++ [0x7D]))
      (JVal.obj [(utf8 k1, v1), (utf8 k2, v2)]) := by
  have h := reads_object n [(k1, t1, v1), (k2, t2, v2)] (by simp) (by
    intro m hm
    simp only [List.mem_cons, List.mem_singleton, List.not_mem_nil, or_false] at hm
    rcases hm with rfl | rfl
    · exact ⟨h1, s1⟩
    · exact ⟨h2, s2⟩)
  simp only [List.map_cons, List.map_nil, joinComma] at h
  rw [memberText_append k1 t1, memberText_append k2 t2] at h
  exact h

theorem reads_object3 (n : Nat) (k1 k2 k3 : String) (t1 t2 t3 : GoString) (v1 v2 v3 : JVal)
    (h1 : Reads n t1 v1) (s1 : StartsValue t1) (h2 : Reads n t2 v2) (s2 : StartsValue t2)
    (h3 : Reads n t3 v3) (s3 : StartsValue t3) :
    Reads (n + 1)
      (0x7B :: (memberText k1 [] ++ t1 ++ 0x2C :: (memberText k2 [] ++ t2
        ++ 0x2C :: (memberText k3 [] ++ t3)) ++ [0x7D]))
      (JVal.obj [(utf8 k1, v1), (utf8 k2, v2), (utf8 k3, v3)]) := by
  have h := reads_object n [(k1, t1, v1), (k2, t2, v2), (k3, t3, v3)] (by simp) (by
    intro m hm
    simp only [List.mem_cons, List.mem_singleton, List.not_mem_nil, or_false] at hm
    rcases hm with rfl | rfl | rfl
    · exact ⟨h1, s1⟩
    · exact ⟨h2, s2⟩
    · exact ⟨h3, s3⟩)
  simp only [List.map_cons, List.map_nil, joinComma] at h
  rw [memberText_append k1 t1, memberText_append k2 t2, memberText_append k3 t3] at h
  exact h

theorem reads_strings (xs : List String) :
    Reads 2 (encodeSlice encodeString (Slice.ofList (xs.map utf8))) (jStrings xs) := by
  have h := reads_array 1 (xs.map fun s => (encodeString (utf8 s), JVal.str (utf8 s)))
    (by
      intro it hit
      obtain ⟨s, _, rfl⟩ := List.mem_map.1 hit
      exact ⟨reads_string s, starts_encodeString _⟩)
  simpa [encodeSlice, Slice.ofList, jStrings, List.map_map, Function.comp_def] using h

theorem reads_appended (xs : List String) :
    Reads 2 (encodeSlice encodeString (sliceOf (xs.map utf8))) (jAppended xs) := by
  cases xs with
  | nil => exact reads_null.mono (by omega)
  | cons x xs => exact reads_strings (x :: xs)

theorem reads_principal (svc ram : List String) :
    Reads 3 (encodePrincipal ⟨Slice.ofList (svc.map utf8), Slice.ofList (ram.map utf8)⟩)
      (JVal.obj [(utf8 "Service", jStrings svc), (utf8 "RAM", jStrings ram)]) := by
  have e1 : utf8 "\x7b\"Service\":" = 0x7B :: memberText "Service" [] := by decide
  have e2 : utf8 ",\"RAM\":" = 0x2C :: memberText "RAM" [] := by decide
  have e3 : utf8 "\x7d" = [0x7D] := by decide
  have h := reads_object2 2 "Service" "RAM" _ _ _ _ (reads_strings svc)
    (starts_encodeSlice _ _) (reads_strings ram) (starts_encodeSlice _ _)
  simp only [encodePrincipal, e1, e2, e3]
  simpa using h

theorem starts_encodePrincipal (p : Principal) : StartsValue (encodePrincipal p) :=
  ⟨0x7B, _, rfl, by decide, by decide, by decide⟩

theorem reads_roleStatement (effect action : String) (svc ram : List String) :
    Reads 4 (encodeRolePolicyStatement
        ⟨utf8 effect, utf8 action, ⟨Slice.ofList (svc.map utf8), Slice.ofList (ram.map utf8)⟩⟩)
      (JVal.obj [(utf8 "Effect", .str (utf8 effect)), (utf8 "Action", .str (utf8 action)),
        (utf8 "Principal",
          JVal.obj [(utf8 "Service", jStrings svc), (utf8 "RAM", jStrings ram)])]) := by
  have e1 : utf8 "\x7b\"Effect\":" = 0x7B :: memberText "Effect" [] := by decide
  have e2 : utf8 ",\"Action\":" = 0x2C :: memberText "Action" [] := by decide
  have e3 : utf8 ",\"Principal\":" = 0x2C :: memberText "Principal" [] := by decide
  have e4 : utf8 "\x7d" = [0x7D] := by decide
  have h := reads_object3 3 "Effect" "Action" "Principal" _ _ _ _ _ _
    ((reads_string effect).mono (by omega)) (starts_encodeString _)
    ((reads_string action).mono (by omega)) (starts_encodeString _)
    (reads_principal svc ram) (starts_encodePrincipal _)
  simp only [encodeRolePolicyStatement, e1, e2, e3, e4]
  simpa using h

theorem reads_rolePolicy (effect action version : String) (svc ram : List String) :
    Reads 6 (encodeRolePolicy
        ⟨Slice.ofList [⟨utf8 effect, utf8 action,
          ⟨Slice.ofList (svc.map utf8), Slice.ofList (ram.map utf8)⟩⟩], utf8 version⟩)
      (JVal.obj [(utf8 "Statement", .arr [JVal.obj [(utf8 "Effect", .str (utf8 effect)),
          (utf8 "Action", .str (utf8 action)),
          (utf8 "Principal",
            JVal.obj [(utf8 "Service", jStrings svc), (utf8 "RAM", jStrings ram)])]]),
        (utf8 "Version", .str (utf8 version))]) := by
  have e1 : utf8 "\x7b\"Statement\":" = 0x7B :: memberText "Statement" [] := by decide
  have e2 : utf8 ",\"Version\":" = 0x2C :: memberText "Version" [] := by decide
  have e3 : utf8 "\x7d" = [0x7D] := by decide
  have ha := reads_array 4 [(encodeRolePolicyStatement
        ⟨utf8 effect, utf8 action, ⟨Slice.ofList (svc.map utf8), Slice.ofList (ram.map utf8)⟩⟩,
      JVal.obj [(utf8 "Effect", .str (utf8 effect)), (utf8 "Action", .str (utf8 action)),
        (utf8 "Principal",
          JVal.obj [(utf8 "Service", jStrings svc), (utf8 "RAM", jStrings ram)])])] (by
    intro it hit
    rw [List.mem_singleton] at hit
    subst hit
    exact ⟨reads_roleStatement effect action svc ram,
      ⟨0x7B, _, rfl, by decide, by decide, by decide⟩⟩)
  have h := reads_object2 5 "Statement" "Version" _ _ _ _ ha
    ⟨0x5B, _, rfl, by decide, by decide, by decide⟩
    ((reads_string version).mono (by omega)) (starts_encodeString _)
  simp only [encodeRolePolicy, e1, e2, e3, encodeSlice, Slice.ofList]
  simpa [joinComma] using h


theorem nestingOfItems_le (b : Nat) :
    ∀ items : List JVal, (∀ x ∈ items, x.nesting ≤ b) → nestingOfItems items ≤ b := by
  intro items
  induction items with
  | nil => intro _; simp [nestingOfItems]
  | cons x xs ih =>
    intro h
    simp only [nestingOfItems, max_le_iff]
    exact ⟨h x (List.mem_cons_self _ _), ih fun y hy => h y (List.mem_cons_of_mem _ hy)⟩

theorem nesting_jStrings (xs : List String) : (jStrings xs).nesting ≤ 1 := by
  simp only [jStrings, JVal.nesting, add_le_iff_nonpos_left, nonpos_iff_eq_zero]
  apply Nat.le_zero.mp
  apply nestingOfItems_le
  intro x hx
  obtain ⟨s, _, rfl⟩ := List.mem_map.1 hx
  simp [JVal.nesting]

theorem nesting_jAppended (xs : List String) : (jAppended xs).nesting ≤ 1 := by
  unfold jAppended
  split_ifs
  · simp [JVal.nesting]
  · exact nesting_jStrings xs

theorem nesting_descriptor (d : Descriptor) : d.json.nesting ≤ 2 := by
  have ha := nesting_jAppended d.action
  have hr := nesting_jAppended d.resource
  unfold Descriptor.json
  generalize jAppended d.action = a at ha
  generalize jAppended d.resource = b at hr
  simp only [JVal.nesting, nestingOfMembers]
  omega

theorem parseJSON_of_reads (n : Nat) (e : GoString) (v : JVal) (h : Reads n e v)
    (hs : StartsValue e) (hl : n ≤ e.length) (hd : v.nesting ≤ maxNestingDepth) :
    parseJSON e = some v := by
  have h1 := h e.length [] hl
  rw [List.append_nil] at h1
  have h2 := hs.skip []
  rw [List.append_nil] at h2
  simp only [parseJSON, h2, h1]
  simp only [skipSpace, List.dropWhile_nil, ↓reduceIte, hd]

/-- The JSON value of a one-statement trust policy is nested four levels deep at
most. -/
theorem nesting_rolePolicy (effect action version : String) (svc ram : List String) :
    (JVal.obj [(utf8 "Statement", .arr [JVal.obj [(utf8 "Effect", .str (utf8 effect)),
          (utf8 "Action", .str (utf8 action)),
          (utf8 "Principal",
            JVal.obj [(utf8 "Service", jStrings svc), (utf8 "RAM", jStrings ram)])]]),
        (utf8 "Version", .str (utf8 version))]).nesting ≤ maxNestingDepth := by
  have hs := nesting_jStrings svc
  have hr := nesting_jStrings ram
  generalize jStrings svc = a at hs
  generalize jStrings ram = b at hr
  simp only [JVal.nesting, nestingOfMembers, nestingOfItems, maxNestingDepth]
  omega

/-- The JSON value of an assembled resource policy is nested four levels deep at
most. -/
theorem nesting_policy (descs : List Descriptor) (version : String) :
    (JVal.obj [(utf8 "Statement",
          if descs.isEmpty then JVal.null else JVal.arr (descs.map Descriptor.json)),
        (utf8 "Version", .str (utf8 version))]).nesting ≤ maxNestingDepth := by
  have hi : nestingOfItems (descs.map Descriptor.json) ≤ 2 := by
    apply nestingOfItems_le
    intro x hx
    obtain ⟨d, _, rfl⟩ := List.mem_map.1 hx
    exact nesting_descriptor d
  generalize descs.map Descriptor.json = items at hi
  split_ifs
  · simp [JVal.nesting, nestingOfMembers, maxNestingDepth]
  · simp only [JVal.nesting, nestingOfMembers, maxNestingDepth]
    omega

theorem decodeElems_strings :
    ∀ (xs : List String) (buf : List GoString),
      decodeElems decodeString [] (xs.map fun s => JVal.str (utf8 s)) buf
        = (xs.map utf8, buf.drop xs.length, none) := by
  intro xs
  induction xs with
  | nil => intro buf; rfl
  | cons x xs ih =>
    intro buf
    simp only [List.map_cons, decodeElems, ih, decodeString, firstError, List.length_cons]
    cases buf <;> simp

theorem decodeSlice_strings (xs : List String) :
    decodeSlice decodeString [] (jStrings xs) Slice.nil = (Slice.ofList (xs.map utf8), none) := by
  cases xs with
  | nil => rfl
  | cons x xs =>
    have h := decodeElems_strings (x :: xs) []
    simp only [List.map_cons] at h
    simp only [jStrings, List.map_cons, decodeSlice, Slice.nil, Slice.toList, Option.getD_none,
      List.append_nil, h]
    rfl

theorem decodeSlice_appended (xs : List String) :
    decodeSlice decodeString [] (jAppended xs) Slice.nil = (sliceOf (xs.map utf8), none) := by
  cases xs with
  | nil => rfl
  | cons x xs => exact decodeSlice_strings (x :: xs)

theorem decodePrincipal_strings (svc ram : List String) :
    decodePrincipal (JVal.obj [(utf8 "Service", jStrings svc), (utf8 "RAM", jStrings ram)])
        Principal.zero
      = (⟨Slice.ofList (svc.map utf8), Slice.ofList (ram.map utf8)⟩, none) := by
  have f1 : findField [utf8 "Service", utf8 "RAM"] (utf8 "Service") = some 0 := by decide
  have f2 : findField [utf8 "Service", utf8 "RAM"] (utf8 "RAM") = some 1 := by decide
  simp [decodePrincipal, decodeStruct, decodeMembers, f1, f2, Principal.zero,
    decodeSlice_strings, firstError]

theorem decodeRolePolicyStatement_strings (effect action : String) (svc ram : List String) :
    decodeRolePolicyStatement
        (JVal.obj [(utf8 "Effect", .str (utf8 effect)), (utf8 "Action", .str (utf8 action)),
          (utf8 "Principal",
            JVal.obj [(utf8 "Service", jStrings svc), (utf8 "RAM", jStrings ram)])])
        RolePolicyStatement.zero
      = (⟨utf8 effect, utf8 action,
          ⟨Slice.ofList (svc.map utf8), Slice.ofList (ram.map utf8)⟩⟩, none) := by
  have f1 : findField [utf8 "Effect", utf8 "Action", utf8 "Principal"] (utf8 "Effect")
      = some 0 := by decide
  have f2 : findField [utf8 "Effect", utf8 "Action", utf8 "Principal"] (utf8 "Action")
      = some 1 := by decide
  have f3 : findField [utf8 "Effect", utf8 "Action", utf8 "Principal"] (utf8 "Principal")
      = some 2 := by decide
  have hp := decodePrincipal_strings svc ram
  rw [Principal.zero] at hp
  simp [decodeRolePolicyStatement, decodeStruct, decodeMembers, f1, f2, f3,
    RolePolicyStatement.zero, Principal.zero, decodeString, hp, firstError]

theorem decodeRolePolicy_strings (effect action version : String) (svc ram : List String) :
    decodeRolePolicy
        (JVal.obj [(utf8 "Statement", .arr [JVal.obj [(utf8 "Effect", .str (utf8 effect)),
            (utf8 "Action", .str (utf8 action)),
            (utf8 "Principal",
              JVal.obj [(utf8 "Service", jStrings svc), (utf8 "RAM", jStrings ram)])]]),
          (utf8 "Version", .str (utf8 version))])
        RolePolicy.zero
      = (⟨Slice.ofList [⟨utf8 effect, utf8 action,
          ⟨Slice.ofList (svc.map utf8), Slice.ofList (ram.map utf8)⟩⟩], utf8 version⟩, none) := by
  have f1 : findField [utf8 "Statement", utf8 "Version"] (utf8 "Statement") = some 0 := by
    decide
  have f2 : findField [utf8 "Statement", utf8 "Version"] (utf8 "Version") = some 1 := by decide
  have hs := decodeRolePolicyStatement_strings effect action svc ram
  simp [decodeRolePolicy, decodeStruct, decodeMembers, f1, f2, RolePolicy.zero, decodeSlice,
    decodeElems, Slice.nil, Slice.toList, hs, decodeString, firstError, Slice.ofList]

theorem six_le_length_encodeRolePolicy (p : RolePolicy) : 6 ≤ (encodeRolePolicy p).length := by
  have e1 : (utf8 "\x7b\"Statement\":").length = 13 := by decide
  simp only [encodeRolePolicy, List.length_append, e1]
  omega

/-- `ParseRolePolicyDocument` reads back a one-statement trust policy of valid strings. -/
theorem parse_encodeRolePolicy (effect action version : String) (svc ram : List String) :
    ParseRolePolicyDocument (encodeRolePolicy
        ⟨Slice.ofList [⟨utf8 effect, utf8 action,
          ⟨Slice.ofList (svc.map utf8), Slice.ofList (ram.map utf8)⟩⟩], utf8 version⟩)
      = (⟨Slice.ofList [⟨utf8 effect, utf8 action,
          ⟨Slice.ofList (svc.map utf8), Slice.ofList (ram.map utf8)⟩⟩], utf8 version⟩, none) := by
  have hj := parseJSON_of_reads 6 _ _ (reads_rolePolicy effect action version svc ram)
    ⟨0x7B, _, rfl, by decide, by decide, by decide⟩ (six_le_length_encodeRolePolicy _)
    (nesting_rolePolicy effect action version svc ram)
  simp only [ParseRolePolicyDocument, unmarshalRolePolicy, hj,
    decodeRolePolicy_strings effect action version svc ram, Option.map_none']


theorem reads_policyStatement (d : Descriptor) :
    Reads 3 (encodePolicyStatement d.statement) d.json := by
  have e1 : utf8 "\x7b\"Effect\":" = 0x7B :: memberText "Effect" [] := by decide
  have e2 : utf8 ",\"Action\":" = 0x2C :: memberText "Action" [] := by decide
  have e3 : utf8 ",\"Resource\":" = 0x2C :: memberText "Resource" [] := by decide
  have e4 : utf8 "\x7d" = [0x7D] := by decide
  have h := reads_object3 2 "Effect" "Action" "Resource" _ _ _ _ _ _
    ((reads_string d.effect).mono (by omega)) (starts_encodeString _)
    (reads_appended d.action) (starts_encodeSlice _ _)
    (reads_appended d.resource) (starts_encodeSlice _ _)
  simp only [encodePolicyStatement, Descriptor.statement, e1, e2, e3, e4]
  simpa [Descriptor.json] using h

/-- The JSON value of the `Statement` member written for the descriptors `descs`. -/
theorem reads_statements (descs : List Descriptor) :
    Reads 4 (encodeSlice encodePolicyStatement (sliceOf (descs.map Descriptor.statement)))
      (if descs.isEmpty then JVal.null else JVal.arr (descs.map Descriptor.json)) := by
  cases descs with
  | nil => exact reads_null.mono (by omega)
  | cons d ds =>
    have h := reads_array 3 ((d :: ds).map fun x => (encodePolicyStatement x.statement, x.json))
      (by
        intro it hit
        obtain ⟨x, _, rfl⟩ := List.mem_map.1 hit
        exact ⟨reads_policyStatement x, ⟨0x7B, _, rfl, by decide, by decide, by decide⟩⟩)
    simpa [encodeSlice, sliceOf, Slice.ofList, List.map_map, Function.comp_def] using h

theorem reads_policy (descs : List Descriptor) (version : String) :
    Reads 5 (encodePolicy ⟨sliceOf (descs.map Descriptor.statement), utf8 version⟩)
      (JVal.obj [(utf8 "Statement",
          if descs.isEmpty then JVal.null else JVal.arr (descs.map Descriptor.json)),
        (utf8 "Version", .str (utf8 version))]) := by
  have e1 : utf8 "\x7b\"Statement\":" = 0x7B :: memberText "Statement" [] := by decide
  have e2 : utf8 ",\"Version\":" = 0x2C :: memberText "Version" [] := by decide
  have e3 : utf8 "\x7d" = [0x7D] := by decide
  have h := reads_object2 4 "Statement" "Version" _ _ _ _ (reads_statements descs)
    (starts_encodeSlice _ _) ((reads_string version).mono (by omega)) (starts_encodeString _)
  simp only [encodePolicy, e1, e2, e3]
  simpa using h

theorem decodePolicyStatement_json (d : Descriptor) :
    decodePolicyStatement d.json PolicyStatement.zero = (d.statement, none) := by
  have f1 : findField [utf8 "Effect", utf8 "Action", utf8 "Resource"] (utf8 "Effect")
      = some 0 := by decide
  have f2 : findField [utf8 "Effect", utf8 "Action", utf8 "Resource"] (utf8 "Action")
      = some 1 := by decide
  have f3 : findField [utf8 "Effect", utf8 "Action", utf8 "Resource"] (utf8 "Resource")
      = some 2 := by decide
  have ha := decodeSlice_appended d.action
  have hr := decodeSlice_appended d.resource
  rw [Slice.nil] at ha hr
  simp [decodePolicyStatement, decodeStruct, decodeMembers, f1, f2, f3, Descriptor.json,
    Descriptor.statement, PolicyStatement.zero, Slice.nil, decodeString, ha, hr, firstError]

theorem decodeElems_statements :
    ∀ descs : List Descriptor,
      decodeElems decodePolicyStatement PolicyStatement.zero (descs.map Descriptor.json) []
        = (descs.map Descriptor.statement, [], none) := by
  intro descs
  induction descs with
  | nil => rfl
  | cons d ds ih =>
    simp only [List.map_cons, decodeElems, List.headD_nil, List.tail_nil,
      decodePolicyStatement_json, ih, firstError]

theorem decodePolicy_json (descs : List Descriptor) (version : String) :
    decodePolicy
        (JVal.obj [(utf8 "Statement",
            if descs.isEmpty then JVal.null else JVal.arr (descs.map Descriptor.json)),
          (utf8 "Version", .str (utf8 version))])
        Policy.zero
      = (⟨sliceOf (descs.map Descriptor.statement), utf8 version⟩, none) := by
  have f1 : findField [utf8 "Statement", utf8 "Version"] (utf8 "Statement") = some 0 := by
    decide
  have f2 : findField [utf8 "Statement", utf8 "Version"] (utf8 "Version") = some 1 := by decide
  cases descs with
  | nil =>
    simp [decodePolicy, decodeStruct, decodeMembers, f1, f2, Policy.zero, decodeSlice,
      decodeString, firstError, sliceOf]
  | cons d ds =>
    have h := decodeElems_statements (d :: ds)
    simp only [List.map_cons] at h
    simp [decodePolicy, decodeStruct, decodeMembers, f1, f2, Policy.zero, decodeSlice,
      Slice.nil, Slice.toList, h, decodeString, firstError, sliceOf, Slice.ofList]

theorem five_le_length_encodePolicy (p : Policy) : 5 ≤ (encodePolicy p).length := by
  have e1 : (utf8 "\x7b\"Statement\":").length = 13 := by decide
  simp only [encodePolicy, List.length_append, e1]
  omega

/-- `ParsePolicyDocument` reads back the policy assembled from descriptors of valid
strings. -/
theorem parse_encodePolicy (descs : List Descriptor) (version : String) :
    ParsePolicyDocument (encodePolicy ⟨sliceOf (descs.map Descriptor.statement), utf8 version⟩)
      = (⟨sliceOf (descs.map Descriptor.statement), utf8 version⟩, none) := by
  have hj := parseJSON_of_reads 5 _ _ (reads_policy descs version)
    ⟨0x7B, _, rfl, by decide, by decide, by decide⟩ (five_le_length_encodePolicy _)
    (nesting_policy descs version)
  simp only [ParsePolicyDocument, unmarshalPolicy, hj, decodePolicy_json descs version,
    Option.map_none']

theorem assembleStatement_describes (d : Descriptor) (v : Value) (h : d.Describes v) :
    assembleStatement v = .ok d.statement := by
  obtain ⟨entries, rfl, he, ha, hr⟩ := h
  have ha2 := appendStrings_nil_strs (d.action.map utf8)
  have hr2 := appendStrings_nil_strs (d.resource.map utf8)
  rw [List.map_map] at ha2 hr2
  simp only [assembleStatement, assertMap, ha, hr, he, assertSetList, assertString]
  simp only [Function.comp_def] at ha2 hr2
  rw [ha2, hr2]
  rfl

theorem assembleStatements_describes :
    ∀ (document : List Value) (descs : List Descriptor) (acc : Slice PolicyStatement),
      List.Forall₂ (fun v d => Descriptor.Describes d v) document descs →
      assembleStatements acc document
        = .ok (descs.foldl (fun s d => s.append d.statement) acc) := by
  intro document descs acc h
  induction h generalizing acc with
  | nil => rfl
  | cons hd _ ih =>
    simp only [assembleStatements, assembleStatement_describes _ _ hd, List.foldl_cons]
    exact ih _

theorem foldl_append_ofList {α : Type} :
    ∀ (xs acc : List α),
      xs.foldl (fun s x => s.append x) (Slice.ofList acc) = Slice.ofList (acc ++ xs) := by
  intro xs
  induction xs with
  | nil => intro acc; simp
  | cons x xs ih =>
    intro acc
    simp only [List.foldl_cons]
    have : (Slice.ofList acc).append x = Slice.ofList (acc ++ [x]) := rfl
    rw [this, ih]
    simp

theorem foldl_append_nil {α : Type} (xs : List α) :
    xs.foldl (fun s x => s.append x) Slice.nil = sliceOf xs := by
  cases xs with
  | nil => rfl
  | cons x xs =>
    have : (Slice.nil : Slice α).append x = Slice.ofList [x] := rfl
    simp only [List.foldl_cons]
    rw [this, foldl_append_ofList]
    rfl

/-- The result of `AssemblePolicyDocument` on descriptors of valid strings. -/
theorem assemblePolicy_describes (document : List Value) (descs : List Descriptor)
    (version : GoString)
    (h : List.Forall₂ (fun v d => Descriptor.Describes d v) document descs) :
    AssemblePolicyDocument document version
      = .ok (encodePolicy ⟨sliceOf (descs.map Descriptor.statement), version⟩, none) := by
  have h1 := assembleStatements_describes document descs Slice.nil h
  have h2 := foldl_append_nil (descs.map Descriptor.statement)
  rw [List.foldl_map] at h2
  rw [h2] at h1
  simp only [AssemblePolicyDocument, h1, marshalPolicy]


/-! ## The round trips -/

theorem toList_sliceOf {α : Type} (xs : List α) : (sliceOf xs).toList = xs := by
  cases xs <;> rfl

/-- C1 (as amended). For all lists `ram` and `svc` of valid UTF-8 strings and every valid UTF-8
version `v`, `AssembleRolePolicyDocument` returns a text and the nil error, and
`ParseRolePolicyDocument` reads from that text, without error, the policy with version `v`
and the one statement with effect `Allow`, action `sts:AssumeRole`, `Principal.RAM = ram`
and `Principal.Service = svc`. -/
theorem AssembleRolePolicyDocument_roundtrip (ram svc : List String) (v : String) :
    ∃ text,
      AssembleRolePolicyDocument (ram.map fun s => .str (utf8 s))
          (svc.map fun s => .str (utf8 s)) (utf8 v) = .ok (text, none)
        ∧ ParseRolePolicyDocument text
          = ({ Statement := Slice.ofList
                [{ Effect := Allow
                   Action := utf8 "sts:AssumeRole"
                   Principal := { Service := Slice.ofList (svc.map utf8)
                                  RAM := Slice.ofList (ram.map utf8) } }]
               Version := utf8 v }, none) := by
  have h := assembleRole_strs (ram.map utf8) (svc.map utf8) (utf8 v)
  simp only [List.map_map, Function.comp_def] at h
  exact ⟨_, h, parse_encodeRolePolicy "Allow" "sts:AssumeRole" v svc ram⟩

/-- The example of the specification: `(["acct:123"], ["ecs.aliyuncs.com"], "1")`. -/
theorem AssembleRolePolicyDocument_roundtrip_witness :
    ∃ text,
      AssembleRolePolicyDocument [.str (utf8 "acct:123")] [.str (utf8 "ecs.aliyuncs.com")]
          (utf8 "1") = .ok (text, none)
        ∧ ParseRolePolicyDocument text
          = ({ Statement := Slice.ofList
                [{ Effect := Allow
                   Action := utf8 "sts:AssumeRole"
                   Principal := { Service := Slice.ofList [utf8 "ecs.aliyuncs.com"]
                                  RAM := Slice.ofList [utf8 "acct:123"] } }]
               Version := utf8 "1" }, none) :=
  AssembleRolePolicyDocument_roundtrip ["acct:123"] ["ecs.aliyuncs.com"] "1"

set_option maxRecDepth 100000 in
/-- C1 as stated fails: the RAM principal `"\xff"` is a string, it is written as `\ufffd`
and comes back as the three bytes of U+FFFD. -/
theorem AssembleRolePolicyDocument_roundtrip_invalid_utf8 :
    AssembleRolePolicyDocument [.str [0xFF]] [] (utf8 "1") = .ok (invalidRoleText, none)
      ∧ ParseRolePolicyDocument invalidRoleText
        = ({ Statement := Slice.ofList
              [{ Effect := Allow
                 Action := utf8 "sts:AssumeRole"
                 Principal := { Service := Slice.ofList []
                                RAM := Slice.ofList [[0xEF, 0xBF, 0xBD]] } }]
             Version := utf8 "1" }, none)
      ∧ (Slice.ofList [[0xEF, 0xBF, 0xBD]] : Slice GoString) ≠ Slice.ofList [[0xFF]] := by
  refine ⟨rfl, ?_, ?_⟩ <;> decide

/-- C2 (as amended). For every sequence of descriptors with valid UTF-8 strings and every valid
UTF-8 version `v`, `AssemblePolicyDocument` returns a text and the nil error, and
`ParsePolicyDocument` reads from that text, without error, the policy with version `v`
and one statement for each descriptor, in order, with its effect, actions and
resources. -/
theorem AssemblePolicyDocument_roundtrip (document : List Value) (descs : List Descriptor)
    (v : String) (h : List.Forall₂ (fun val d => Descriptor.Describes d val) document descs) :
    ∃ text policy,
      AssemblePolicyDocument document (utf8 v) = .ok (text, none)
        ∧ ParsePolicyDocument text = (policy, none)
        ∧ policy.Version = utf8 v
        ∧ policy.Statement.toList = descs.map Descriptor.statement := by
  refine ⟨_, _, assemblePolicy_describes document descs (utf8 v) h,
    parse_encodePolicy descs v, rfl, toList_sliceOf _⟩

/-- The example of the specification: one descriptor `{effect:"Allow",
action:{"oss:Get"}, resource:{"acme:*"}}` and version `"1"`. -/
theorem AssemblePolicyDocument_roundtrip_witness :
    ∃ text policy,
      AssemblePolicyDocument [exampleDescriptorValue] (utf8 "1") = .ok (text, none)
        ∧ ParsePolicyDocument text = (policy, none)
        ∧ policy.Version = utf8 "1"
        ∧ policy.Statement.toList = [exampleDescriptor].map Descriptor.statement :=
  AssemblePolicyDocument_roundtrip [exampleDescriptorValue] [exampleDescriptor] "1"
    (List.Forall₂.cons ⟨_, rfl, rfl, rfl, rfl⟩ List.Forall₂.nil)

set_option maxRecDepth 100000 in
/-- C2 as stated fails: the version `"\xff"` is a string and comes back as the three bytes
of U+FFFD. -/
theorem AssemblePolicyDocument_roundtrip_invalid_utf8 :
    AssemblePolicyDocument [] [0xFF]
        = .ok (utf8 "\x7b\"Statement\":null,\"Version\":\"\\ufffd\"\x7d", none)
      ∧ ParsePolicyDocument (utf8 "\x7b\"Statement\":null,\"Version\":\"\\ufffd\"\x7d")
        = ({ Statement := Slice.nil, Version := [0xEF, 0xBF, 0xBD] }, none)
      ∧ ([0xEF, 0xBF, 0xBD] : GoString) ≠ [0xFF] := by
  refine ⟨rfl, ?_, ?_⟩ <;> decide

/-- C3 (as amended). For descriptors with valid UTF-8 strings, the statements that
`ParsePolicyDocument` reads from the text of `AssemblePolicyDocument` have as `Action`
and as `Resource` exactly the sequences that `List()` returned for the descriptor's
sets: same order, repeated entries kept. -/
theorem AssemblePolicyDocument_keeps_order (document : List Value) (descs : List Descriptor)
    (v : String) (h : List.Forall₂ (fun val d => Descriptor.Describes d val) document descs) :
    ∃ text policy,
      AssemblePolicyDocument document (utf8 v) = .ok (text, none)
        ∧ ParsePolicyDocument text = (policy, none)
        ∧ policy.Statement.toList.map (fun st => st.Action.toList)
          = descs.map (fun d => d.action.map utf8)
        ∧ policy.Statement.toList.map (fun st => st.Resource.toList)
          = descs.map (fun d => d.resource.map utf8) := by
  refine ⟨_, _, assemblePolicy_describes document descs (utf8 v) h,
    parse_encodePolicy descs v, ?_, ?_⟩
  · simp only [toList_sliceOf, List.map_map]
    apply List.map_congr_left
    intro d _
    exact toList_sliceOf _
  · simp only [toList_sliceOf, List.map_map]
    apply List.map_congr_left
    intro d _
    exact toList_sliceOf _

/-- The actions `x`, `y`, `x` and the resources `b`, `a` come back in this order. -/
theorem AssemblePolicyDocument_keeps_order_witness :
    ∃ text policy,
      AssemblePolicyDocument [orderedDescriptorValue] (utf8 "1") = .ok (text, none)
        ∧ ParsePolicyDocument text = (policy, none)
        ∧ policy.Statement.toList.map (fun st => st.Action.toList)
          = [orderedDescriptor].map (fun d => d.action.map utf8)
        ∧ policy.Statement.toList.map (fun st => st.Resource.toList)
          = [orderedDescriptor].map (fun d => d.resource.map utf8) :=
  AssemblePolicyDocument_keeps_order [orderedDescriptorValue] [orderedDescriptor] "1"
    (List.Forall₂.cons ⟨_, rfl, rfl, rfl, rfl⟩ List.Forall₂.nil)

set_option maxRecDepth 100000 in
/-- C3 as stated fails: the action `"\xff"` is a string and comes back as the three bytes
of U+FFFD. -/
theorem AssemblePolicyDocument_keeps_order_invalid_utf8 :
    AssemblePolicyDocument [invalidActionValue] (utf8 "1")
        = .ok (utf8 ("\x7b\"Statement\":[\x7b\"Effect\":\"Allow\",\"Action\":[\"\\ufffd\"],"
            ++ "\"Resource\":[\"acme:*\"]\x7d],\"Version\":\"1\"\x7d"), none)
      ∧ ((ParsePolicyDocument (utf8 ("\x7b\"Statement\":[\x7b\"Effect\":\"Allow\","
            ++ "\"Action\":[\"\\ufffd\"],\"Resource\":[\"acme:*\"]\x7d],"
            ++ "\"Version\":\"1\"\x7d"))).1.Statement.toList.map fun st => st.Action.toList)
        = [[[0xEF, 0xBF, 0xBD]]]
      ∧ ([[0xEF, 0xBF, 0xBD]] : List GoString) ≠ [[0xFF]] := by
  refine ⟨rfl, ?_, ?_⟩ <;> decide

/-! ## `GetIntersection`: the accumulator, the order of the input, totality -/

theorem getIntersection_of_length_ne_one (dataMap : List GoMap) (acc : GoMap)
    (hlen : dataMap.length ≠ 1) :
    GetIntersection dataMap acc
      = match markAll dataMap acc with
        | .error e => .error e
        | .ok marked => .ok (collect Slice.nil marked.entries, marked) := by
  match dataMap, hlen with
  | [], _ => rfl
  | [_], h => exact absurd rfl h
  | _ :: _ :: _, _ => rfl

theorem mapIndex_mark (p : GoString → Bool) (k : GoString) :
    ∀ es : List (GoString × Value),
      mapIndex (es.map fun e => if p e.1 then e else (e.1, Value.nil)) k = mapIndex es k
        ∨ mapIndex (es.map fun e => if p e.1 then e else (e.1, Value.nil)) k = Value.nil := by
  intro es
  induction es with
  | nil => exact Or.inr rfl
  | cons e es ih =>
    by_cases hk : (e.1 == k) = true
    · by_cases hp : p e.1 = true
      · left
        simp [mapIndex, List.find?, hp, hk]
      · right
        have hp2 : p e.1 = false := by simpa using hp
        simp [mapIndex, List.find?, hp2, hk]
    · have hk2 : (e.1 == k) = false := by simpa using hk
      have h1 : mapIndex ((e :: es).map fun e => if p e.1 then e else (e.1, Value.nil)) k
          = mapIndex (es.map fun e => if p e.1 then e else (e.1, Value.nil)) k := by
        by_cases hp : p e.1 = true
        · simp [mapIndex, List.find?, hp, hk2]
        · have hp2 : p e.1 = false := by simpa using hp
          simp [mapIndex, List.find?, hp2, hk2]
      have h2 : mapIndex (e :: es) k = mapIndex es k := by
        simp [mapIndex, List.find?, hk2]
      rw [h1, h2]
      exact ih

theorem map_fst_keep (p : GoString → Bool) (es : List (GoString × Value)) :
    (es.map fun e => if p e.1 then e else (e.1, Value.nil)).map Prod.fst = es.map Prod.fst := by
  rw [List.map_map]
  apply List.map_congr_left
  intro a _
  by_cases h : p a.1 = true
  · simp [h]
  · have h2 : p a.1 = false := by simpa using h
    simp [h2]

theorem getIntersection_marked (dataMap : List GoMap) (es : List (GoString × Value))
    (hlen : dataMap.length ≠ 1) (hnd : (es.map Prod.fst).Nodup) :
    GetIntersection dataMap (some es)
      = .ok (collect Slice.nil
            (es.map fun e => if inAllNonEmpty dataMap e.1 then e else (e.1, Value.nil)),
          some (es.map fun e => if inAllNonEmpty dataMap e.1 then e else (e.1, Value.nil))) := by
  rw [getIntersection_of_length_ne_one dataMap _ hlen, markAll_some dataMap es hnd]
  rfl

theorem getIntersection_nil (dataMap : List GoMap) (hlen : dataMap.length ≠ 1) :
    GetIntersection dataMap none = .ok (Slice.nil, none) := by
  rw [getIntersection_of_length_ne_one dataMap _ hlen, markAll_none]
  rfl

theorem mark_mark (p : GoString → Bool) (es : List (GoString × Value)) :
    ((es.map fun e => if p e.1 then e else (e.1, Value.nil)).map
        fun e => if p e.1 then e else (e.1, Value.nil))
      = es.map fun e => if p e.1 then e else (e.1, Value.nil) := by
  rw [List.map_map]
  apply List.map_congr_left
  intro a _
  by_cases hp : p a.1 = true
  · simp [hp]
  · have hp2 : p a.1 = false := by simpa using hp
    simp [hp2]

theorem inAllNonEmpty_congr (d1 d2 : List GoMap) (h : ∀ m, m ∈ d1 ↔ m ∈ d2) :
    inAllNonEmpty d1 = inAllNonEmpty d2 := by
  funext k
  have e : ∀ d : List GoMap, inAllNonEmpty d k = true
      ↔ ∀ m ∈ d, (m.entries.isEmpty || m.has k) = true := by
    intro d
    simp only [inAllNonEmpty, List.all_eq_true]
  have h12 : inAllNonEmpty d1 k = true ↔ inAllNonEmpty d2 k = true := by
    rw [e, e]
    exact ⟨fun hh m hm => hh m ((h m).2 hm), fun hh m hm => hh m ((h m).1 hm)⟩
  cases h1 : inAllNonEmpty d1 k <;> cases h2 : inAllNonEmpty d2 k <;> simp_all

theorem markKeys_ok (v : GoMap) :
    ∀ (ks : List GoString) (es : List (GoString × Value)),
      ∃ es', markKeys v ks (some es) = .ok (some es') := by
  intro ks
  induction ks with
  | nil => intro es; exact ⟨es, rfl⟩
  | cons k ks ih =>
    intro es
    by_cases hv : v.has k = true
    · simp only [markKeys, hv, if_true]
      exact ih es
    · have hv2 : v.has k = false := by simpa using hv
      simp only [markKeys, hv2, Bool.false_eq_true, if_false, GoMap.assign]
      exact ih _

theorem markAll_ok :
    ∀ (dataMap : List GoMap) (acc : GoMap), ∃ marked, markAll dataMap acc = .ok marked := by
  intro dataMap
  induction dataMap with
  | nil => intro acc; exact ⟨acc, rfl⟩
  | cons v rest ih =>
    intro acc
    by_cases h : v.entries.length > 0
    · cases acc with
      | none =>
        rw [markAll_none]
        exact ⟨none, rfl⟩
      | some es =>
        obtain ⟨es', he⟩ := markKeys_ok v (GoMap.keys (some es)) es
        simp only [markAll, h, if_true, he]
        exact ih _
    · simp only [markAll, h, if_false]
      exact ih acc

theorem markAll_empty : ∀ dataMap : List GoMap, markAll dataMap (some []) = .ok (some []) := by
  intro dataMap
  induction dataMap with
  | nil => rfl
  | cons v rest ih =>
    by_cases h : v.entries.length > 0
    · simp [markAll, h, GoMap.keys, GoMap.entries, markKeys, ih]
    · simp [markAll, h, ih]

/-- C17. `GetIntersection` neither adds nor deletes a key of the caller's accumulator: the
keys after the call are the keys before it, every key holds its old value or nil, a
nil map stays nil; with exactly one input map the accumulator is left as it was. -/
theorem GetIntersection_keeps_keys (dataMap : List GoMap) (acc : GoMap) (hacc : acc.WF) :
    ∃ out acc', GetIntersection dataMap acc = .ok (out, acc')
      ∧ acc'.keys = acc.keys
      ∧ (∀ k, acc'.get k = acc.get k ∨ acc'.get k = Value.nil)
      ∧ (acc' = none ↔ acc = none)
      ∧ (dataMap.length = 1 → acc' = acc) := by
  by_cases hlen : dataMap.length = 1
  · match dataMap, hlen with
    | [m], _ =>
      exact ⟨_, acc, rfl, rfl, fun k => Or.inl rfl, Iff.rfl, fun _ => rfl⟩
  · cases acc with
    | none =>
      exact ⟨_, none, getIntersection_nil dataMap hlen, rfl, fun k => Or.inl rfl, Iff.rfl,
        fun h => absurd h hlen⟩
    | some es =>
      have hnd : (es.map Prod.fst).Nodup := hacc
      refine ⟨_, _, getIntersection_marked dataMap es hlen hnd, ?_, ?_, by simp,
        fun h => absurd h hlen⟩
      · exact map_fst_keep (inAllNonEmpty dataMap) es
      · intro k
        exact mapIndex_mark (inAllNonEmpty dataMap) k es

theorem GetIntersection_keeps_keys_witness :
    GoMap.WF (some [(utf8 "a", Value.other 1), (utf8 "b", Value.other 2)]) ∧
    ∃ out acc', GetIntersection
        [some [(utf8 "a", Value.other 1), (utf8 "b", Value.other 2)],
          some [(utf8 "a", Value.other 1)]]
        (some [(utf8 "a", Value.other 1), (utf8 "b", Value.other 2)]) = .ok (out, acc')
      ∧ acc'.keys = GoMap.keys (some [(utf8 "a", Value.other 1), (utf8 "b", Value.other 2)])
      ∧ (∀ k, acc'.get k
            = GoMap.get (some [(utf8 "a", Value.other 1), (utf8 "b", Value.other 2)]) k
          ∨ acc'.get k = Value.nil)
      ∧ (acc' = none ↔ some [(utf8 "a", Value.other 1), (utf8 "b", Value.other 2)] = none)
      ∧ ([some [(utf8 "a", Value.other 1), (utf8 "b", Value.other 2)],
            some [(utf8 "a", Value.other 1)]].length = 1 →
          acc' = some [(utf8 "a", Value.other 1), (utf8 "b", Value.other 2)]) :=
  ⟨by decide, GetIntersection_keeps_keys _ _ (by decide)⟩

/-- C18. When neither input list has exactly one map and the two lists hold the same maps
(in any order, any number of times each), `GetIntersection` returns the same values and
leaves the accumulator in the same state for both; and a second call with the same list
on the accumulator as the first call left it returns the same values again and leaves
the accumulator as it is. -/
theorem GetIntersection_order_insensitive (d1 d2 : List GoMap) (acc : GoMap)
    (h1 : d1.length ≠ 1) (h2 : d2.length ≠ 1) (hsame : ∀ m, m ∈ d1 ↔ m ∈ d2)
    (hacc : acc.WF) :
    ∃ out₁ out₂ out₃ acc',
      GetIntersection d1 acc = .ok (out₁, acc')
        ∧ GetIntersection d2 acc = .ok (out₂, acc')
        ∧ GetIntersection d1 acc' = .ok (out₃, acc')
        ∧ (out₂.toList : Multiset Value) = out₁.toList
        ∧ (out₃.toList : Multiset Value) = out₁.toList := by
  cases acc with
  | none =>
    exact ⟨_, _, _, none, getIntersection_nil d1 h1, getIntersection_nil d2 h2,
      getIntersection_nil d1 h1, rfl, rfl⟩
  | some es =>
    have hnd : (es.map Prod.fst).Nodup := hacc
    have hnd' : ((es.map fun e =>
        if inAllNonEmpty d1 e.1 then e else (e.1, Value.nil)).map Prod.fst).Nodup := by
      rw [map_fst_keep (inAllNonEmpty d1) es]
      exact hnd
    have e1 := getIntersection_marked d1 es h1 hnd
    have e2 := getIntersection_marked d2 es h2 hnd
    have e3 := getIntersection_marked d1 _ h1 hnd'
    rw [← inAllNonEmpty_congr d1 d2 hsame] at e2
    rw [mark_mark (inAllNonEmpty d1) es] at e3
    exact ⟨_, _, _, _, e1, e2, e3, rfl, rfl⟩

theorem GetIntersection_order_insensitive_witness :
    ∃ out₁ out₂ out₃ acc',
      GetIntersection
          [some [(utf8 "a", Value.other 1), (utf8 "b", Value.other 2)],
            some [(utf8 "a", Value.other 1)]]
          (some [(utf8 "a", Value.other 1), (utf8 "b", Value.other 2)]) = .ok (out₁, acc')
        ∧ GetIntersection
          [some [(utf8 "a", Value.other 1)],
            some [(utf8 "a", Value.other 1), (utf8 "b", Value.other 2)],
            some [(utf8 "a", Value.other 1)]]
          (some [(utf8 "a", Value.other 1), (utf8 "b", Value.other 2)]) = .ok (out₂, acc')
        ∧ GetIntersection
          [some [(utf8 "a", Value.other 1), (utf8 "b", Value.other 2)],
            some [(utf8 "a", Value.other 1)]] acc' = .ok (out₃, acc')
        ∧ (out₂.toList : Multiset Value) = out₁.toList
        ∧ (out₃.toList : Multiset Value) = out₁.toList :=
  GetIntersection_order_insensitive _ _ _ (by decide) (by decide)
    (by
      intro m
      simp only [List.mem_cons, List.mem_singleton, List.not_mem_nil, or_false]
      tauto)
    (by decide)

/-- C19. `GetIntersection` has no failing path: for every input list and every accumulator,
a nil one included, it returns a result. With a nil or empty accumulator and an input
list that does not have exactly one map the result is empty; with an empty input list
the result is the non-nil values of the accumulator. -/
theorem GetIntersection_total (dataMap : List GoMap) (acc : GoMap) :
    (∃ out acc', GetIntersection dataMap acc = .ok (out, acc'))
      ∧ (acc.entries = [] → dataMap.length ≠ 1 →
          ∃ out, GetIntersection dataMap acc = .ok (out, acc) ∧ out.toList = [])
      ∧ (∃ out, GetIntersection [] acc = .ok (out, acc)
          ∧ out.toList = nonNil (acc.entries.map Prod.snd)) := by
  refine ⟨?_, ?_, ?_⟩
  · by_cases hlen : dataMap.length = 1
    · match dataMap, hlen with
      | [m], _ => exact ⟨_, _, rfl⟩
    · rw [getIntersection_of_length_ne_one dataMap acc hlen]
      obtain ⟨marked, hm⟩ := markAll_ok dataMap acc
      rw [hm]
      exact ⟨_, _, rfl⟩
  · intro he hlen
    cases acc with
    | none => exact ⟨_, getIntersection_nil dataMap hlen, rfl⟩
    | some es =>
      have : es = [] := he
      subst this
      rw [getIntersection_of_length_ne_one dataMap _ hlen, markAll_empty]
      exact ⟨_, rfl, rfl⟩
  · exact ⟨_, rfl, collect_nil_toList _⟩

/-- With a nil accumulator and two input maps nothing is assigned and nothing
returned. -/
theorem GetIntersection_total_witness :
    ∃ out, GetIntersection
        [some [(utf8 "a", Value.other 1)], some [(utf8 "b", Value.other 2)]] none
          = .ok (out, none) ∧ out.toList = [] :=
  (GetIntersection_total
    [some [(utf8 "a", Value.other 1)], some [(utf8 "b", Value.other 2)]] none).2.1
    rfl (by decide)

/-! ## `JudgeRolePolicyPrincipal`: what the verdict depends on -/

theorem hasEcsService_eq (policy : RolePolicy) :
    hasEcsService policy
      = (policy.Statement.toList.map fun st => st.Principal.Service.toList).any
          fun l => l.any fun val => trimSpaces val == ecsService := by
  rw [hasEcsService]
  induction policy.Statement.toList with
  | nil => rfl
  | cons st sts ih => simp only [List.any_cons, List.map_cons, ih]

set_option maxRecDepth 100000 in
theorem parse_denyDocument : ParseRolePolicyDocument denyDocument = (denyPolicy, none) := by
  decide

set_option maxRecDepth 100000 in
theorem judge_padded_accepts :
    JudgeRolePolicyPrincipal (fetches paddedDocument) id (utf8 "role") = none := by
  decide

/-- C16. The verdict of `JudgeRolePolicyPrincipal` depends only on the `Principal.Service`
lists of the statements: two fetched documents that parse to policies with the same
lists, statement by statement, are both accepted or both rejected, whatever their
effects, actions, RAM principals and versions. -/
theorem JudgeRolePolicyPrincipal_depends_on_services {ε₁ ε₂ : Type}
    (getRole₁ : GoString → Except ε₁ GoString) (goSyntax₁ : ε₁ → GoString)
    (getRole₂ : GoString → Except ε₂ GoString) (goSyntax₂ : ε₂ → GoString)
    (role₁ role₂ document₁ document₂ : GoString) (policy₁ policy₂ : RolePolicy)
    (hfetch₁ : getRole₁ role₁ = .ok document₁)
    (hparse₁ : ParseRolePolicyDocument document₁ = (policy₁, none))
    (hfetch₂ : getRole₂ role₂ = .ok document₂)
    (hparse₂ : ParseRolePolicyDocument document₂ = (policy₂, none))
    (hsame : (policy₁.Statement.toList.map fun st => st.Principal.Service.toList)
      = policy₂.Statement.toList.map fun st => st.Principal.Service.toList) :
    JudgeRolePolicyPrincipal getRole₁ goSyntax₁ role₁ = none
      ↔ JudgeRolePolicyPrincipal getRole₂ goSyntax₂ role₂ = none := by
  rw [judge_of_parsed getRole₁ goSyntax₁ role₁ document₁ policy₁ hfetch₁ hparse₁,
    judge_of_parsed getRole₂ goSyntax₂ role₂ document₂ policy₂ hfetch₂ hparse₂,
    hasEcsService_eq policy₁, hasEcsService_eq policy₂, hsame]
  split_ifs <;> simp

/-- A document whose only statement that names the service has effect `Deny` and the
action `oss:Get` is accepted, as is the one with `Allow` and `sts:AssumeRole`. -/
theorem JudgeRolePolicyPrincipal_depends_on_services_witness :
    JudgeRolePolicyPrincipal (fetches denyDocument) id (utf8 "other role") = none :=
  (JudgeRolePolicyPrincipal_depends_on_services (fetches paddedDocument) id
    (fetches denyDocument) id (utf8 "role") (utf8 "other role") paddedDocument denyDocument
    paddedPolicy denyPolicy rfl parse_paddedDocument rfl parse_denyDocument (by decide)).1
    judge_padded_accepts

/-! ## `AssemblePolicyDocument`: malformed descriptors -/

theorem appendStrings_ok_of_all (vs : List Value) (h : vs.all Value.isStr = true) :
    ∃ s, appendStrings Slice.nil vs = .ok s := by
  obtain ⟨xs, rfl⟩ := exists_strs_of_all_isStr vs h
  exact ⟨_, appendStrings_nil_strs xs⟩

theorem assertSetList_of_isStringSet (v : Value) (h : v.isStringSet = true) :
    ∃ list, v = .set list ∧ list.all Value.isStr = true := by
  cases v with
  | set list => exact ⟨list, rfl, h⟩
  | nil => simp [Value.isStringSet] at h
  | str _ => simp [Value.isStringSet] at h
  | map _ => simp [Value.isStringSet] at h
  | other _ => simp [Value.isStringSet] at h

theorem isStr_eq_true (v : Value) (h : v.isStr = true) : ∃ s, v = .str s := by
  cases v with
  | str s => exact ⟨s, rfl⟩
  | nil => simp [Value.isStr] at h
  | set _ => simp [Value.isStr] at h
  | map _ => simp [Value.isStr] at h
  | other _ => simp [Value.isStr] at h

theorem assertString_error (v : Value) (h : v.isStr = false) :
    assertString v = .error .typeAssertion := by
  cases v with
  | str s => simp [Value.isStr] at h
  | nil => rfl
  | set _ => rfl
  | map _ => rfl
  | other _ => rfl

theorem assembleStatement_ok (v : Value) (h : v.isDescriptor = true) :
    ∃ st, assembleStatement v = .ok st := by
  cases v with
  | map entries =>
    simp only [Value.isDescriptor, Bool.and_eq_true] at h
    obtain ⟨⟨he, ha⟩, hr⟩ := h
    obtain ⟨e, he⟩ := isStr_eq_true _ he
    obtain ⟨al, ha, hal⟩ := assertSetList_of_isStringSet _ ha
    obtain ⟨rl, hr, hrl⟩ := assertSetList_of_isStringSet _ hr
    obtain ⟨as, has⟩ := appendStrings_ok_of_all al hal
    obtain ⟨rs, hrs⟩ := appendStrings_ok_of_all rl hrl
    refine ⟨{ Effect := e, Action := as, Resource := rs }, ?_⟩
    simp only [assembleStatement, assertMap, ha, hr, he, assertSetList, has, hrs,
      assertString]
  | nil => simp [Value.isDescriptor] at h
  | str _ => simp [Value.isDescriptor] at h
  | set _ => simp [Value.isDescriptor] at h
  | other _ => simp [Value.isDescriptor] at h

theorem assembleStatement_error (v : Value) (h : v.isDescriptor = false) :
    assembleStatement v = .error .typeAssertion := by
  cases v with
  | map entries =>
    simp only [assembleStatement, assertMap]
    by_cases ha : (mapIndex entries (utf8 "action")).isStringSet = true
    · obtain ⟨al, ha', hal⟩ := assertSetList_of_isStringSet _ ha
      obtain ⟨as, has⟩ := appendStrings_ok_of_all al hal
      simp only [ha', assertSetList, has]
      by_cases hr : (mapIndex entries (utf8 "resource")).isStringSet = true
      · obtain ⟨rl, hr', hrl⟩ := assertSetList_of_isStringSet _ hr
        obtain ⟨rs, hrs⟩ := appendStrings_ok_of_all rl hrl
        simp only [hr', assertSetList, hrs]
        have he : (mapIndex entries (utf8 "effect")).isStr = false := by
          simp only [Value.isDescriptor, ha, hr, Bool.and_true] at h
          exact h
        rw [assertString_error _ he]
      · have hr2 : (mapIndex entries (utf8 "resource")).isStringSet = false := by
          simpa using hr
        cases hv : mapIndex entries (utf8 "resource") with
        | set list =>
          rw [hv] at hr2
          simp only [assertSetList, appendStrings_error list _ hr2]
        | nil => rfl
        | str _ => rfl
        | map _ => rfl
        | other _ => rfl
    · have ha2 : (mapIndex entries (utf8 "action")).isStringSet = false := by simpa using ha
      cases hv : mapIndex entries (utf8 "action") with
      | set list =>
        rw [hv] at ha2
        simp only [assertSetList, appendStrings_error list _ ha2]
      | nil => rfl
      | str _ => rfl
      | map _ => rfl
      | other _ => rfl
  | nil => rfl
  | str _ => rfl
  | set _ => rfl
  | other _ => rfl

theorem assembleStatements_ok :
    ∀ (document : List Value) (acc : Slice PolicyStatement),
      (∀ v ∈ document, v.isDescriptor = true) →
      ∃ s, assembleStatements acc document = .ok s := by
  intro document
  induction document with
  | nil => intro acc _; exact ⟨acc, rfl⟩
  | cons v vs ih =>
    intro acc h
    obtain ⟨st, hst⟩ := assembleStatement_ok v (h v (List.mem_cons_self _ _))
    simp only [assembleStatements, hst]
    exact ih _ fun w hw => h w (List.mem_cons_of_mem _ hw)

theorem assembleStatements_error :
    ∀ (document : List Value) (acc : Slice PolicyStatement),
      (∃ v ∈ document, v.isDescriptor = false) →
      assembleStatements acc document = .error .typeAssertion := by
  intro document
  induction document with
  | nil => intro acc h; obtain ⟨v, hv, _⟩ := h; simp at hv
  | cons v vs ih =>
    intro acc h
    by_cases hd : v.isDescriptor = true
    · obtain ⟨st, hst⟩ := assembleStatement_ok v hd
      simp only [assembleStatements, hst]
      apply ih
      obtain ⟨w, hw, hwd⟩ := h
      rcases List.mem_cons.1 hw with rfl | hw'
      · rw [hd] at hwd; simp at hwd
      · exact ⟨w, hw', hwd⟩
    · have hd2 : v.isDescriptor = false := by simpa using hd
      simp only [assembleStatements, assembleStatement_error v hd2]

/-- C11. `AssemblePolicyDocument` is all or nothing: if some descriptor of the sequence, at
any position, is not a mapping with a string under `effect` and sets of strings under
`action` and `resource`, the call panics on a failed type assertion and returns no
text; if all descriptors are of that form it returns a text and the nil error. -/
theorem AssemblePolicyDocument_all_or_nothing (document : List Value) (version : GoString) :
    ((∃ v ∈ document, v.isDescriptor = false) →
        AssemblePolicyDocument document version = .error .typeAssertion)
      ∧ ((∀ v ∈ document, v.isDescriptor = true) →
        ∃ text, AssemblePolicyDocument document version = .ok (text, none)) := by
  constructor
  · intro h
    simp only [AssemblePolicyDocument, assembleStatements_error document _ h]
  · intro h
    obtain ⟨s, hs⟩ := assembleStatements_ok document Slice.nil h
    refine ⟨encodePolicy { Statement := s, Version := version }, ?_⟩
    simp only [AssemblePolicyDocument, hs, marshalPolicy]

/-- A descriptor without the key `resource` between two well-typed ones: no text. -/
theorem AssemblePolicyDocument_all_or_nothing_witness :
    AssemblePolicyDocument
        [exampleDescriptorValue,
          .map [(utf8 "effect", .str (utf8 "Allow")), (utf8 "action", .set [])],
          exampleDescriptorValue] (utf8 "1")
      = .error .typeAssertion :=
  (AssemblePolicyDocument_all_or_nothing _ _).1
    ⟨.map [(utf8 "effect", .str (utf8 "Allow")), (utf8 "action", .set [])], by simp, by decide⟩

/-! ## The field names and their order in the text -/

theorem parseJSON_encodeRolePolicy (effect action version : String) (svc ram : List String) :
    parseJSON (encodeRolePolicy
        ⟨Slice.ofList [⟨utf8 effect, utf8 action,
          ⟨Slice.ofList (svc.map utf8), Slice.ofList (ram.map utf8)⟩⟩], utf8 version⟩)
      = some (JVal.obj [(utf8 "Statement", .arr [JVal.obj [(utf8 "Effect", .str (utf8 effect)),
          (utf8 "Action", .str (utf8 action)),
          (utf8 "Principal",
            JVal.obj [(utf8 "Service", jStrings svc), (utf8 "RAM", jStrings ram)])]]),
        (utf8 "Version", .str (utf8 version))]) :=
  parseJSON_of_reads 6 _ _ (reads_rolePolicy effect action version svc ram)
    ⟨0x7B, _, rfl, by decide, by decide, by decide⟩ (six_le_length_encodeRolePolicy _)
    (nesting_rolePolicy effect action version svc ram)

theorem parseJSON_encodePolicy (descs : List Descriptor) (version : String) :
    parseJSON (encodePolicy ⟨sliceOf (descs.map Descriptor.statement), utf8 version⟩)
      = some (JVal.obj [(utf8 "Statement",
          if descs.isEmpty then JVal.null else JVal.arr (descs.map Descriptor.json)),
        (utf8 "Version", .str (utf8 version))]) :=
  parseJSON_of_reads 5 _ _ (reads_policy descs version)
    ⟨0x7B, _, rfl, by decide, by decide, by decide⟩ (five_le_length_encodePolicy _)
    (nesting_policy descs version)

set_option maxRecDepth 100000 in
/-- C12. The assemblers write the field names of the model, capitalised as declared and in
declaration order. For strings of any bytes the text of `AssembleRolePolicyDocument` is
`{"Statement":[{"Effect":"Allow","Action":"sts:AssumeRole","Principal":{"Service":`, the
services, `,"RAM":`, the RAM principals, `}}],"Version":`, the version, `}`, and the text
of `AssemblePolicyDocument` is `{"Statement":`, the statements (each `{"Effect":`,
`,"Action":`, `,"Resource":`, `}` around its values), `,"Version":`, the version, `}`. Read
as JSON (for valid UTF-8), the objects have the members `Statement`, `Version`; `Effect`,
`Action`, `Principal`; `Service`, `RAM`; and `Effect`, `Action`, `Resource`, in this
order. The example of the specification gives exactly the text stated there. -/
theorem Assemble_field_names :
    (∀ (ram svc : List GoString) (v : GoString),
        AssembleRolePolicyDocument (ram.map Value.str) (svc.map Value.str) v
          = .ok (utf8 ("\x7b\"Statement\":[\x7b\"Effect\":\"Allow\","
                ++ "\"Action\":\"sts:AssumeRole\",\"Principal\":\x7b\"Service\":")
              ++ encodeSlice encodeString (Slice.ofList svc) ++ utf8 ",\"RAM\":"
              ++ encodeSlice encodeString (Slice.ofList ram) ++ utf8 "\x7d\x7d],\"Version\":"
              ++ encodeString v ++ utf8 "\x7d", none))
      ∧ (∀ (document : List Value) (version text : GoString),
          AssemblePolicyDocument document version = .ok (text, none) →
          ∃ statements : Slice PolicyStatement,
            text = utf8 "\x7b\"Statement\":"
              ++ encodeSlice (fun st => utf8 "\x7b\"Effect\":" ++ encodeString st.Effect
                  ++ utf8 ",\"Action\":" ++ encodeSlice encodeString st.Action
                  ++ utf8 ",\"Resource\":" ++ encodeSlice encodeString st.Resource
                  ++ utf8 "\x7d") statements
              ++ utf8 ",\"Version\":" ++ encodeString version ++ utf8 "\x7d")
      ∧ (∀ (ram svc : List String) (v : String),
          ∃ text, AssembleRolePolicyDocument (ram.map fun s => .str (utf8 s))
              (svc.map fun s => .str (utf8 s)) (utf8 v) = .ok (text, none)
            ∧ parseJSON text = some (JVal.obj
                [(utf8 "Statement", .arr [JVal.obj [(utf8 "Effect", .str (utf8 "Allow")),
                    (utf8 "Action", .str (utf8 "sts:AssumeRole")),
                    (utf8 "Principal",
                      JVal.obj [(utf8 "Service", jStrings svc), (utf8 "RAM", jStrings ram)])]]),
                  (utf8 "Version", .str (utf8 v))]))
      ∧ (∀ (document : List Value) (descs : List Descriptor) (v : String),
          List.Forall₂ (fun val d => Descriptor.Describes d val) document descs →
          ∃ text, AssemblePolicyDocument document (utf8 v) = .ok (text, none)
            ∧ parseJSON text = some (JVal.obj
                [(utf8 "Statement",
                    if descs.isEmpty then JVal.null else JVal.arr (descs.map fun d =>
                      JVal.obj [(utf8 "Effect", .str (utf8 d.effect)),
                        (utf8 "Action", jAppended d.action),
                        (utf8 "Resource", jAppended d.resource)])),
                  (utf8 "Version", .str (utf8 v))]))
      ∧ AssembleRolePolicyDocument [.str (utf8 "acct:123")] [.str (utf8 "ecs.aliyuncs.com")]
          (utf8 "1")
        = .ok (utf8 ("\x7b\"Statement\":[\x7b\"Effect\":\"Allow\","
            ++ "\"Action\":\"sts:AssumeRole\",\"Principal\":\x7b\"Service\":"
            ++ "[\"ecs.aliyuncs.com\"],\"RAM\":[\"acct:123\"]\x7d\x7d],\"Version\":\"1\"\x7d"),
          none) := by
  refine ⟨?_, ?_, ?_, ?_, rfl⟩
  · intro ram svc v
    rw [assembleRole_strs]
    have e : utf8 ("\x7b\"Statement\":[\x7b\"Effect\":\"Allow\","
          ++ "\"Action\":\"sts:AssumeRole\",\"Principal\":\x7b\"Service\":")
        = utf8 "\x7b\"Statement\":" ++ 0x5B :: (utf8 "\x7b\"Effect\":" ++ encodeString Allow
          ++ utf8 ",\"Action\":" ++ encodeString (utf8 "sts:AssumeRole")
          ++ utf8 ",\"Principal\":" ++ utf8 "\x7b\"Service\":") := by decide
    have e2 : utf8 "\x7d\x7d],\"Version\":" = utf8 "\x7d" ++ utf8 "\x7d" ++ 0x5D
        :: utf8 ",\"Version\":" := by decide
    rw [e, e2]
    simp [encodeRolePolicy, encodeSlice, Slice.ofList, joinComma, encodeRolePolicyStatement,
      encodePrincipal]
  · intro document version text h
    simp only [AssemblePolicyDocument] at h
    cases hs : assembleStatements Slice.nil document with
    | error e => simp [hs] at h
    | ok statements =>
      simp only [hs, marshalPolicy, Except.ok.injEq, Prod.mk.injEq, and_true] at h
      exact ⟨statements, h ▸ rfl⟩
  · intro ram svc v
    have h := assembleRole_strs (ram.map utf8) (svc.map utf8) (utf8 v)
    simp only [List.map_map, Function.comp_def] at h
    exact ⟨_, h, parseJSON_encodeRolePolicy "Allow" "sts:AssumeRole" v svc ram⟩
  · intro document descs v h
    exact ⟨_, assemblePolicy_describes document descs (utf8 v) h, parseJSON_encodePolicy descs v⟩

/-- The example of the specification, read back as JSON: the members in the order
stated. -/
theorem Assemble_field_names_witness :
    ∃ text, AssembleRolePolicyDocument [.str (utf8 "acct:123")]
        [.str (utf8 "ecs.aliyuncs.com")] (utf8 "1") = .ok (text, none)
      ∧ parseJSON text = some (JVal.obj
          [(utf8 "Statement", .arr [JVal.obj [(utf8 "Effect", .str (utf8 "Allow")),
              (utf8 "Action", .str (utf8 "sts:AssumeRole")),
              (utf8 "Principal",
                JVal.obj [(utf8 "Service", jStrings ["ecs.aliyuncs.com"]),
                  (utf8 "RAM", jStrings ["acct:123"])])]]),
            (utf8 "Version", .str (utf8 "1"))]) :=
  Assemble_field_names.2.2.1 ["acct:123"] ["ecs.aliyuncs.com"] "1"

/-! ## Empty collections and effects -/

set_option maxRecDepth 100000 in
/-- C14 at the inputs where it fails. For the empty descriptor sequence
`AssemblePolicyDocument` writes `"Statement":null`, and for a descriptor with empty sets
it writes `"Action":null` and `"Resource":null`: the slices are declared with `var` and
stay nil when nothing is appended. `AssembleRolePolicyDocument` starts from `[]string{}`
and writes `[]` for empty collections. -/
theorem AssemblePolicyDocument_writes_null :
    AssemblePolicyDocument [] (utf8 "1")
        = .ok (utf8 "\x7b\"Statement\":null,\"Version\":\"1\"\x7d", none)
      ∧ parseJSON (utf8 "\x7b\"Statement\":null,\"Version\":\"1\"\x7d")
        = some (JVal.obj [(utf8 "Statement", .null), (utf8 "Version", .str (utf8 "1"))])
      ∧ AssemblePolicyDocument
          [.map [(utf8 "effect", .str (utf8 "Allow")), (utf8 "action", .set []),
            (utf8 "resource", .set [])]] (utf8 "1")
        = .ok (utf8 ("\x7b\"Statement\":[\x7b\"Effect\":\"Allow\",\"Action\":null,"
            ++ "\"Resource\":null\x7d],\"Version\":\"1\"\x7d"), none)
      ∧ parseJSON (utf8 ("\x7b\"Statement\":[\x7b\"Effect\":\"Allow\",\"Action\":null,"
            ++ "\"Resource\":null\x7d],\"Version\":\"1\"\x7d"))
        = some (JVal.obj [(utf8 "Statement", .arr [JVal.obj [(utf8 "Effect", .str (utf8 "Allow")),
            (utf8 "Action", .null), (utf8 "Resource", .null)]]),
          (utf8 "Version", .str (utf8 "1"))])
      ∧ AssembleRolePolicyDocument [] [] (utf8 "1")
        = .ok (utf8 ("\x7b\"Statement\":[\x7b\"Effect\":\"Allow\","
            ++ "\"Action\":\"sts:AssumeRole\",\"Principal\":\x7b\"Service\":[],\"RAM\":[]"
            ++ "\x7d\x7d],\"Version\":\"1\"\x7d"), none) :=
  ⟨rfl, rfl, rfl, rfl, rfl⟩

theorem assembleRole_emits_allow (ramUser service : List Value) (version text : GoString)
    (h : AssembleRolePolicyDocument ramUser service version = .ok (text, none)) :
    ∃ policy : RolePolicy, text = encodeRolePolicy policy
      ∧ ∀ st ∈ policy.Statement.toList, st.Effect = Allow := by
  simp only [AssembleRolePolicyDocument] at h
  cases hs : appendStrings (Slice.ofList []) service with
  | error e => simp [hs] at h
  | ok services =>
    cases hu : appendStrings (Slice.ofList []) ramUser with
    | error e => simp [hs, hu] at h
    | ok users =>
      simp only [hs, hu, marshalRolePolicy, Except.ok.injEq, Prod.mk.injEq, and_true] at h
      refine ⟨_, h.symm, ?_⟩
      intro st hst
      simp only [Slice.ofList, Slice.toList, Option.getD_some, List.mem_singleton] at hst
      rw [hst]

set_option maxRecDepth 100000 in
/-- C15 as stated fails: both parsers return, without error, a statement whose effect is
`Maybe`, and `AssemblePolicyDocument` writes that effect for a descriptor that holds
it. -/
theorem Effect_other_than_Allow_Deny :
    ParsePolicyDocument (utf8 "\x7b\"Statement\":[\x7b\"Effect\":\"Maybe\"\x7d]\x7d")
        = ({ Statement := Slice.ofList
              [{ Effect := utf8 "Maybe", Action := Slice.nil, Resource := Slice.nil }]
             Version := [] }, none)
      ∧ ParseRolePolicyDocument (utf8 "\x7b\"Statement\":[\x7b\"Effect\":\"Maybe\"\x7d]\x7d")
        = ({ Statement := Slice.ofList
              [{ Effect := utf8 "Maybe", Action := [], Principal := Principal.zero }]
             Version := [] }, none)
      ∧ AssemblePolicyDocument
          [.map [(utf8 "effect", .str (utf8 "Maybe")), (utf8 "action", .set []),
            (utf8 "resource", .set [])]] (utf8 "1")
        = .ok (utf8 ("\x7b\"Statement\":[\x7b\"Effect\":\"Maybe\",\"Action\":null,"
            ++ "\"Resource\":null\x7d],\"Version\":\"1\"\x7d"), none)
      ∧ utf8 "Maybe" ≠ Allow ∧ utf8 "Maybe" ≠ Deny := by
  refine ⟨?_, ?_, rfl, ?_, ?_⟩ <;> decide

/-! ## Parsing documents that leave members out -/

theorem findFieldFrom_lt (key : GoString) :
    ∀ (names : List GoString) (start : Nat) (f : Option Nat) (i : Nat),
      findFieldFrom key start names f = some i →
      f = some i ∨ (start ≤ i ∧ i < start + names.length) := by
  intro names
  induction names with
  | nil => intro start f i h; exact Or.inl h
  | cons name names ih =>
    intro start f i h
    simp only [findFieldFrom] at h
    split_ifs at h with h1 h2
    · simp only [Option.some.injEq] at h
      right
      simp only [List.length_cons]
      omega
    · rcases ih (start + 1) (some start) i h with h3 | h3
      · simp only [Option.some.injEq] at h3
        right
        simp only [List.length_cons]
        omega
      · right
        simp only [List.length_cons]
        omega
    · rcases ih (start + 1) f i h with h3 | h3
      · exact Or.inl h3
      · right
        simp only [List.length_cons]
        omega

theorem findField_lt (names : List GoString) (key : GoString) (i : Nat)
    (h : findField names key = some i) : i < names.length := by
  rcases findFieldFrom_lt key names 0 none i h with h1 | h1
  · simp at h1
  · omega

theorem selected_lt (names : List GoString) (members : List (GoString × JVal)) :
    ∀ p ∈ selected names members, p.1 < names.length := by
  intro p hp
  simp only [selected, List.mem_filterMap] at hp
  obtain ⟨m, _, hm⟩ := hp
  cases hf : findField names m.1 with
  | none => simp [hf] at hm
  | some i =>
    simp only [hf, Option.map_some', Option.some.injEq] at hm
    rw [← hm]
    exact findField_lt names m.1 i hf

/-- The loop of `decodeState.object` stores the selected members one after the other. -/
theorem decodeMembers_fold {σ : Type} (names : List GoString)
    (store : Nat → JVal → σ → σ × Option JsonError) :
    ∀ (members : List (GoString × JVal)) (cur : σ),
      (decodeMembers names store members cur).1
        = (selected names members).foldl (fun c p => (store p.1 p.2 c).1) cur := by
  intro members
  induction members with
  | nil => intro cur; rfl
  | cons m ms ih =>
    intro cur
    obtain ⟨key, v⟩ := m
    cases hf : findField names key with
    | none =>
      simp only [decodeMembers, hf, selected, List.filterMap_cons, Option.map_none']
      exact ih cur
    | some i =>
      simp only [decodeMembers, hf, selected, List.filterMap_cons, Option.map_some',
        List.foldl_cons]
      exact ih _

theorem decodeElems_fresh {α : Type} (dec : JVal → α → α × Option JsonError) (zero : α) :
    ∀ items : List JVal,
      (decodeElems dec zero items []).1 = items.map (fun x => (dec x zero).1)
        ∧ (decodeElems dec zero items []).2.1 = [] := by
  intro items
  induction items with
  | nil => exact ⟨rfl, rfl⟩
  | cons x xs ih =>
    simp only [decodeElems, List.headD_nil, List.tail_nil, List.map_cons, ih.1, ih.2,
      and_self]

/-- Storing a JSON value into a nil slice gives the slice the value stands for. -/
theorem decodeSlice_fresh {α : Type} (dec : JVal → α → α × Option JsonError) (zero : α)
    (v : JVal) :
    (decodeSlice dec zero v Slice.nil).1 = sliceFrom (fun x => (dec x zero).1) (some v) := by
  cases v with
  | arr items =>
    cases items with
    | nil => rfl
    | cons x xs =>
      have h := decodeElems_fresh dec zero (x :: xs)
      simp only [decodeSlice, Slice.nil, Slice.toList, Option.getD_none, List.append_nil,
        sliceFrom, Slice.ofList, h.1, h.2]
  | null => rfl
  | bool _ => rfl
  | num => rfl
  | str _ => rfl
  | obj _ => rfl

theorem decodeString_fresh (v : JVal) : (decodeString v []).1 = stringOf (some v) := by
  cases v <;> rfl

theorem decodeStrings_fresh (v : JVal) :
    (decodeSlice decodeString [] v Slice.nil).1
      = sliceFrom (fun x => stringOf (some x)) (some v) := by
  rw [decodeSlice_fresh]
  congr 1
  funext x
  exact decodeString_fresh x

theorem find_fst_none (pairs : List (Nat × JVal)) (i : Nat)
    (h : i ∉ pairs.map Prod.fst) : (pairs.find? fun p => p.1 == i) = none := by
  rw [List.find?_eq_none]
  intro p hp hpi
  apply h
  simp only [beq_iff_eq] at hpi
  rw [← hpi]
  exact List.mem_map_of_mem Prod.fst hp

/-- Each field of a `Principal` is stored from the member that selects it and is left
alone when no member does. -/
theorem decodePrincipal_obj (members : List (GoString × JVal)) (cur : Principal)
    (h : namesOnce [utf8 "Service", utf8 "RAM"] (.obj members) = true) :
    (decodePrincipal (.obj members) cur).1
      = { Service := (fieldValue [utf8 "Service", utf8 "RAM"] 0 (.obj members)).elim
            cur.Service fun v => (decodeSlice decodeString [] v cur.Service).1
          RAM := (fieldValue [utf8 "Service", utf8 "RAM"] 1 (.obj members)).elim
            cur.RAM fun v => (decodeSlice decodeString [] v cur.RAM).1 } := by
  have hlt := selected_lt [utf8 "Service", utf8 "RAM"] members
  have hnd : ((selected [utf8 "Service", utf8 "RAM"] members).map Prod.fst).Nodup := by
    simpa [namesOnce] using h
  simp only [decodePrincipal, decodeStruct, decodeMembers_fold, fieldValue]
  generalize selected [utf8 "Service", utf8 "RAM"] members = pairs at hlt hnd
  clear h
  induction pairs generalizing cur with
  | nil => rfl
  | cons p rest ih =>
    obtain ⟨i, v⟩ := p
    simp only [List.map_cons, List.nodup_cons] at hnd
    have hi : i < 2 := hlt (i, v) (List.mem_cons_self _ _)
    have ih2 := fun c => ih c (fun q hq => hlt q (List.mem_cons_of_mem _ hq)) hnd.2
    have hnone := find_fst_none rest i hnd.1
    have h2 : i = 0 ∨ i = 1 := by omega
    rcases h2 with rfl | rfl
    · simp [List.foldl_cons, ih2, hnone, List.find?_cons]
    · simp [List.foldl_cons, ih2, hnone, List.find?_cons]

theorem decodeRolePolicyStatement_obj (members : List (GoString × JVal))
    (cur : RolePolicyStatement)
    (h : namesOnce [utf8 "Effect", utf8 "Action", utf8 "Principal"] (.obj members) = true) :
    (decodeRolePolicyStatement (.obj members) cur).1
      = { Effect :=
            (fieldValue [utf8 "Effect", utf8 "Action", utf8 "Principal"] 0 (.obj members)).elim
              cur.Effect fun v => (decodeString v cur.Effect).1
          Action :=
            (fieldValue [utf8 "Effect", utf8 "Action", utf8 "Principal"] 1 (.obj members)).elim
              cur.Action fun v => (decodeString v cur.Action).1
          Principal :=
            (fieldValue [utf8 "Effect", utf8 "Action", utf8 "Principal"] 2 (.obj members)).elim
              cur.Principal fun v => (decodePrincipal v cur.Principal).1 } := by
  have hlt := selected_lt [utf8 "Effect", utf8 "Action", utf8 "Principal"] members
  have hnd : ((selected [utf8 "Effect", utf8 "Action", utf8 "Principal"] members).map
      Prod.fst).Nodup := by
    simpa [namesOnce] using h
  simp only [decodeRolePolicyStatement, decodeStruct, decodeMembers_fold, fieldValue]
  generalize selected [utf8 "Effect", utf8 "Action", utf8 "Principal"] members = pairs
    at hlt hnd
  clear h
  induction pairs generalizing cur with
  | nil => rfl
  | cons p rest ih =>
    obtain ⟨i, v⟩ := p
    simp only [List.map_cons, List.nodup_cons] at hnd
    have hi : i < 3 := hlt (i, v) (List.mem_cons_self _ _)
    have ih2 := fun c => ih c (fun q hq => hlt q (List.mem_cons_of_mem _ hq)) hnd.2
    have hnone := find_fst_none rest i hnd.1
    have h2 : i = 0 ∨ i = 1 ∨ i = 2 := by omega
    rcases h2 with rfl | rfl | rfl
    · simp [List.foldl_cons, ih2, hnone, List.find?_cons]
    · simp [List.foldl_cons, ih2, hnone, List.find?_cons]
    · simp [List.foldl_cons, ih2, hnone, List.find?_cons]

theorem decodeRolePolicy_obj (members : List (GoString × JVal)) (cur : RolePolicy)
    (h : namesOnce [utf8 "Statement", utf8 "Version"] (.obj members) = true) :
    (decodeRolePolicy (.obj members) cur).1
      = { Statement := (fieldValue [utf8 "Statement", utf8 "Version"] 0 (.obj members)).elim
            cur.Statement fun v =>
              (decodeSlice decodeRolePolicyStatement RolePolicyStatement.zero v
                cur.Statement).1
          Version := (fieldValue [utf8 "Statement", utf8 "Version"] 1 (.obj members)).elim
            cur.Version fun v => (decodeString v cur.Version).1 } := by
  have hlt := selected_lt [utf8 "Statement", utf8 "Version"] members
  have hnd : ((selected [utf8 "Statement", utf8 "Version"] members).map Prod.fst).Nodup := by
    simpa [namesOnce] using h
  simp only [decodeRolePolicy, decodeStruct, decodeMembers_fold, fieldValue]
  generalize selected [utf8 "Statement", utf8 "Version"] members = pairs at hlt hnd
  clear h
  induction pairs generalizing cur with
  | nil => rfl
  | cons p rest ih =>
    obtain ⟨i, v⟩ := p
    simp only [List.map_cons, List.nodup_cons] at hnd
    have hi : i < 2 := hlt (i, v) (List.mem_cons_self _ _)
    have ih2 := fun c => ih c (fun q hq => hlt q (List.mem_cons_of_mem _ hq)) hnd.2
    have hnone := find_fst_none rest i hnd.1
    have h2 : i = 0 ∨ i = 1 := by omega
    rcases h2 with rfl | rfl
    · simp [List.foldl_cons, ih2, hnone, List.find?_cons]
    · simp [List.foldl_cons, ih2, hnone, List.find?_cons]

theorem decodePolicyStatement_obj (members : List (GoString × JVal)) (cur : PolicyStatement)
    (h : namesOnce [utf8 "Effect", utf8 "Action", utf8 "Resource"] (.obj members) = true) :
    (decodePolicyStatement (.obj members) cur).1
      = { Effect :=
            (fieldValue [utf8 "Effect", utf8 "Action", utf8 "Resource"] 0 (.obj members)).elim
              cur.Effect fun v => (decodeString v cur.Effect).1
          Action :=
            (fieldValue [utf8 "Effect", utf8 "Action", utf8 "Resource"] 1 (.obj members)).elim
              cur.Action fun v => (decodeSlice decodeString [] v cur.Action).1
          Resource :=
            (fieldValue [utf8 "Effect", utf8 "Action", utf8 "Resource"] 2 (.obj members)).elim
              cur.Resource fun v => (decodeSlice decodeString [] v cur.Resource).1 } := by
  have hlt := selected_lt [utf8 "Effect", utf8 "Action", utf8 "Resource"] members
  have hnd : ((selected [utf8 "Effect", utf8 "Action", utf8 "Resource"] members).map
      Prod.fst).Nodup := by
    simpa [namesOnce] using h
  simp only [decodePolicyStatement, decodeStruct, decodeMembers_fold, fieldValue]
  generalize selected [utf8 "Effect", utf8 "Action", utf8 "Resource"] members = pairs
    at hlt hnd
  clear h
  induction pairs generalizing cur with
  | nil => rfl
  | cons p rest ih =>
    obtain ⟨i, v⟩ := p
    simp only [List.map_cons, List.nodup_cons] at hnd
    have hi : i < 3 := hlt (i, v) (List.mem_cons_self _ _)
    have ih2 := fun c => ih c (fun q hq => hlt q (List.mem_cons_of_mem _ hq)) hnd.2
    have hnone := find_fst_none rest i hnd.1
    have h2 : i = 0 ∨ i = 1 ∨ i = 2 := by omega
    rcases h2 with rfl | rfl | rfl
    · simp [List.foldl_cons, ih2, hnone, List.find?_cons]
    · simp [List.foldl_cons, ih2, hnone, List.find?_cons]
    · simp [List.foldl_cons, ih2, hnone, List.find?_cons]

theorem decodePolicy_obj (members : List (GoString × JVal)) (cur : Policy)
    (h : namesOnce [utf8 "Statement", utf8 "Version"] (.obj members) = true) :
    (decodePolicy (.obj members) cur).1
      = { Statement := (fieldValue [utf8 "Statement", utf8 "Version"] 0 (.obj members)).elim
            cur.Statement fun v =>
              (decodeSlice decodePolicyStatement PolicyStatement.zero v cur.Statement).1
          Version := (fieldValue [utf8 "Statement", utf8 "Version"] 1 (.obj members)).elim
            cur.Version fun v => (decodeString v cur.Version).1 } := by
  have hlt := selected_lt [utf8 "Statement", utf8 "Version"] members
  have hnd : ((selected [utf8 "Statement", utf8 "Version"] members).map Prod.fst).Nodup := by
    simpa [namesOnce] using h
  simp only [decodePolicy, decodeStruct, decodeMembers_fold, fieldValue]
  generalize selected [utf8 "Statement", utf8 "Version"] members = pairs at hlt hnd
  clear h
  induction pairs generalizing cur with
  | nil => rfl
  | cons p rest ih =>
    obtain ⟨i, v⟩ := p
    simp only [List.map_cons, List.nodup_cons] at hnd
    have hi : i < 2 := hlt (i, v) (List.mem_cons_self _ _)
    have ih2 := fun c => ih c (fun q hq => hlt q (List.mem_cons_of_mem _ hq)) hnd.2
    have hnone := find_fst_none rest i hnd.1
    have h2 : i = 0 ∨ i = 1 := by omega
    rcases h2 with rfl | rfl
    · simp [List.foldl_cons, ih2, hnone, List.find?_cons]
    · simp [List.foldl_cons, ih2, hnone, List.find?_cons]

theorem elim_string (o : Option JVal) :
    (o.elim [] fun v => (decodeString v []).1) = stringOf o := by
  cases o with
  | none => rfl
  | some v => exact decodeString_fresh v

theorem elim_strings (o : Option JVal) :
    (o.elim Slice.nil fun v => (decodeSlice decodeString [] v Slice.nil).1)
      = sliceFrom (fun x => stringOf (some x)) o := by
  cases o with
  | none => rfl
  | some v => exact decodeStrings_fresh v

theorem elim_structs {α : Type} (dec : JVal → α → α × Option JsonError) (zero : α)
    (elem : JVal → α) (good : JVal → Bool)
    (hdec : ∀ x, good x = true → (dec x zero).1 = elem x) (o : Option JVal)
    (h : ∀ items, o = some (.arr items) → items.all good = true) :
    (o.elim Slice.nil fun v => (decodeSlice dec zero v Slice.nil).1) = sliceFrom elem o := by
  cases o with
  | none => rfl
  | some v =>
    simp only [Option.elim, decodeSlice_fresh]
    cases v with
    | arr items =>
      have hall := h items rfl
      simp only [sliceFrom]
      congr 1
      apply List.map_congr_left
      intro x hx
      exact hdec x (List.all_eq_true.mp hall x hx)
    | null => rfl
    | bool _ => rfl
    | num => rfl
    | str _ => rfl
    | obj _ => rfl

/-- Stored into the zero value, a JSON value gives the `Principal` it stands for. -/
theorem decodePrincipal_fresh (v : JVal)
    (h : namesOnce [utf8 "Service", utf8 "RAM"] v = true) :
    (decodePrincipal v Principal.zero).1 = principalOf (some v) := by
  cases v with
  | obj members =>
    rw [decodePrincipal_obj members _ h]
    simp only [Principal.zero, elim_strings, principalOf]
  | null => rfl
  | bool _ => rfl
  | num => rfl
  | str _ => rfl
  | arr _ => rfl

theorem decodeRolePolicyStatement_fresh (v : JVal) (h : onceRoleStatement v = true) :
    (decodeRolePolicyStatement v RolePolicyStatement.zero).1 = roleStatementOf v := by
  cases v with
  | obj members =>
    simp only [onceRoleStatement, Bool.and_eq_true] at h
    rw [decodeRolePolicyStatement_obj members _ h.1]
    simp only [RolePolicyStatement.zero, elim_string, roleStatementOf]
    congr 1
    cases hp : fieldValue [utf8 "Effect", utf8 "Action", utf8 "Principal"] 2 (.obj members) with
    | none => rfl
    | some p =>
      have h2 := h.2
      rw [hp] at h2
      exact decodePrincipal_fresh p h2
  | null => rfl
  | bool _ => rfl
  | num => rfl
  | str _ => rfl
  | arr _ => rfl

theorem decodePolicyStatement_fresh (v : JVal)
    (h : namesOnce [utf8 "Effect", utf8 "Action", utf8 "Resource"] v = true) :
    (decodePolicyStatement v PolicyStatement.zero).1 = policyStatementOf v := by
  cases v with
  | obj members =>
    rw [decodePolicyStatement_obj members _ h]
    simp only [PolicyStatement.zero, elim_string, elim_strings, policyStatementOf]
  | null => rfl
  | bool _ => rfl
  | num => rfl
  | str _ => rfl
  | arr _ => rfl

/-- Stored into the zero value, a JSON value that names no field twice gives the
`RolePolicy` it stands for. -/
theorem decodeRolePolicy_fresh (j : JVal) (h : onceRolePolicy j = true) :
    (decodeRolePolicy j RolePolicy.zero).1 = rolePolicyOf j := by
  cases j with
  | obj members =>
    simp only [onceRolePolicy, Bool.and_eq_true] at h
    rw [decodeRolePolicy_obj members _ h.1]
    simp only [RolePolicy.zero, elim_string, rolePolicyOf]
    congr 1
    apply elim_structs _ _ _ onceRoleStatement decodeRolePolicyStatement_fresh
    intro items hitems
    have h2 := h.2
    rw [hitems] at h2
    exact h2
  | null => rfl
  | bool _ => rfl
  | num => rfl
  | str _ => rfl
  | arr _ => rfl

/-- Stored into the zero value, a JSON value that names no field twice gives the
`Policy` it stands for. -/
theorem decodePolicy_fresh (j : JVal) (h : oncePolicy j = true) :
    (decodePolicy j Policy.zero).1 = policyOf j := by
  cases j with
  | obj members =>
    simp only [oncePolicy, Bool.and_eq_true] at h
    rw [decodePolicy_obj members _ h.1]
    simp only [Policy.zero, elim_string, policyOf]
    congr 1
    apply elim_structs _ _ _ (namesOnce [utf8 "Effect", utf8 "Action", utf8 "Resource"])
      decodePolicyStatement_fresh
    intro items hitems
    have h2 := h.2
    rw [hitems] at h2
    exact h2
  | null => rfl
  | bool _ => rfl
  | num => rfl
  | str _ => rfl
  | arr _ => rfl

/-! ## The nesting limit of the scanner -/

theorem reads_nested : ∀ n, Reads (n + 1) (nestedText n) (nestedArray n) := by
  intro n
  induction n with
  | zero =>
    have h := reads_array 0 [] (by simp)
    simpa [nestedText, nestedArray, joinComma] using h
  | succ n ih =>
    have h := reads_array (n + 1) [(nestedText n, nestedArray n)]
      (by
        intro it hit
        rw [List.mem_singleton] at hit
        subst hit
        refine ⟨ih, ?_⟩
        cases n with
        | zero => exact ⟨0x5B, _, rfl, by decide, by decide, by decide⟩
        | succ m => exact ⟨0x5B, _, rfl, by decide, by decide, by decide⟩)
    simpa [nestedText, nestedArray, joinComma] using h

theorem starts_nested (n : Nat) : StartsValue (nestedText n) := by
  cases n with
  | zero => exact ⟨0x5B, _, rfl, by decide, by decide, by decide⟩
  | succ m => exact ⟨0x5B, _, rfl, by decide, by decide, by decide⟩

theorem nesting_nestedArray : ∀ n, (nestedArray n).nesting = n + 1 := by
  intro n
  induction n with
  | zero => rfl
  | succ n ih => simp [nestedArray, JVal.nesting, nestingOfItems, ih]

theorem length_nestedText : ∀ n, (nestedText n).length = 2 * n + 2 := by
  intro n
  induction n with
  | zero => rfl
  | succ n ih =>
    simp only [nestedText, List.length_cons, List.length_append, ih, List.length_nil]
    omega

theorem reads_deepDocument (n : Nat) :
    Reads (n + 2) (deepDocument n) (JVal.obj [(utf8 "x", nestedArray n)]) := by
  have h := reads_object (n + 1) [("x", nestedText n, nestedArray n)] (by simp)
    (by
      intro m hm
      rw [List.mem_singleton] at hm
      subst hm
      exact ⟨reads_nested n, starts_nested n⟩)
  have e1 : utf8 "\x7b\"x\":" = 0x7B :: memberText "x" [] := by decide
  have e2 : utf8 "\x7d" = [0x7D] := by decide
  simp only [List.map_cons, List.map_nil, joinComma] at h
  rw [memberText_append] at h
  simp only [deepDocument, e1, e2]
  simpa using h

/-- The scanner, without the limit, reads a deep document as the object it is. -/
theorem parseValue_deepDocument (n : Nat) :
    parseValue (deepDocument n).length (deepDocument n)
      = some (JVal.obj [(utf8 "x", nestedArray n)], []) := by
  have hlen : n + 2 ≤ (deepDocument n).length := by
    simp only [deepDocument, List.length_append, length_nestedText]
    omega
  have h := reads_deepDocument n (deepDocument n).length [] hlen
  rwa [List.append_nil] at h

theorem skipSpace_deepDocument (n : Nat) : skipSpace (deepDocument n) = deepDocument n :=
  skipSpace_cons 0x7B _ (by decide)

/-- A document nested more than `maxNestingDepth` levels deep is a syntax error. -/
theorem parseJSON_deepDocument (n : Nat) (h : maxNestingDepth < n + 2) :
    parseJSON (deepDocument n) = none := by
  have hd : ¬ (JVal.obj [(utf8 "x", nestedArray n)]).nesting ≤ maxNestingDepth := by
    simp only [JVal.nesting, nestingOfMembers, nesting_nestedArray]
    simp only [Nat.zero_le, max_eq_left]
    omega
  simp only [parseJSON, skipSpace_deepDocument, parseValue_deepDocument]
  simp only [skipSpace, List.dropWhile_nil, ↓reduceIte, hd]

theorem parseJSON_of_scan (text rest : GoString) (j : JVal)
    (hscan : parseValue (skipSpace text).length (skipSpace text) = some (j, rest))
    (hrest : skipSpace rest = []) (hdepth : j.nesting ≤ maxNestingDepth) :
    parseJSON text = some j := by
  simp only [parseJSON, hscan, hrest, ↓reduceIte, hdepth]

/-- An object whose one member is no field fits both models, whatever the member holds. -/
theorem fits_unknown (v : JVal) :
    fitsPolicy (JVal.obj [(utf8 "x", v)]) = true
      ∧ fitsRolePolicy (JVal.obj [(utf8 "x", v)]) = true
      ∧ oncePolicy (JVal.obj [(utf8 "x", v)]) = true
      ∧ policyOf (JVal.obj [(utf8 "x", v)]) = Policy.zero :=
  ⟨rfl, rfl, rfl, rfl⟩

theorem nesting_unknown (n : Nat) : (JVal.obj [(utf8 "x", nestedArray n)]).nesting = n + 2 := by
  simp only [JVal.nesting, nestingOfMembers, nesting_nestedArray]
  simp

/-- C13 (as amended). Parsing tolerates members that are left out. Let `text` be
well-formed JSON text: the scanner reads the value `j` off it and only white space
follows; and let `j` be nested `maxNestingDepth` levels deep at most. If every value `j`
holds for a field has the kind of that field (`fits…`), both parsers return a nil
error; if moreover no object of `j` names a field twice (`once…`), the parser returns
exactly the model `j` stands for (`rolePolicyOf`, `policyOf`): a field no member names,
`Statement`, `Action`, `Resource`, `Principal`, `Service` or `RAM`, is the nil slice or
the zero value, and a field that is named holds the value of its member. -/
theorem Parse_tolerates_absent (text rest : GoString) (j : JVal)
    (hscan : parseValue (skipSpace text).length (skipSpace text) = some (j, rest))
    (hrest : skipSpace rest = []) (hdepth : j.nesting ≤ maxNestingDepth) :
    (fitsRolePolicy j = true → (ParseRolePolicyDocument text).2 = none)
    ∧ (fitsPolicy j = true → (ParsePolicyDocument text).2 = none)
    ∧ (fitsRolePolicy j = true → onceRolePolicy j = true →
        ParseRolePolicyDocument text = (rolePolicyOf j, none))
    ∧ (fitsPolicy j = true → oncePolicy j = true →
        ParsePolicyDocument text = (policyOf j, none)) := by
  have hj := parseJSON_of_scan text rest j hscan hrest hdepth
  have hrole : fitsRolePolicy j = true →
      ParseRolePolicyDocument text = ((decodeRolePolicy j RolePolicy.zero).1, none) := by
    intro hfit
    have h := (decodeRolePolicy_fits j RolePolicy.zero).mpr hfit
    simp only [ParseRolePolicyDocument, unmarshalRolePolicy, hj, h, Option.map_none']
  have hpol : fitsPolicy j = true →
      ParsePolicyDocument text = ((decodePolicy j Policy.zero).1, none) := by
    intro hfit
    have h := (decodePolicy_fits j Policy.zero).mpr hfit
    simp only [ParsePolicyDocument, unmarshalPolicy, hj, h, Option.map_none']
  refine ⟨?_, ?_, ?_, ?_⟩
  · intro hfit
    rw [hrole hfit]
  · intro hfit
    rw [hpol hfit]
  · intro hfit honce
    rw [hrole hfit, decodeRolePolicy_fresh j honce]
  · intro hfit honce
    rw [hpol hfit, decodePolicy_fresh j honce]

/-- Text the scanner refuses makes both parsers return the zero value and a syntax
error. -/
theorem parse_of_syntaxError (text : GoString) (h : parseJSON text = none) :
    ParsePolicyDocument text = (Policy.zero, some (.json .syntaxError))
      ∧ ParseRolePolicyDocument text = (RolePolicy.zero, some (.json .syntaxError)) := by
  constructor
  · simp [ParsePolicyDocument, unmarshalPolicy, h]
  · simp [ParseRolePolicyDocument, unmarshalRolePolicy, h]

set_option maxRecDepth 100000 in
/-- The text `{}` parses to the zero value with both parsers; statements that leave
out `Action` or `Resource`, and statements that leave out `Principal`, `Service` or
`RAM`, parse to nil slices next to the fields that are present; a document nested
exactly `maxNestingDepth` levels deep is still parsed. -/
theorem Parse_tolerates_absent_witness :
    ParseRolePolicyDocument (utf8 "\x7b\x7d") = (RolePolicy.zero, none)
    ∧ ParsePolicyDocument (utf8 "\x7b\x7d") = (Policy.zero, none)
    ∧ ParsePolicyDocument sparsePolicyText
        = ({ Statement := Slice.ofList
              [{ Effect := utf8 "Allow", Action := Slice.nil, Resource := Slice.nil },
               { Effect := [], Action := Slice.nil,
                 Resource := Slice.ofList [utf8 "acs:oss:*"] },
               { Effect := [], Action := Slice.nil, Resource := Slice.nil }]
             Version := utf8 "1" }, none)
    ∧ ParseRolePolicyDocument sparseRoleText
        = ({ Statement := Slice.ofList
              [{ Effect := [], Action := utf8 "sts:AssumeRole",
                 Principal := { Service := Slice.nil, RAM := Slice.nil } },
               { Effect := [], Action := [],
                 Principal := { Service := Slice.nil, RAM := Slice.ofList [utf8 "acct:1"] } },
               { Effect := [], Action := [],
                 Principal := { Service := Slice.nil, RAM := Slice.nil } }]
             Version := [] }, none)
    ∧ ParsePolicyDocument (deepDocument 9998) = (Policy.zero, none) :=
  ⟨(Parse_tolerates_absent (utf8 "\x7b\x7d") [] (.obj []) rfl rfl (by decide)).2.2.1 rfl rfl,
    (Parse_tolerates_absent (utf8 "\x7b\x7d") [] (.obj []) rfl rfl (by decide)).2.2.2 rfl rfl,
    (Parse_tolerates_absent sparsePolicyText [] _ rfl rfl (by decide)).2.2.2 rfl rfl,
    (Parse_tolerates_absent sparseRoleText [] _ rfl rfl (by decide)).2.2.1 rfl rfl,
    by
      have h := (Parse_tolerates_absent (deepDocument 9998) [] _
        (by rw [skipSpace_deepDocument]; exact parseValue_deepDocument 9998) rfl
        (by rw [nesting_unknown]; decide)).2.2.2 (fits_unknown _).1 (fits_unknown _).2.2.1
      rw [(fits_unknown _).2.2.2] at h
      exact h⟩

set_option maxRecDepth 100000 in
/-- C13 as stated fails on two kinds of well-formed JSON object that leave `Statement`,
or `Action` and `Resource`, out. The object `deepDocument 9999` is well formed and
holds no field at all, but it is nested 10001 levels deep: both parsers return the
zero value and a syntax error. In `repeatedText` the member `Statement` comes twice and
the statement of the second one has no `Action`: the second array is stored into the
elements of the first, so the statement returned has the effect of the second and
the action of the first. -/
theorem Parse_deep_or_repeated :
    parseValue (deepDocument 9999).length (deepDocument 9999)
        = some (JVal.obj [(utf8 "x", nestedArray 9999)], [])
      ∧ (JVal.obj [(utf8 "x", nestedArray 9999)]).nesting = 10001
      ∧ fitsPolicy (JVal.obj [(utf8 "x", nestedArray 9999)]) = true
      ∧ fitsRolePolicy (JVal.obj [(utf8 "x", nestedArray 9999)]) = true
      ∧ ParsePolicyDocument (deepDocument 9999) = (Policy.zero, some (.json .syntaxError))
      ∧ ParseRolePolicyDocument (deepDocument 9999)
        = (RolePolicy.zero, some (.json .syntaxError))
      ∧ ParsePolicyDocument repeatedText
        = ({ Statement := Slice.ofList
              [{ Effect := Deny, Action := Slice.ofList [utf8 "a"], Resource := Slice.nil }]
             Version := [] }, none) := by
  have hnone := parseJSON_deepDocument 9999 (by decide)
  exact ⟨parseValue_deepDocument 9999, nesting_unknown 9999, (fits_unknown _).1,
    (fits_unknown _).2.1, (parse_of_syntaxError _ hnone).1, (parse_of_syntaxError _ hnone).2,
    rfl⟩

theorem toList_sliceFrom {α : Type} (elem : JVal → α) (j : JVal) :
    (sliceFrom elem (fieldValue [utf8 "Statement", utf8 "Version"] 0 j)).toList
      = (statementItems j).map elem := by
  unfold statementItems
  cases fieldValue [utf8 "Statement", utf8 "Version"] 0 j with
  | none => rfl
  | some v => cases v <;> rfl

/-- C15 (as amended). `Effect` is a string with the two named values `Allow` and `Deny`, and
no function checks it. `AssembleRolePolicyDocument` always writes `Allow`.
`AssemblePolicyDocument` writes the effect string of each descriptor as it is given, and
`ParsePolicyDocument` reads it back. For every JSON text the scanner accepts, whose
values have the kind of their field and in which no object names a field twice, each
parser returns without error, and the `Effect` of each statement it returns is the
string that statement holds under `Effect` in the text (the empty string when it holds
none), whatever string that is. -/
theorem Effect_is_not_validated :
    (∀ (ramUser service : List Value) (version text : GoString),
        AssembleRolePolicyDocument ramUser service version = .ok (text, none) →
        ∃ policy : RolePolicy, text = encodeRolePolicy policy
          ∧ ∀ st ∈ policy.Statement.toList, st.Effect = Allow)
      ∧ (∀ (document : List Value) (descs : List Descriptor) (v : String),
          List.Forall₂ (fun val d => Descriptor.Describes d val) document descs →
          ∃ text policy, AssemblePolicyDocument document (utf8 v) = .ok (text, none)
            ∧ text = encodePolicy policy
            ∧ ParsePolicyDocument text = (policy, none)
            ∧ policy.Statement.toList.map (fun st => st.Effect)
              = descs.map fun d => utf8 d.effect)
      ∧ (∀ (text : GoString) (j : JVal), parseJSON text = some j →
          fitsPolicy j = true → oncePolicy j = true →
          ∃ policy, ParsePolicyDocument text = (policy, none)
            ∧ policy.Statement.toList.map (fun st => st.Effect)
              = (statementItems j).map fun s =>
                  stringOf (fieldValue [utf8 "Effect", utf8 "Action", utf8 "Resource"] 0 s))
      ∧ (∀ (text : GoString) (j : JVal), parseJSON text = some j →
          fitsRolePolicy j = true → onceRolePolicy j = true →
          ∃ policy, ParseRolePolicyDocument text = (policy, none)
            ∧ policy.Statement.toList.map (fun st => st.Effect)
              = (statementItems j).map fun s =>
                  stringOf (fieldValue [utf8 "Effect", utf8 "Action", utf8 "Principal"] 0 s)) := by
  refine ⟨assembleRole_emits_allow, ?_, ?_, ?_⟩
  · intro document descs v h
    refine ⟨_, _, assemblePolicy_describes document descs (utf8 v) h, rfl,
      parse_encodePolicy descs v, ?_⟩
    simp only [toList_sliceOf, List.map_map]
    rfl
  · intro text j hj hfit honce
    have h := (decodePolicy_fits j Policy.zero).mpr hfit
    refine ⟨policyOf j, ?_, ?_⟩
    · simp only [ParsePolicyDocument, unmarshalPolicy, hj, h, Option.map_none',
        decodePolicy_fresh j honce]
    · simp only [policyOf, toList_sliceFrom, List.map_map]
      rfl
  · intro text j hj hfit honce
    have h := (decodeRolePolicy_fits j RolePolicy.zero).mpr hfit
    refine ⟨rolePolicyOf j, ?_, ?_⟩
    · simp only [ParseRolePolicyDocument, unmarshalRolePolicy, hj, h, Option.map_none',
        decodeRolePolicy_fresh j honce]
    · simp only [rolePolicyOf, toList_sliceFrom, List.map_map]
      rfl

set_option maxRecDepth 100000 in
/-- The effect `Maybe` is returned by `ParsePolicyDocument` and by
`ParseRolePolicyDocument` for a statement that holds it. -/
theorem Effect_is_not_validated_witness :
    (∃ policy,
        ParsePolicyDocument (utf8 "\x7b\"Statement\":[\x7b\"Effect\":\"Maybe\"\x7d]\x7d")
          = (policy, none)
        ∧ policy.Statement.toList.map (fun st => st.Effect) = [utf8 "Maybe"])
      ∧ ∃ policy,
        ParseRolePolicyDocument (utf8 "\x7b\"Statement\":[\x7b\"Effect\":\"Maybe\"\x7d]\x7d")
          = (policy, none)
        ∧ policy.Statement.toList.map (fun st => st.Effect) = [utf8 "Maybe"] :=
  ⟨Effect_is_not_validated.2.2.1 (utf8 "\x7b\"Statement\":[\x7b\"Effect\":\"Maybe\"\x7d]\x7d")
      _ rfl rfl rfl,
    Effect_is_not_validated.2.2.2 (utf8 "\x7b\"Statement\":[\x7b\"Effect\":\"Maybe\"\x7d]\x7d")
      _ rfl rfl rfl⟩

end Alicloud
